import Mathlib

/-!
Shallow embedding of the decision-tree trainer of padster/eego: package
trees (src/unnamed/part_003) together with the comparison used from
util.DualSortII (src/util/dualsort.go).

Modelling conventions:
 - Go pointers to nodes are arena indices (the arena is an Array of nodes);
   node ids are assigned in allocation order, so the ids of the two children
   created by a split are strictly larger than the id of their parent.
 - Go int is modelled by Int.  The values involved are EEG sample values,
   frame counts and indices, far below the 64-bit range, so wrap-around
   is not modelled.
 - A Go panic (index out of range, nil dereference, makeslice with negative
   length, or an explicit call) is an Except.error carrying its message.
 - Go for-loops with data-independent bounds are structural recursion; the
   two-pointer partition and the heap sift loops get an explicit fuel that
   provably suffices, with exhaustion reported as a distinguished artifact
   error that is proved unreachable.
 - In the source, the inputs array of a node is a subslice of the arena
   owned by its root.  After a node is split its inputs are never read
   again (only leaves are scored and partitioned, and the traversals read
   only counts), and sibling subslices are disjoint, so giving every node
   its own list of frame indices is observationally equivalent.
-/

namespace Eego

/-- Message of a Go index-out-of-range runtime panic. -/
def idxMsg : String := "runtime error: index out of range"

/-- Message of a Go nil-pointer dereference runtime panic. -/
def nilMsg : String := "runtime error: invalid memory address or nil pointer dereference"

/-- Message of a Go makeslice panic (negative length). -/
def makesliceMsg : String := "runtime error: makeslice: len out of range"

/-- Artifact of the fuel-bounded embedding of a Go loop; proved unreachable. -/
def fuelMsg : String := "ARTIFACT: fuel exhausted"

/-- Go slice read a[i] on a slice of ints: panics when i is out of range. -/
def goGet (l : List Int) (i : Int) : Except String Int :=
  if i < 0 then .error idxMsg
  else match l.get? i.toNat with
    | some v => .ok v
    | none => .error idxMsg

/-- Data specific to branches (branchNode in the source); the children are
arena indices, none models a nil pointer. -/
structure BranchNode where
  decideFeature : Int
  decideCutoff : Int
  lowerChild : Option Nat
  highEqChild : Option Nat
deriving Repr, DecidableEq

/-- Node of a tree within the forest (node in the source). -/
structure Node where
  parent : Option Nat
  inputs : List Int
  classifyAsTrue : Bool
  misclassified : Int
  branchData : BranchNode
  isLeaf : Bool
  originalRoot : Nat
deriving Repr, DecidableEq

instance : Inhabited Node := ⟨⟨none, [], false, 0, ⟨-1, -1, none, none⟩, true, 0⟩⟩

/-- The Forest structure of the source; leafQueue and roots hold arena ids.
In Go those two slices start as nil pointers; every slot is assigned before
its first read (the root-creation loop covers every index below treeCount),
so slots are initialised with the dummy id 0 here. -/
structure Forest where
  frameSize : Int
  treeCount : Int
  minMisclassified : Int
  arena : Array Node
  leafQueue : Array Nat
  allowed : List (List Int)
  roots : Array Nat
  trainFrameCount : Int
  trainSamples : List Int
  trainExpected : List Int
deriving Repr, DecidableEq

/-- Dereference an arena id (valid by construction wherever used). -/
def getN (f : Forest) (id : Nat) : Node := f.arena.getD id default

/-- Write back a node at an arena id. -/
def setN (f : Forest) (id : Nat) (n : Node) : Forest :=
  { f with arena := f.arena.setD id n }

/-- NewForest (lines 95-121).  The source first allocates the per-tree
allowed lists (makeslice panics on a negative treeCount), then rejects any
tree count other than one, then builds allowed[0] = 0, ..., 2*frameSize-2
(makeslice panics when 2*frameSize-1 is negative). -/
def NewForest (frameSize treeCount minMisclassified : Int) : Except String Forest :=
  let features := 2 * frameSize - 1
  if treeCount < 0 then .error makesliceMsg
  else if treeCount ≠ 1 then .error "Forest currently only supports single tree"
  else if features < 0 then .error makesliceMsg
  else
    .ok { frameSize := frameSize
          treeCount := treeCount
          minMisclassified := minMisclassified
          arena := #[]
          leafQueue := Array.mkArray treeCount.toNat 0
          allowed := [(List.range features.toNat).map Int.ofNat]
          roots := Array.mkArray treeCount.toNat 0
          trainFrameCount := -1
          trainSamples := []
          trainExpected := [] }

/-- scoreForFrameAndFeature (lines 430-440). -/
def scoreForFrameAndFeature (f : Forest) (frame feature : Int) : Except String Int :=
  if feature < f.frameSize then goGet f.trainSamples (frame + feature)
  else if feature - f.frameSize < f.frameSize - 1 then do
    let first := frame + (feature - f.frameSize)
    let hi ← goGet f.trainSamples (first + 1)
    let lo ← goGet f.trainSamples first
    pure (hi - lo)
  else .error "TODO - support more features?"

/-- splitDetails (lines 249-256). -/
structure SplitDetails where
  splitValue : Int
  splitFeature : Int
  trueBelow : Bool
  misses : Int
  missesBelow : Int
  missesAbove : Int
deriving Repr, DecidableEq

/-- The comparison of util.DualSortII: by value, ties by frame index. -/
def dsiiLE (a b : Int × Int) : Bool :=
  a.1 < b.1 || (a.1 == b.1 && a.2 ≤ b.2)

def dsiiInsert (x : Int × Int) : List (Int × Int) → List (Int × Int)
  | [] => [x]
  | y :: ys => if dsiiLE x y then x :: y :: ys else y :: dsiiInsert x ys

/-- sort.Sort on a DualSortII pair of arrays.  The comparison is a total
order that is antisymmetric on pairs, so a sequence sorted with respect to
it is unique and independent of the sorting algorithm; insertion sort
realises it. -/
def dsiiSort : List (Int × Int) → List (Int × Int)
  | [] => []
  | x :: xs => dsiiInsert x (dsiiSort xs)

/-- Running counts of the sweep in splitReduction. -/
structure SweepCounts where
  trueBelow : Int
  trueAbove : Int
  falseBelow : Int
  falseAbove : Int
deriving Repr, DecidableEq

/-- The loop over splitBefore in splitReduction (lines 298-341).  The
skip-repeated-threshold check of the source leaves considerSplit true on
every path (its then-branch re-assigns true), so a candidate is evaluated
at every position; the embedding mirrors that net effect. -/
def sweep (f : Forest) (feature : Int) :
    List (Int × Int) → SweepCounts → SplitDetails → Except String SplitDetails
  | [], _, best => pure best
  | (thisSplit, frame) :: rest, c, best => do
      let missAsFalseBelow := c.trueBelow + c.falseAbove
      let missAsTrueBelow := c.falseBelow + c.trueAbove
      let best :=
        if missAsTrueBelow < missAsFalseBelow then
          if missAsTrueBelow < best.misses then
            ⟨thisSplit, feature, true, missAsTrueBelow, c.falseBelow, c.trueAbove⟩
          else best
        else
          if missAsFalseBelow < best.misses then
            ⟨thisSplit, feature, false, missAsFalseBelow, c.trueBelow, c.falseAbove⟩
          else best
      let lab ← goGet f.trainExpected (frame + f.frameSize - 1)
      let c :=
        if lab == 1 then
          { c with trueBelow := c.trueBelow + 1, trueAbove := c.trueAbove - 1 }
        else
          { c with falseBelow := c.falseBelow + 1, falseAbove := c.falseAbove - 1 }
      sweep f feature rest c best

/-- splitReduction (lines 259-346). -/
def splitReduction (f : Forest) (n : Node) (feature : Int) : Except String SplitDetails := do
  let nFrames : Int := n.inputs.length
  let c0 : SweepCounts :=
    if n.classifyAsTrue then
      ⟨0, nFrames - n.misclassified, 0, n.misclassified⟩
    else
      ⟨0, n.misclassified, 0, nFrames - n.misclassified⟩
  let pairs ← n.inputs.mapM (fun frame => do
    let v ← scoreForFrameAndFeature f frame feature
    pure (v, frame))
  let sorted := dsiiSort pairs
  -- the tmp debug array of the source (lines 289-292) reads the expected
  -- label of every frame; those reads can panic, so they are reproduced
  -- here even though the values are unused
  let _tmp ← sorted.mapM (fun p => goGet f.trainExpected (p.2 + f.frameSize - 1))
  sweep f feature sorted c0 ⟨-1, -1, false, n.misclassified, -1, -1⟩

/-- In-place swap of two slice entries. -/
def aswap (a : Array Int) (i j : Nat) : Array Int :=
  let x := a.getD i 0
  let y := a.getD j 0
  (a.setD i y).setD j x

/-- First inner loop of the partition in presplitOn (lines 354-362):
advance lo while the score test keeps matching trueBelow; k is the
distance hi - lo, so k = 0 encodes the guard lo < hi failing. -/
def advanceLo (f : Forest) (feat v : Int) (tb : Bool) (a : Array Int) :
    Nat → Nat → Except String Nat
  | 0, lo => pure lo
  | k+1, lo => do
      let sc ← scoreForFrameAndFeature f (a.getD lo 0) feat
      if (decide (sc < v)) != tb then pure lo
      else advanceLo f feat v tb a k (lo+1)

/-- Second inner loop of the partition (lines 363-369): retreat hi while
the score test differs from trueBelow; k is the distance hi - lo. -/
def retreatHi (f : Forest) (feat v : Int) (tb : Bool) (a : Array Int) :
    Nat → Nat → Except String Nat
  | 0, hi => pure hi
  | k+1, hi => do
      let sc ← scoreForFrameAndFeature f (a.getD hi 0) feat
      if (decide (sc < v)) == tb then pure hi
      else retreatHi f feat v tb a k (hi-1)

/-- Outer two-pointer loop of the partition (lines 352-375).  The fuel
2*size+2 given by presplitOn suffices: an iteration either moves a pointer
or swaps, and a swap forces the next iteration to move lo. -/
def partOuter (f : Forest) (feat v : Int) (tb : Bool) :
    Nat → Array Int → Nat → Nat → Except String (Array Int × Nat)
  | 0, _, _, _ => .error fuelMsg
  | fuel+1, a, lo, hi =>
      if lo < hi then do
        let lo ← advanceLo f feat v tb a (hi - lo) lo
        let hi ← retreatHi f feat v tb a (hi - lo) hi
        if lo ≠ hi then
          partOuter f feat v tb fuel (aswap a lo hi) lo hi
        else
          partOuter f feat v tb fuel a lo hi
      else pure (a, lo)

/-- Trailing loop of presplitOn (lines 376-383): bump the slice point past
the remaining matching elements; k is the distance size - lo. -/
def finalLo (f : Forest) (feat v : Int) (tb : Bool) (a : Array Int) :
    Nat → Nat → Except String Nat
  | 0, lo => pure lo
  | k+1, lo => do
      let sc ← scoreForFrameAndFeature f (a.getD lo 0) feat
      if (decide (sc < v)) != tb then pure lo
      else finalLo f feat v tb a k (lo+1)

/-- presplitOn (lines 349-409): partition the inputs of node nid in place,
slice at the partition point and attach two fresh leaf children carrying
the precomputed counts of the candidate.  In Go the children alias
disjoint halves of the parent slice; here they receive the two halves as
their own lists (see the module comment). -/
def presplitOn (f : Forest) (nid : Nat) (split : SplitDetails) : Except String Forest := do
  let n := getN f nid
  let a0 : Array Int := n.inputs.toArray
  let (a, lo) ← partOuter f split.splitFeature split.splitValue split.trueBelow
      (2 * a0.size + 2) a0 0 (a0.size - 1)
  let slicePoint ← finalLo f split.splitFeature split.splitValue split.trueBelow a
      (a.size - lo) lo
  let inputs := a.toList
  let lowId := f.arena.size
  let highId := f.arena.size + 1
  let lower : Node :=
    ⟨some nid, inputs.take slicePoint, split.trueBelow, split.missesBelow,
     ⟨-1, -1, none, none⟩, true, n.originalRoot⟩
  let upper : Node :=
    ⟨some nid, inputs.drop slicePoint, !split.trueBelow, split.missesAbove,
     ⟨-1, -1, none, none⟩, true, n.originalRoot⟩
  let n' := { n with
              inputs := inputs
              branchData := ⟨split.splitFeature, split.splitValue, some lowId, some highId⟩ }
  pure (setN { f with arena := (f.arena.push lower).push upper } nid n')

/-- The arena extension a split produces: the two fresh children of node
nid, in allocation order (lower then highEq), as presplitOn pushes them. -/
def splitArena (f : Forest) (nid : Nat) (sp : SplitDetails) (inputs : List Int)
    (sl : Nat) : Array Node :=
  (f.arena.push (Node.mk (some nid) (inputs.take sl) sp.trueBelow sp.missesBelow
      (BranchNode.mk (-1) (-1) none none) true (getN f nid).originalRoot)).push
    (Node.mk (some nid) (inputs.drop sl) (!sp.trueBelow) sp.missesAbove
      (BranchNode.mk (-1) (-1) none none) true (getN f nid).originalRoot)

/-- The updated parent node a split produces: same node with permuted
inputs and the branch data filled in with the candidate and the ids of the
two fresh children. -/
def splitParent (f : Forest) (nid : Nat) (sp : SplitDetails) (inputs : List Int) : Node :=
  { getN f nid with
    inputs := inputs
    branchData := BranchNode.mk sp.splitFeature sp.splitValue (some f.arena.size)
      (some (f.arena.size + 1)) }

/-- upperBar (line 231): the source computes int(float64(m) * 0.99), that
is, it multiplies by the double nearest to 0.99 and truncates toward zero.
The nearest double to 0.99 lies below it by 1/(25 * 2^52), so the exact
product differs from 0.99*m by a relative error under 2^-56, smaller than
half an ulp; the rounded product is therefore the double nearest to
0.99*m, and since 0.99*m is either an integer or at least 1/100 away from
one, truncation toward zero agrees with the exact value for every
|m| < 2^52.  Counts here are bounded by the frame count. -/
def goTrunc99 (m : Int) : Int :=
  if 0 ≤ m then ((99 * m.toNat) / 100 : Nat)
  else -(((99 * (-m).toNat) / 100 : Nat) : Int)

/-- precalcBestSplit (lines 205-246).  The source copies the allowed
feature list into a set keyed by feature; the list always holds distinct
features, so the set has the same size, and the fold below scans it in
list order (Go map iteration order is unspecified; only the choice among
candidates with equal misses depends on it). -/
def precalcBestSplit (f : Forest) (nid : Nat) : Except String Forest := do
  let n := getN f nid
  match f.allowed.get? n.originalRoot with
  | none => .error idxMsg
  | some allowedList =>
    if allowedList.length == 0 then pure f
    else do
      let upperBar := goTrunc99 n.misclassified
      let best ← allowedList.foldlM (fun best splitFeature => do
          let nextSplit ← splitReduction f n splitFeature
          pure (if nextSplit.misses < best.misses then nextSplit else best))
        (⟨-1, -1, false, upperBar, -1, -1⟩ : SplitDetails)
      if best.splitFeature ≠ -1 then presplitOn f nid best else pure f

/-- Dereference a child pointer: nil panics. -/
def childOrNil : Option Nat → Except String Nat
  | some id => pure id
  | none => .error nilMsg

/-- Swap of two queue entries (nodeQueue.Swap, lines 499-501). -/
def qswap (q : Array Nat) (i j : Nat) : Array Nat :=
  let x := q.getD i 0
  let y := q.getD j 0
  (q.setD i y).setD j x

/-- nodeQueue.Less (lines 487-497): ranks queued leaves by potential
misclassification reduction; dereferences both children of both nodes. -/
def queueLess (f : Forest) (q : Array Nat) (i j : Nat) : Except String Bool := do
  let I := getN f (q.getD i 0)
  let J := getN f (q.getD j 0)
  let il ← childOrNil I.branchData.lowerChild
  let ih ← childOrNil I.branchData.highEqChild
  let jl ← childOrNil J.branchData.lowerChild
  let jh ← childOrNil J.branchData.highEqChild
  let iFix := I.misclassified - ((getN f il).misclassified + (getN f ih).misclassified)
  let jFix := J.misclassified - ((getN f jl).misclassified + (getN f jh).misclassified)
  pure (iFix > jFix)

/-- down of container/heap on the nodeQueue.  The loop index at least
doubles each iteration, so fuel n+1 suffices (proved where needed). -/
def siftdown (f : Forest) : Nat → Array Nat → Nat → Nat → Except String (Array Nat)
  | 0, _, _, _ => .error fuelMsg
  | fuel+1, q, i, n =>
      let j1 := 2*i + 1
      if j1 ≥ n then pure q
      else do
        let j ← do
          let j2 := j1 + 1
          if j2 < n then do
            let b ← queueLess f q j2 j1
            pure (if b then j2 else j1)
          else pure j1
        let b ← queueLess f q j i
        if !b then pure q
        else siftdown f fuel (qswap q i j) j n

/-- up of container/heap on the nodeQueue.  For j = 0 the parent index
(j-1)/2 computed in Go ints is 0 again, ending the loop, and Nat
subtraction gives the same value. -/
def siftup (f : Forest) : Nat → Array Nat → Nat → Except String (Array Nat)
  | 0, _, _ => .error fuelMsg
  | fuel+1, q, j =>
      let i := (j - 1) / 2
      if i == j then pure q
      else do
        let b ← queueLess f q j i
        if !b then pure q
        else siftup f fuel (qswap q i j) i

/-- heap.Init: siftdown at n/2-1, ..., 0. -/
def heapInitLoop (f : Forest) : List Nat → Array Nat → Except String (Array Nat)
  | [], q => pure q
  | i :: rest, q => do
      let q ← siftdown f (q.size + 1) q i q.size
      heapInitLoop f rest q

def heapInitF (f : Forest) : Except String Forest := do
  let q ← heapInitLoop f ((List.range (f.leafQueue.size / 2)).reverse) f.leafQueue
  pure { f with leafQueue := q }

/-- heap.Push: append, then sift up from the last position. -/
def heapPushF (f : Forest) (x : Nat) : Except String Forest := do
  let q := f.leafQueue.push x
  let q ← siftup f q.size q (q.size - 1)
  pure { f with leafQueue := q }

/-- heap.Pop: swap the top with the last element, sift down over the
shortened prefix, then remove and return the last element.  Only called
with a nonempty queue (the loop guards on the length). -/
def heapPopF (f : Forest) : Except String (Nat × Forest) := do
  let q := f.leafQueue
  let n := q.size - 1
  let q := qswap q 0 n
  let q ← siftdown f (q.size + 1) q 0 n
  let r := q.getD n 0
  pure (r, { f with leafQueue := q.pop })

/-- convertToBranch (lines 444-461): flip the node to a branch; for each
child in turn, if it still misclassifies, precompute its best split and
enqueue it when one was recorded.  The Go nil dereference on a missing
child happens at the read of its misclassified field, after the other
child was fully processed, which the ordering here preserves. -/
def convertToBranch (f : Forest) (nid : Nat) : Except String Forest := do
  let f := setN f nid { getN f nid with isLeaf := false }
  let n := getN f nid
  let f ← do
    let lc ← childOrNil n.branchData.lowerChild
    if (getN f lc).misclassified > 0 then do
      let f ← precalcBestSplit f lc
      if (getN f lc).branchData.decideFeature ≠ -1 then heapPushF f lc else pure f
    else pure f
  let uc ← childOrNil n.branchData.highEqChild
  if (getN f uc).misclassified > 0 then do
    let f ← precalcBestSplit f uc
    if (getN f uc).branchData.decideFeature ≠ -1 then heapPushF f uc else pure f
  else pure f

/-- The trueCount loop of Train (lines 131-136): counts frames whose
end-aligned expected label is 1. -/
def trueCount (f : Forest) : Except String Int :=
  (List.range f.trainFrameCount.toNat).foldlM (fun (acc : Int) (i : Nat) => do
    let lab ← goGet f.trainExpected ((i : Int) + f.frameSize - 1)
    pure (if lab == 1 then acc + 1 else acc)) 0

/-- The inputs of a fresh root: make([]int, frameCount) then the fill loop
writes j at position j (lines 149 and 162-164). -/
def rootInputs (frameCount : Int) : List Int :=
  (List.range frameCount.toNat).map Int.ofNat

/-- The root node literal created by Train (lines 147-158), with its
inputs already filled. -/
def mkRoot (frameCount : Int) (moreTrue : Bool) (misclassified : Int) (i : Nat) : Node :=
  ⟨none, rootInputs frameCount, moreTrue, misclassified, ⟨-1, -1, none, none⟩, true, i⟩

/-- Lines 124-166 of Train: record the training data, count the
end-aligned true labels, derive the majority classification and its error
count, then create and presplit one root per tree.  make([]int,
frameCount) panics when the frame count is negative, checked inside the
per-tree loop exactly where the allocation happens. -/
def trainSetup (f : Forest) (samples expected : List Int) : Except String Forest := do
  let f := { f with
             trainSamples := samples
             trainExpected := expected
             trainFrameCount := (samples.length : Int) - f.frameSize + 1 }
  let tc ← trueCount f
  let moreTrue := decide (tc > (f.trainFrameCount - tc))
  let misclassified := if moreTrue then f.trainFrameCount - tc else tc
  (List.range f.treeCount.toNat).foldlM (fun f i => do
      if f.trainFrameCount < 0 then .error makesliceMsg
      else do
        let rootId := f.arena.size
        let f := { f with
                   arena := f.arena.push (mkRoot f.trainFrameCount moreTrue misclassified i)
                   roots := f.roots.setD i rootId
                   leafQueue := f.leafQueue.setD i rootId }
        precalcBestSplit f rootId) f

/-- Result of the fuel-bounded growth loop: done is a state in which the
loop exited on its own; more is the state after the given number of
iterations when the loop had not yet exited. -/
inductive LoopRes where
  | done : Forest → LoopRes
  | more : Forest → LoopRes
deriving Repr, DecidableEq

/-- The growth loop of Train (lines 170-183): while the queue is
nonempty, pop the highest-priority leaf; stop when it has no recorded
candidate split or its misclassified count is below the threshold,
otherwise convert it to a branch and continue. -/
def trainLoop (f : Forest) : Nat → Except String LoopRes
  | 0 => pure (.more f)
  | fuel+1 =>
      if f.leafQueue.size > 0 then do
        let (nid, f) ← heapPopF f
        let nextLeaf := getN f nid
        if nextLeaf.branchData.decideFeature == -1 then pure (.done f)
        else if nextLeaf.misclassified < f.minMisclassified then pure (.done f)
        else do
          let f ← convertToBranch f nid
          trainLoop f fuel
      else pure (.done f)

/-- Train (lines 124-184): setup, heap.Init, then the growth loop. -/
def Train (f : Forest) (samples expected : List Int) (fuel : Nat) : Except String LoopRes := do
  let f ← trainSetup f samples expected
  let f ← heapInitF f
  trainLoop f fuel

/-- The whole training call: NewForest followed by Train. -/
def trainRun (frameSize treeCount minMisclassified : Int)
    (samples expected : List Int) (fuel : Nat) : Except String LoopRes := do
  let f ← NewForest frameSize treeCount minMisclassified
  Train f samples expected fuel

/-- totalErrors (lines 412-418) over the arena; the fuel only needs to
exceed the tree depth, and child ids strictly exceed their parent id, so
the arena size suffices. -/
def totalErrorsA (ar : Array Node) : Nat → Nat → Int
  | 0, _ => 0
  | k+1, id =>
      let n := ar.getD id default
      if n.isLeaf then n.misclassified
      else totalErrorsA ar k (n.branchData.lowerChild.getD 0) +
           totalErrorsA ar k (n.branchData.highEqChild.getD 0)

def totalErrors (f : Forest) (id : Nat) : Int := totalErrorsA f.arena f.arena.size id

/-- subtreeSize (lines 420-427). -/
def subtreeSizeA (ar : Array Node) : Nat → Nat → Int
  | 0, _ => 0
  | k+1, id =>
      let n := ar.getD id default
      if n.isLeaf then 1
      else 1 + subtreeSizeA ar k (n.branchData.lowerChild.getD 0) +
           subtreeSizeA ar k (n.branchData.highEqChild.getD 0)

/-- DecisionNodes (lines 187-193). -/
def DecisionNodes (f : Forest) : Int :=
  f.roots.foldl (fun acc r => acc + subtreeSizeA f.arena f.arena.size r) 0

/-- AverageErrors (lines 196-202); the float64 division is modelled
exactly in the rationals (for the magnitudes involved, and a root count
of one, the float64 computation is exact). -/
def AverageErrors (f : Forest) : ℚ :=
  ((f.roots.foldl (fun acc r => acc + totalErrors f r) 0 : Int) : ℚ) / (f.roots.size : ℚ)

/-- The multiset of frame indices over the leaves of the subtree at id. -/
def leafFramesA (ar : Array Node) : Nat → Nat → Multiset Int
  | 0, _ => 0
  | k+1, id =>
      let n := ar.getD id default
      if n.isLeaf then (n.inputs : Multiset Int)
      else leafFramesA ar k (n.branchData.lowerChild.getD 0) +
           leafFramesA ar k (n.branchData.highEqChild.getD 0)

instance : Inhabited Forest :=
  ⟨⟨0, 0, 0, #[], #[], [], #[], 0, [], []⟩⟩

/-- The label the training attributes to a frame: the expected label at the
end-aligned offset frame + frameSize - 1 (out of range reads as 0; all uses
are in range). -/
def frameLabel (f : Forest) (fr : Int) : Int :=
  f.trainExpected.getD (fr + f.frameSize - 1).toNat 0

/-- The number of frames of a node whose end-aligned label disagrees with
the classification stored on the node (the quantity the spec calls the
misclassified count of a node). -/
def actualMisCount (f : Forest) (n : Node) : Int :=
  ((n.inputs.filter (fun fr => ((frameLabel f fr == 1) != n.classifyAsTrue))).length : Int)

/-- The count of frames, end-aligned at offset fs - 1, whose label is 1,
over frames 0, ..., F-1 (the quantity the trueCount loop of Train
computes). -/
def endLabelTrueCount (expected : List Int) (fs F : Int) : Int :=
  ((List.range F.toNat).filter
    (fun i => expected.getD (i + (fs - 1).toNat) 0 == 1)).length

/-- True when a full training call ran to one of its natural exits. -/
def finishedOk : Except String LoopRes → Bool
  | .ok (.done _) => true
  | _ => false

/-- Extract the final forest of a completed run. -/
def finalForest : Except String LoopRes → Forest
  | .ok (.done f) => f
  | _ => default

/-- The concrete scenario of the spec: samples 10,15,11,12,8,3,7, labels
0,1,0,1,0,0,1, frame size 2, threshold 0. -/
def specScenarioRun : Except String LoopRes :=
  trainRun 2 1 0 [10, 15, 11, 12, 8, 3, 7] [0, 1, 0, 1, 0, 0, 1] 10

def specScenarioForest : Forest := finalForest specScenarioRun

/-- The forest value NewForest builds for the concrete scenario. -/
def specSetupF0 : Forest :=
  match NewForest 2 1 0 with | .ok g => g | _ => default

/-- The forest state right after trainSetup on the concrete scenario. -/
def specSetupF1 : Forest :=
  match trainSetup specSetupF0 [10, 15, 11, 12, 8, 3, 7] [0, 1, 0, 1, 0, 0, 1] with
  | .ok g => g | _ => default

/-- A trained-and-initialised state whose single queued root has no
recorded candidate split (all labels equal, so the root has no error). -/
def noCandFixture : Forest :=
  match (do
    let f ← NewForest 1 1 0
    let f ← trainSetup f [1, 2] [0, 0]
    heapInitF f) with
  | .ok g => g | _ => default

/-- The state right after popping the root of noCandFixture. -/
def poppedNoCand : Forest :=
  match heapPopF noCandFixture with | .ok (_, g) => g | _ => default

/-- A trained-and-initialised state whose queued root has a candidate but
a misclassified count below the (large) threshold. -/
def bigMinFixture : Forest :=
  match (do
    let f ← NewForest 2 1 100
    let f ← trainSetup f [10, 15, 11, 12, 8, 3, 7] [0, 1, 0, 1, 0, 0, 1]
    heapInitF f) with
  | .ok g => g | _ => default

/-- The state right after popping the root of bigMinFixture. -/
def poppedBigMin : Forest :=
  match heapPopF bigMinFixture with | .ok (_, g) => g | _ => default

/-- The state of the concrete scenario just before the root presplit: one
freshly created root leaf (6 frames, majority false, 3 misclassified). -/
def preRootFixture : Forest :=
  { frameSize := 2, treeCount := 1, minMisclassified := 0,
    arena := #[mkRoot 6 (decide ((3 : Int) > 6 - 3)) 3 0],
    leafQueue := #[0], allowed := [[0, 1, 2]], roots := #[0],
    trainFrameCount := 6, trainSamples := [10, 15, 11, 12, 8, 3, 7],
    trainExpected := [0, 1, 0, 1, 0, 0, 1] }

/-- The state after running precalcBestSplit on the root of
preRootFixture. -/
def postPrecalcFixture : Forest :=
  match precalcBestSplit preRootFixture 0 with | .ok g => g | _ => default

/-- A forest fixture with frame size 3 and four samples, used to witness
the feature-extractor boundary of the spec. -/
def scoreFixture : Forest :=
  { frameSize := 3, treeCount := 1, minMisclassified := 0,
    arena := #[], leafQueue := #[], allowed := [[0, 1, 2, 3, 4]], roots := #[0],
    trainFrameCount := 2, trainSamples := [4, 7, 9, 12], trainExpected := [0, 1, 1, 0] }

/-- Pure mirror of the feature extractor on in-range arguments: reads by
getD instead of panicking; it agrees with scoreForFrameAndFeature wherever
the latter returns ok (proved below). -/
def pureScore (f : Forest) (frame feature : Int) : Int :=
  if feature < f.frameSize then f.trainSamples.getD (frame + feature).toNat 0
  else f.trainSamples.getD (frame + (feature - f.frameSize) + 1).toNat 0
       - f.trainSamples.getD (frame + (feature - f.frameSize)).toNat 0

/-- The partition predicate of presplitOn: a frame belongs to the front
(lower) part exactly when its score test matches trueBelow. -/
def frontP (f : Forest) (feat v : Int) (tb : Bool) (x : Int) : Bool :=
  decide (pureScore f x feat < v) == tb

/-- Every entry of a working array scores without a panic, to its pure
score value. -/
def scOK (f : Forest) (feat : Int) (a : Array Int) : Prop :=
  ∀ x ∈ a.toList, scoreForFrameAndFeature f x feat = Except.ok (pureScore f x feat)

/-- An arena id whose node has both child pointers set. -/
def HasKids (f : Forest) (id : Nat) : Prop :=
  (getN f id).branchData.lowerChild ≠ none ∧ (getN f id).branchData.highEqChild ≠ none

/-- Local well-formedness of an arena slot, maintained by every training
step: the inputs are frame indices; the node belongs to tree 0; and either
the node is an untouched leaf (no children, no recorded candidate), or it
carries a recorded candidate with two later-allocated children whose
stored misclassified counts sum below the bar of the node's own count and
whose input multisets partition the node's inputs. -/
def NodeOkAt (f : Forest) (id : Nat) : Prop :=
  (∀ fr ∈ (getN f id).inputs, 0 ≤ fr ∧ fr < f.trainFrameCount) ∧
  (getN f id).originalRoot = 0 ∧
  (((getN f id).branchData.lowerChild = none ∧
    (getN f id).branchData.highEqChild = none ∧
    (getN f id).branchData.decideFeature = -1 ∧
    (getN f id).isLeaf = true) ∨
   (∃ l h : Nat,
      (getN f id).branchData.lowerChild = some l ∧
      (getN f id).branchData.highEqChild = some h ∧
      id < l ∧ l < f.arena.size ∧ id < h ∧ h < f.arena.size ∧
      0 ≤ (getN f id).misclassified ∧
      (getN f l).misclassified + (getN f h).misclassified
        < goTrunc99 (getN f id).misclassified ∧
      ((getN f l).inputs : Multiset Int) + ((getN f h).inputs : Multiset Int)
        = ((getN f id).inputs : Multiset Int)))

/-- Global well-formedness of a training state, established right after
setup and preserved by every iteration of the growth loop. -/
structure Inv (f : Forest) : Prop where
  fsPos : 1 ≤ f.frameSize
  flen : f.trainFrameCount = (f.trainSamples.length : Int) - f.frameSize + 1
  elen : f.trainSamples.length ≤ f.trainExpected.length
  allowedEq : f.allowed = [(List.range (2 * f.frameSize - 1).toNat).map Int.ofNat]
  rootsEq : f.roots = #[0]
  arenaPos : 0 < f.arena.size
  rootMs : ((getN f 0).inputs : Multiset Int)
    = ((rootInputs f.trainFrameCount : List Int) : Multiset Int)
  queueIds : ∀ id ∈ f.leafQueue.toList, id < f.arena.size
  queueKids : (∀ id ∈ f.leafQueue.toList, HasKids f id) ∨ f.leafQueue.size ≤ 1
  nodesOk : ∀ id, id < f.arena.size → NodeOkAt f id

/-- The fields of a forest the growth loop never writes. -/
def StaticEq (f g : Forest) : Prop :=
  g.frameSize = f.frameSize ∧ g.treeCount = f.treeCount ∧
  g.minMisclassified = f.minMisclassified ∧ g.allowed = f.allowed ∧
  g.roots = f.roots ∧ g.trainFrameCount = f.trainFrameCount ∧
  g.trainSamples = f.trainSamples ∧ g.trainExpected = f.trainExpected

/-- The arena only grows and the stored misclassified count of every
existing node never changes. -/
def MisKeep (f g : Forest) : Prop :=
  f.arena.size ≤ g.arena.size ∧
  ∀ id, id < f.arena.size →
    (getN g id).misclassified = (getN f id).misclassified

/-- The forest carried by either loop outcome. -/
def resForest : LoopRes → Forest
  | .done g => g
  | .more g => g

/-- The training state just before the root precalc of a single-tree
forest: one fresh root leaf over all frames, queue and root tables
pointing at it. -/
def preRootState (fs minM : Int) (samples expected : List Int) (mT : Bool) (mis : Int) :
    Forest :=
  { frameSize := fs, treeCount := 1, minMisclassified := minM,
    arena := #[mkRoot ((samples.length : Int) - fs + 1) mT mis 0],
    leafQueue := #[0],
    allowed := [(List.range (2 * fs - 1).toNat).map Int.ofNat], roots := #[0],
    trainFrameCount := (samples.length : Int) - fs + 1,
    trainSamples := samples, trainExpected := expected }

/-- The forest NewForest builds for a single tree (before rejection
checks this is the literal of its return). -/
def newForestState (fs minM : Int) : Forest :=
  { frameSize := fs, treeCount := 1, minMisclassified := minM, arena := #[],
    leafQueue := Array.mkArray (1 : Int).toNat 0,
    allowed := [(List.range (2 * fs - 1).toNat).map Int.ofNat],
    roots := Array.mkArray (1 : Int).toNat 0, trainFrameCount := -1,
    trainSamples := [], trainExpected := [] }

/-- The facts the sweep guarantees about any candidate it records for a
node: the recorded value is the score of one of the node's frames at the
recorded feature, and the two stored counts are the running below-counts
(both nonnegative, together bounded by the number of already-processed
frames, hence by the frame list length minus one) and the matching
above-count, an initial total minus the complementary below-count.  These
are read off the source's count updates in splitReduction. -/
def CandAt (f : Forest) (n : Node) (sd : SplitDetails) : Prop :=
  (∃ fr ∈ n.inputs, scoreForFrameAndFeature f fr sd.splitFeature = .ok sd.splitValue) ∧
  ∃ t u : Int, 0 ≤ t ∧ 0 ≤ u ∧ t + u ≤ (n.inputs.length : Int) - 1 ∧
    sd.misses = sd.missesBelow + sd.missesAbove ∧
    ((sd.trueBelow = true ∧ sd.missesBelow = u ∧
       sd.missesAbove
         = (if n.classifyAsTrue then (n.inputs.length : Int) - n.misclassified
            else n.misclassified) - t) ∨
     (sd.trueBelow = false ∧ sd.missesBelow = t ∧
       sd.missesAbove
         = (if n.classifyAsTrue then n.misclassified
            else (n.inputs.length : Int) - n.misclassified) - u))

/-- The per-node facts that drive the termination measure: the input list
and the stored count stay within the global frame count, and the children
of a split node satisfy the count and size relations the sweep and the
partition enforce (the lower child's count is a nonnegative below-count
short of the parent size; child sizes sum to the parent's; a child as
large as its parent is classified false, and when the parent is also
classified false the lower child's count strictly dropped). -/
def NodeOk2 (f : Forest) (id : Nat) : Prop :=
  ((getN f id).inputs.length : Int) ≤ f.trainFrameCount ∧
  (getN f id).misclassified ≤ f.trainFrameCount ∧
  ∀ l h : Nat, (getN f id).branchData.lowerChild = some l →
    (getN f id).branchData.highEqChild = some h →
    (0 ≤ (getN f l).misclassified ∧
     (getN f l).misclassified < ((getN f id).inputs.length : Int) ∧
     (getN f l).inputs.length + (getN f h).inputs.length = (getN f id).inputs.length ∧
     ((getN f h).inputs.length = (getN f id).inputs.length →
        (getN f h).classifyAsTrue = false) ∧
     ((getN f l).inputs.length = (getN f id).inputs.length →
        (getN f l).classifyAsTrue = false) ∧
     ((getN f l).classifyAsTrue = false → (getN f id).classifyAsTrue = false →
        (getN f l).misclassified < (getN f id).misclassified))

/-- The invariant extended with the termination bookkeeping: a nonnegative
frame count and the per-node measure facts. -/
structure Inv2 (f : Forest) : Prop where
  base : Inv f
  fnn : 0 ≤ f.trainFrameCount
  nodes2 : ∀ id, id < f.arena.size → NodeOk2 f id

/-- Rank of a classification in the termination measure: a same-size child
is always classified false, so false ranks below true. -/
def clsRank (b : Bool) : Nat := if b then 1 else 0

/-- The termination measure of a single queued node: lexicographically its
input-list size, then its classification rank, then its stored count
clamped to the frame count, flattened over the base frameCount + 1. -/
def eMeasure (f : Forest) (id : Nat) : Nat :=
  (2 * (getN f id).inputs.length + clsRank (getN f id).classifyAsTrue)
      * (f.trainFrameCount.toNat + 1)
    + min (getN f id).misclassified.toNat f.trainFrameCount.toNat

/-- Sum of exponentiated node measures over a multiset of ids. -/
def subMeasure (f : Forest) (s : Multiset Nat) : Nat :=
  (s.map (fun id => 3 ^ eMeasure f id)).sum

/-- The global termination measure: every conversion pops one queued leaf
and pushes at most two nodes of strictly smaller measure, so this sum
strictly decreases. -/
def queueMeasure (f : Forest) : Nat :=
  subMeasure f (f.leafQueue.toList : Multiset Nat)

/-! ## Basic facts about the embedding primitives -/

theorem goGet_ok_iff {l : List Int} {i v : Int} :
    goGet l i = .ok v ↔ 0 ≤ i ∧ l.get? i.toNat = some v := by
  unfold goGet
  by_cases h : i < 0
  · simp only [if_pos h]
    constructor
    · intro hc; cases hc
    · intro hc; omega
  · simp only [if_neg h]
    constructor
    · intro hc
      refine ⟨by omega, ?_⟩
      cases hg : l.get? i.toNat with
      | none => rw [hg] at hc; cases hc
      | some a => rw [hg] at hc; cases hc; rfl
    · intro hc
      rw [hc.2]

theorem goGet_ok_of {l : List Int} {i v : Int} (h0 : 0 ≤ i)
    (h : l.get? i.toNat = some v) : goGet l i = .ok v :=
  goGet_ok_iff.mpr ⟨h0, h⟩

section ArrayFacts

variable {α : Type _}

theorem arrGetD_setD_self (a : Array α) (i : Nat) (v d : α) (h : i < a.size) :
    (a.setD i v).getD i d = v := by
  unfold Array.setD
  rw [dif_pos h, Array.getD_eq_get?]
  have h2 : (a.set ⟨i, h⟩ v)[i]? = some v := Array.getElem?_set_eq a ⟨i, h⟩ v
  rw [h2]
  rfl

theorem arrGetD_setD_ne (a : Array α) (i j : Nat) (v d : α) (h : j ≠ i) :
    (a.setD i v).getD j d = a.getD j d := by
  unfold Array.setD
  split
  next hlt =>
    rw [Array.getD_eq_get?, Array.getD_eq_get?]
    have h2 : (a.set ⟨i, hlt⟩ v)[j]? = a[j]? :=
      Array.getElem?_set_ne a ⟨i, hlt⟩ v (fun hh => h hh.symm)
    rw [h2]
  next => rfl

theorem arrGetD_push_lt (a : Array α) (v d : α) (j : Nat) (h : j < a.size) :
    (a.push v).getD j d = a.getD j d := by
  rw [Array.getD_eq_get?, Array.getD_eq_get?, Array.getElem?_push, if_neg (by omega)]

theorem arrGetD_push_eq (a : Array α) (v d : α) : (a.push v).getD a.size d = v := by
  rw [Array.getD_eq_get?, Array.getElem?_push, if_pos rfl]
  rfl

theorem arrGetD_of_ge (a : Array α) (d : α) (j : Nat) (h : a.size ≤ j) :
    a.getD j d = d := by
  rw [Array.getD_eq_get?, Array.getElem?_len_le a h]
  rfl

theorem arrGetD_eq_toListGet (a : Array Int) (j : Nat) (hj : j < a.size) :
    a.getD j 0 = a.toList.get ⟨j, by simpa using hj⟩ := by
  rw [Array.getD_eq_get?, Array.getElem?_eq_getElem hj]
  rfl

theorem arrGetD_eq_toListGet_any (a : Array α) (d : α) (j : Nat) (hj : j < a.size) :
    a.getD j d = a.toList.get ⟨j, by simpa using hj⟩ := by
  rw [Array.getD_eq_get?, Array.getElem?_eq_getElem hj]
  rfl

theorem arrGetD_mem (a : Array α) (d : α) (j : Nat) (hj : j < a.size) :
    a.getD j d ∈ a.toList := by
  rw [arrGetD_eq_toListGet_any a d j hj]
  exact List.get_mem _ _ _

end ArrayFacts

theorem getN_setN_self {f : Forest} {id : Nat} {n : Node} (h : id < f.arena.size) :
    getN (setN f id n) id = n := by
  simp [getN, setN, arrGetD_setD_self _ _ _ _ h]

theorem getN_setN_ne {f : Forest} {id j : Nat} {n : Node} (h : j ≠ id) :
    getN (setN f id n) j = getN f j := by
  simp [getN, setN, arrGetD_setD_ne _ _ _ _ _ h]

section MultisetSwap

variable {α : Type _}

/-- Replacing position k and re-adding the element that was there is, as a
multiset, the same as adjoining the new element. -/
theorem ms_set (t : List α) :
    ∀ (k : Nat) (hk : k < t.length) (a : α),
      (t.set k a : Multiset α) + {t.get ⟨k, hk⟩} = a ::ₘ (t : Multiset α) := by
  induction t with
  | nil => intro k hk; cases hk
  | cons b r ih =>
      intro k hk a
      cases k with
      | zero =>
          show ((a :: r : List α) : Multiset α) + {b} = a ::ₘ ((b :: r : List α) : Multiset α)
          rw [← Multiset.cons_coe, ← Multiset.cons_coe, Multiset.cons_add, add_comm,
            Multiset.singleton_add]
      | succ k =>
          show ((b :: r.set k a : List α) : Multiset α) + {r.get ⟨k, by simpa using hk⟩} =
            a ::ₘ ((b :: r : List α) : Multiset α)
          rw [← Multiset.cons_coe, ← Multiset.cons_coe, Multiset.cons_add,
            ih k (by simpa using hk) a, Multiset.cons_swap]

/-- Swapping two distinct (in-range) entries of a list preserves its
multiset of entries. -/
theorem list_swap_ms (l : List α) (i j : Nat) (hi : i < l.length) (hj : j < l.length)
    (hij : i ≠ j) :
    (((l.set i (l.get ⟨j, hj⟩)).set j (l.get ⟨i, hi⟩) : List α) : Multiset α)
      = (l : Multiset α) := by
  have hlj : j < (l.set i (l.get ⟨j, hj⟩)).length := by simpa using hj
  have e1 := ms_set (l.set i (l.get ⟨j, hj⟩)) j hlj (l.get ⟨i, hi⟩)
  have egj : (l.set i (l.get ⟨j, hj⟩)).get ⟨j, hlj⟩ = l.get ⟨j, hj⟩ :=
    List.getElem_set_ne hij hlj
  rw [egj] at e1
  have e2 := ms_set l i hi (l.get ⟨j, hj⟩)
  have key : (((l.set i (l.get ⟨j, hj⟩)).set j (l.get ⟨i, hi⟩) : List α) : Multiset α)
      + ({l.get ⟨j, hj⟩} + {l.get ⟨i, hi⟩})
      = (l : Multiset α) + ({l.get ⟨j, hj⟩} + {l.get ⟨i, hi⟩}) := by
    calc (((l.set i (l.get ⟨j, hj⟩)).set j (l.get ⟨i, hi⟩) : List α) : Multiset α)
        + ({l.get ⟨j, hj⟩} + {l.get ⟨i, hi⟩})
        = ((((l.set i (l.get ⟨j, hj⟩)).set j (l.get ⟨i, hi⟩) : List α) : Multiset α)
            + {l.get ⟨j, hj⟩}) + {l.get ⟨i, hi⟩} := by abel
      _ = ((l.get ⟨i, hi⟩) ::ₘ ((l.set i (l.get ⟨j, hj⟩) : List α) : Multiset α))
            + {l.get ⟨i, hi⟩} := by rw [e1]
      _ = ({l.get ⟨i, hi⟩} + ((l.set i (l.get ⟨j, hj⟩) : List α) : Multiset α))
            + {l.get ⟨i, hi⟩} := by simp only [Multiset.singleton_add]
      _ = {l.get ⟨i, hi⟩} + (((l.set i (l.get ⟨j, hj⟩) : List α) : Multiset α)
            + {l.get ⟨i, hi⟩}) := by abel
      _ = {l.get ⟨i, hi⟩} + ((l.get ⟨j, hj⟩) ::ₘ (l : Multiset α)) := by rw [e2]
      _ = {l.get ⟨i, hi⟩} + ({l.get ⟨j, hj⟩} + (l : Multiset α)) := by
            simp only [Multiset.singleton_add]
      _ = (l : Multiset α) + ({l.get ⟨j, hj⟩} + {l.get ⟨i, hi⟩}) := by abel
  exact add_right_cancel key

/-- The in-place swap of two distinct in-range entries preserves the
multiset of entries. -/
theorem aswap_ms (a : Array Int) (i j : Nat) (hi : i < a.size) (hj : j < a.size)
    (hij : i ≠ j) :
    ((aswap a i j).toList : Multiset Int) = (a.toList : Multiset Int) := by
  have hi' : i < a.toList.length := by simpa using hi
  have hj' : j < a.toList.length := by simpa using hj
  have hgi : a.getD i 0 = a.toList.get ⟨i, hi'⟩ := arrGetD_eq_toListGet a i hi
  have hgj : a.getD j 0 = a.toList.get ⟨j, hj'⟩ := arrGetD_eq_toListGet a j hj
  show (((a.setD i (a.getD j 0)).setD j (a.getD i 0)).toList : Multiset Int)
      = (a.toList : Multiset Int)
  unfold Array.setD
  rw [dif_pos hi]
  have hsz : j < (a.set ⟨i, hi⟩ (a.getD j 0)).size := by simpa using hj
  rw [dif_pos hsz]
  rw [Array.toList_set, Array.toList_set]
  show (((a.toList.set i (a.getD j 0)).set j (a.getD i 0) : List Int) : Multiset Int)
      = (a.toList : Multiset Int)
  rw [hgi, hgj]
  exact list_swap_ms a.toList i j hi' hj' hij

/-- The queue swap of two distinct in-range entries preserves the multiset of
queued ids. -/
theorem qswap_ms (a : Array Nat) (i j : Nat) (hi : i < a.size) (hj : j < a.size)
    (hij : i ≠ j) :
    ((qswap a i j).toList : Multiset Nat) = (a.toList : Multiset Nat) := by
  have hi' : i < a.toList.length := by simpa using hi
  have hj' : j < a.toList.length := by simpa using hj
  have hgi : a.getD i 0 = a.toList.get ⟨i, hi'⟩ := arrGetD_eq_toListGet_any a 0 i hi
  have hgj : a.getD j 0 = a.toList.get ⟨j, hj'⟩ := arrGetD_eq_toListGet_any a 0 j hj
  show (((a.setD i (a.getD j 0)).setD j (a.getD i 0)).toList : Multiset Nat)
      = (a.toList : Multiset Nat)
  unfold Array.setD
  rw [dif_pos hi]
  have hsz : j < (a.set ⟨i, hi⟩ (a.getD j 0)).size := by simpa using hj
  rw [dif_pos hsz]
  rw [Array.toList_set, Array.toList_set]
  show (((a.toList.set i (a.getD j 0)).set j (a.getD i 0) : List Nat) : Multiset Nat)
      = (a.toList : Multiset Nat)
  rw [hgi, hgj]
  exact list_swap_ms a.toList i j hi' hj' hij

end MultisetSwap

theorem exceptBind_ok {α β : Type _} (a : α) (k : α → Except String β) :
    (Except.ok a >>= k) = k a := rfl

theorem exceptBind_err {α β : Type _} (e : String) (k : α → Except String β) :
    ((Except.error e : Except String α) >>= k) = Except.error e := rfl

/-! ## The partition of presplitOn permutes the inputs -/

theorem aswap_size (a : Array Int) (i j : Nat) : (aswap a i j).size = a.size := by
  simp [aswap, Array.size_setD]

theorem advanceLo_ok {f : Forest} {feat v : Int} {tb : Bool} {a : Array Int} :
    ∀ {k lo lo' : Nat}, advanceLo f feat v tb a k lo = .ok lo' →
      lo ≤ lo' ∧ lo' ≤ lo + k := by
  intro k
  induction k with
  | zero =>
      intro lo lo' h
      cases h
      omega
  | succ k ih =>
      intro lo lo' h
      unfold advanceLo at h
      cases hsc : scoreForFrameAndFeature f (a.getD lo 0) feat with
      | error e => rw [hsc] at h; cases h
      | ok sc =>
          rw [hsc, exceptBind_ok] at h
          split at h
          · cases h; omega
          · have := ih h
            omega

theorem retreatHi_ok {f : Forest} {feat v : Int} {tb : Bool} {a : Array Int} :
    ∀ {k hi hi' : Nat}, retreatHi f feat v tb a k hi = .ok hi' →
      hi' ≤ hi ∧ hi ≤ hi' + k := by
  intro k
  induction k with
  | zero =>
      intro hi hi' h
      cases h
      omega
  | succ k ih =>
      intro hi hi' h
      unfold retreatHi at h
      cases hsc : scoreForFrameAndFeature f (a.getD hi 0) feat with
      | error e => rw [hsc] at h; cases h
      | ok sc =>
          rw [hsc, exceptBind_ok] at h
          split at h
          · cases h; omega
          · have := ih h
            omega

theorem partOuter_ms {f : Forest} {feat v : Int} {tb : Bool} :
    ∀ {fuel : Nat} {a : Array Int} {lo hi : Nat} {a' : Array Int} {lo' : Nat},
      (hhi : hi < a.size ∨ hi = 0) →
      partOuter f feat v tb fuel a lo hi = .ok (a', lo') →
      ((a'.toList : Multiset Int) = (a.toList : Multiset Int) ∧ a'.size = a.size) := by
  intro fuel
  induction fuel with
  | zero => intro a lo hi a' lo' hhi h; cases h
  | succ fuel ih =>
      intro a lo hi a' lo' hhi h
      unfold partOuter at h
      by_cases hlt : lo < hi
      · rw [if_pos hlt] at h
        cases hadv : advanceLo f feat v tb a (hi - lo) lo with
        | error e => rw [hadv, exceptBind_err] at h; cases h
        | ok lo1 =>
            rw [hadv, exceptBind_ok] at h
            cases hret : retreatHi f feat v tb a (hi - lo1) hi with
            | error e => rw [hret, exceptBind_err] at h; cases h
            | ok hi1 =>
                rw [hret, exceptBind_ok] at h
                have hb1 := advanceLo_ok hadv
                have hb2 := retreatHi_ok hret
                have hszpos : hi < a.size := by
                  rcases hhi with hx | hx
                  · exact hx
                  · omega
                split at h
                next hne =>
                    have hlo1 : lo1 < a.size := by omega
                    have hhi1 : hi1 < a.size := by omega
                    have hrec := ih
                      (by rw [aswap_size]; exact Or.inl (by omega : hi1 < a.size)) h
                    refine ⟨?_, ?_⟩
                    · rw [hrec.1, aswap_ms a lo1 hi1 hlo1 hhi1 hne]
                    · rw [hrec.2, aswap_size]
                next =>
                    exact ih (Or.inl (by omega)) h
      · rw [if_neg hlt] at h
        cases h
        exact ⟨rfl, rfl⟩

/-! ## Shape of presplitOn and precalcBestSplit -/

theorem presplitOn_ok_shape {f : Forest} {nid : Nat} {sp : SplitDetails} {f' : Forest}
    (h : presplitOn f nid sp = .ok f') :
    ∃ (inputs : List Int) (sl : Nat),
      (inputs : Multiset Int) = ((getN f nid).inputs : Multiset Int) ∧
      inputs.length = (getN f nid).inputs.length ∧
      f' = setN { f with arena := splitArena f nid sp inputs sl } nid
          (splitParent f nid sp inputs) := by
  simp only [presplitOn] at h
  cases hpart : partOuter f sp.splitFeature sp.splitValue sp.trueBelow
      (2 * ((getN f nid).inputs.toArray).size + 2) ((getN f nid).inputs.toArray) 0
      (((getN f nid).inputs.toArray).size - 1) with
  | error e => rw [hpart, exceptBind_err] at h; cases h
  | ok pr =>
      rw [hpart, exceptBind_ok] at h
      obtain ⟨a, lo⟩ := pr
      cases hfin : finalLo f sp.splitFeature sp.splitValue sp.trueBelow a (a.size - lo) lo with
      | error e => rw [hfin, exceptBind_err] at h; cases h
      | ok sl =>
          rw [hfin, exceptBind_ok] at h
          have hms := partOuter_ms
            (by
              by_cases hz : ((getN f nid).inputs.toArray).size = 0
              · exact Or.inr (by omega)
              · exact Or.inl (by omega)) hpart
          cases h
          refine ⟨a.toList, sl, ?_, ?_, rfl⟩
          · rw [hms.1]
          · have := congrArg Multiset.card (hms.1)
            simpa using this

theorem precalc_ok_cases {f : Forest} {nid : Nat} {f' : Forest}
    (h : precalcBestSplit f nid = .ok f') :
    f' = f ∨ ∃ sp : SplitDetails, sp.splitFeature ≠ -1 ∧ presplitOn f nid sp = .ok f' := by
  simp only [precalcBestSplit] at h
  split at h
  next => cases h
  next allowedList haList =>
      split at h
      next hz =>
          cases h
          exact Or.inl rfl
      next hz =>
          cases hfold : allowedList.foldlM (fun best splitFeature => do
              let nextSplit ← splitReduction f (getN f nid) splitFeature
              pure (if nextSplit.misses < best.misses then nextSplit else best))
            (⟨-1, -1, false, goTrunc99 (getN f nid).misclassified, -1, -1⟩ : SplitDetails) with
          | error e => rw [hfold, exceptBind_err] at h; cases h
          | ok best =>
              rw [hfold, exceptBind_ok] at h
              split at h
              next hbf => exact Or.inr ⟨best, hbf, h⟩
              next hbf =>
                  cases h
                  exact Or.inl rfl

theorem precalc_preserves {f f' : Forest} {nid : Nat} (hn : nid < f.arena.size)
    (h : precalcBestSplit f nid = .ok f') :
    (getN f' nid).classifyAsTrue = (getN f nid).classifyAsTrue ∧
    (getN f' nid).misclassified = (getN f nid).misclassified ∧
    (getN f' nid).isLeaf = (getN f nid).isLeaf ∧
    (getN f' nid).parent = (getN f nid).parent ∧
    (getN f' nid).originalRoot = (getN f nid).originalRoot ∧
    ((getN f' nid).inputs : Multiset Int) = ((getN f nid).inputs : Multiset Int) ∧
    f'.frameSize = f.frameSize ∧ f'.treeCount = f.treeCount ∧
    f'.minMisclassified = f.minMisclassified ∧ f'.allowed = f.allowed ∧
    f'.roots = f.roots ∧ f'.leafQueue = f.leafQueue ∧
    f'.trainFrameCount = f.trainFrameCount ∧
    f'.trainSamples = f.trainSamples ∧ f'.trainExpected = f.trainExpected := by
  rcases precalc_ok_cases h with hid | ⟨sp, _, hps⟩
  · subst hid
    exact ⟨rfl, rfl, rfl, rfl, rfl, rfl, rfl, rfl, rfl, rfl, rfl, rfl, rfl, rfl, rfl⟩
  · obtain ⟨inputs, sl, hms, hlen, hshape⟩ := presplitOn_ok_shape hps
    subst hshape
    have hsz : nid < ({ f with arena := splitArena f nid sp inputs sl } : Forest).arena.size := by
      simp [splitArena]
      omega
    rw [getN_setN_self hsz]
    refine ⟨rfl, rfl, rfl, rfl, rfl, hms, rfl, rfl, rfl, rfl, rfl, rfl, rfl, rfl, rfl⟩

/-! ## C6: the feature extractor contract -/

/-- C6: for frames fully inside the series, feature indices below frameSize
return the raw sample at that offset of the frame, indices in
[frameSize, 2*frameSize-1) return the difference of the two adjacent
samples at offset featureIndex - frameSize, and any larger index fails
with the unsupported-feature panic. -/
theorem claim_C6 (f : Forest) (frame feature : Int)
    (hfr : 0 ≤ frame) (hfs : 1 ≤ f.frameSize)
    (hspan : frame + f.frameSize ≤ f.trainSamples.length) :
    (0 ≤ feature → feature < f.frameSize →
      ∀ v, f.trainSamples.get? (frame + feature).toNat = some v →
        scoreForFrameAndFeature f frame feature = .ok v) ∧
    (f.frameSize ≤ feature → feature < 2 * f.frameSize - 1 →
      ∀ v w, f.trainSamples.get? (frame + (feature - f.frameSize)).toNat = some v →
        f.trainSamples.get? (frame + (feature - f.frameSize) + 1).toNat = some w →
        scoreForFrameAndFeature f frame feature = .ok (w - v)) ∧
    (2 * f.frameSize - 1 ≤ feature →
      scoreForFrameAndFeature f frame feature = .error "TODO - support more features?") := by
  unfold scoreForFrameAndFeature
  refine ⟨?_, ?_, ?_⟩
  · intro h0 hlt v hv
    rw [if_pos hlt]
    exact goGet_ok_of (by omega) hv
  · intro hge hlt v w hv hw
    rw [if_neg (by omega), if_pos (by omega)]
    simp only [goGet_ok_of (by omega) hw, goGet_ok_of (by omega) hv]
    rfl
  · intro hge
    rw [if_neg (by omega), if_neg (by omega)]

theorem claim_C6_wit :
    (0 ≤ (0 : Int) ∧ (1 : Int) ≤ scoreFixture.frameSize ∧
      (0 : Int) + scoreFixture.frameSize ≤ scoreFixture.trainSamples.length) ∧
    scoreForFrameAndFeature scoreFixture 0 4 = .ok (9 - 7) ∧
    scoreForFrameAndFeature scoreFixture 0 5 = .error "TODO - support more features?" ∧
    scoreForFrameAndFeature scoreFixture 1 2 = .ok 12 := by
  refine ⟨by decide, ?_, ?_, ?_⟩
  · exact (claim_C6 scoreFixture 0 4 (by decide) (by decide) (by decide)).2.1
      (by decide) (by decide) 7 9 (by decide) (by decide)
  · exact (claim_C6 scoreFixture 0 5 (by decide) (by decide) (by decide)).2.2 (by decide)
  · exact (claim_C6 scoreFixture 1 2 (by decide) (by decide) (by decide)).1
      (by decide) (by decide) 12 (by decide)

/-! ## C1: the setup phase of Train -/

theorem exceptPure_bind {α β : Type _} (a : α) (k : α → Except String β) :
    ((pure a : Except String α) >>= k) = k a := rfl

theorem goGet_ok_getD {l : List Int} {i : Int} (h0 : 0 ≤ i) (hlt : i.toNat < l.length) :
    goGet l i = .ok (l.getD i.toNat 0) := by
  apply goGet_ok_of h0
  rw [List.get?_eq_getElem?, List.getElem?_eq_getElem hlt, List.getD_eq_getElem?_getD,
    List.getElem?_eq_getElem hlt]
  rfl

theorem trueCountFold (expected : List Int) (fs : Int) (hfs : 1 ≤ fs) :
    ∀ (l : List Nat) (acc : Int),
      (∀ i ∈ l, ((i : Int) + fs - 1) < (expected.length : Int)) →
      l.foldlM (fun acc i => do
          let lab ← goGet expected ((i : Int) + fs - 1)
          pure (if lab == 1 then acc + 1 else acc)) acc
        = .ok (acc +
            ((l.filter (fun i => expected.getD (i + (fs - 1).toNat) 0 == 1)).length : Int)) := by
  intro l
  induction l with
  | nil =>
      intro acc hin
      rw [List.foldlM_nil]
      show Except.ok acc = _
      simp
  | cons i t ih =>
      intro acc hin
      have hidx0 : 0 ≤ (i : Int) + fs - 1 := by omega
      have hidx : ((i : Int) + fs - 1).toNat < expected.length := by
        have := hin i (by simp)
        omega
      have hidxeq : ((i : Int) + fs - 1).toNat = i + (fs - 1).toNat := by omega
      rw [List.foldlM_cons, goGet_ok_getD hidx0 hidx, exceptBind_ok, exceptPure_bind, hidxeq]
      by_cases hlab : (expected.getD (i + (fs - 1).toNat) 0 == 1) = true
      · rw [if_pos hlab, ih (acc + 1) (fun j hj => hin j (by simp [hj]))]
        have hfil : List.filter (fun j => expected.getD (j + (fs - 1).toNat) 0 == 1) (i :: t)
            = i :: List.filter (fun j => expected.getD (j + (fs - 1).toNat) 0 == 1) t := by
          rw [List.filter_cons]
          simp only [hlab]
          simp
        rw [hfil, List.length_cons]
        congr 1
        push_cast
        omega
      · rw [if_neg hlab, ih acc (fun j hj => hin j (by simp [hj]))]
        have hlab2 : (expected.getD (i + (fs - 1).toNat) 0 == 1) = false := by
          simpa using hlab
        have hfil : List.filter (fun j => expected.getD (j + (fs - 1).toNat) 0 == 1) (i :: t)
            = List.filter (fun j => expected.getD (j + (fs - 1).toNat) 0 == 1) t := by
          rw [List.filter_cons]
          simp only [hlab2]
          simp
        rw [hfil]

theorem trueCount_eval (f : Forest) (hfs : 1 ≤ f.frameSize)
    (hrange : f.trainFrameCount + f.frameSize - 1 ≤ (f.trainExpected.length : Int)) :
    trueCount f = .ok (endLabelTrueCount f.trainExpected f.frameSize f.trainFrameCount) := by
  unfold trueCount endLabelTrueCount
  rw [trueCountFold f.trainExpected f.frameSize hfs (List.range f.trainFrameCount.toNat) 0
    (fun i hi => by
      have hi2 : i < f.trainFrameCount.toNat := List.mem_range.mp hi
      omega)]
  rw [zero_add]

/-- C1: the frame count computed by Train is len(samples) - frameSize + 1;
the label attributed to frame i is labels[i + frameSize - 1] (so the true
count is the count of end-aligned labels equal to one); and the root node
created for the single tree is a leaf holding every frame index 0, ...,
frameCount-1, classified with the majority of the end-aligned labels
(ties classified false), whose misclassified count is the minimum of the
number of frames labeled 1 and the number labeled 0.  The root keeps those
fields afterwards; only its inputs may be reordered by the initial
presplit, which preserves them as a multiset. -/
theorem claim_C1 (fs minM : Int) (samples expected : List Int) (f0 f1 : Forest)
    (hnew : NewForest fs 1 minM = .ok f0)
    (hsetup : trainSetup f0 samples expected = .ok f1)
    (hlen : expected.length = samples.length)
    (hfs1 : 1 ≤ fs) (hfs2 : fs ≤ (samples.length : Int)) :
    f1.trainFrameCount = (samples.length : Int) - fs + 1 ∧
    trueCount f1 = .ok (endLabelTrueCount expected fs f1.trainFrameCount) ∧
    (getN f1 0).classifyAsTrue =
      decide (2 * endLabelTrueCount expected fs f1.trainFrameCount > f1.trainFrameCount) ∧
    (getN f1 0).misclassified =
      min (endLabelTrueCount expected fs f1.trainFrameCount)
        (f1.trainFrameCount - endLabelTrueCount expected fs f1.trainFrameCount) ∧
    (getN f1 0).isLeaf = true ∧
    (getN f1 0).parent = none ∧
    ((getN f1 0).inputs : Multiset Int) = (rootInputs f1.trainFrameCount : Multiset Int) := by
  -- resolve the constructor call
  unfold NewForest at hnew
  rw [if_neg (by norm_num), if_neg (by simp), if_neg (by omega)] at hnew
  cases hnew
  -- unfold the setup
  simp only [trainSetup] at hsetup
  rw [trueCount_eval _ (by simpa using hfs1) (by simpa using by omega :
      ((samples.length : Int) - fs + 1) + fs - 1 ≤ (expected.length : Int))] at hsetup
  rw [exceptBind_ok] at hsetup
  simp only at hsetup
  rw [show (List.range (Int.toNat 1) : List Nat) = [0] from rfl, List.foldlM_cons] at hsetup
  simp only at hsetup
  rw [if_neg (by omega : ¬ ((samples.length : Int) - fs + 1 < 0))] at hsetup
  simp only [List.foldlM_nil, bind_pure] at hsetup
  rw [show (#[] : Array Node).size = 0 from rfl] at hsetup
  obtain ⟨hcls, hmis, hleaf, hpar, horig, hinp, hfs', htc', hmm', hal', hroots', hq', hF',
    hS', hE'⟩ := precalc_preserves (by simp) hsetup
  have hF1 : f1.trainFrameCount = (samples.length : Int) - fs + 1 := hF'
  have hE1 : f1.trainExpected = expected := hE'
  have hfs1' : f1.frameSize = fs := hfs'
  refine ⟨hF1, ?_, ?_, ?_, ?_, ?_, ?_⟩
  · rw [trueCount_eval f1 (by rw [hfs1']; exact hfs1) (by rw [hF1, hfs1', hE1]; omega)]
    rw [hE1, hfs1']
  · rw [hcls, hF1]
    show decide (endLabelTrueCount expected fs ((samples.length : Int) - fs + 1) >
        ((samples.length : Int) - fs + 1) -
          endLabelTrueCount expected fs ((samples.length : Int) - fs + 1)) = _
    rw [decide_eq_decide]
    omega
  · rw [hmis, hF1]
    show (if decide (endLabelTrueCount expected fs ((samples.length : Int) - fs + 1) >
        ((samples.length : Int) - fs + 1) -
          endLabelTrueCount expected fs ((samples.length : Int) - fs + 1)) = true then
        ((samples.length : Int) - fs + 1) -
          endLabelTrueCount expected fs ((samples.length : Int) - fs + 1)
      else endLabelTrueCount expected fs ((samples.length : Int) - fs + 1)) = _
    by_cases hmt : endLabelTrueCount expected fs ((samples.length : Int) - fs + 1) >
        ((samples.length : Int) - fs + 1) -
          endLabelTrueCount expected fs ((samples.length : Int) - fs + 1)
    · rw [if_pos (by simpa using hmt)]
      omega
    · rw [if_neg (by simpa using hmt)]
      omega
  · rw [hleaf]
    rfl
  · rw [hpar]
    rfl
  · rw [hinp, hF1]
    rfl

theorem claim_C1_wit :
    specSetupF1.trainFrameCount = (([10, 15, 11, 12, 8, 3, 7] : List Int).length : Int) - 2 + 1 ∧
    (getN specSetupF1 0).classifyAsTrue =
      decide (2 * endLabelTrueCount [0, 1, 0, 1, 0, 0, 1] 2 specSetupF1.trainFrameCount >
        specSetupF1.trainFrameCount) ∧
    (getN specSetupF1 0).misclassified = 3 := by
  have h := claim_C1 2 0 [10, 15, 11, 12, 8, 3, 7] [0, 1, 0, 1, 0, 0, 1] specSetupF0 specSetupF1
    rfl rfl rfl (by decide) (by decide)
  refine ⟨h.1, h.2.2.1, ?_⟩
  rw [h.2.2.2.1]
  decide

/-! ## C2: the growth loop stops globally at the first unsplittable pop -/

theorem trainLoop_step_done {f f' : Forest} {nid : Nat} {fuel : Nat}
    (hq : 0 < f.leafQueue.size)
    (hpop : heapPopF f = .ok (nid, f'))
    (hstop : (getN f' nid).branchData.decideFeature = -1 ∨
      ((getN f' nid).branchData.decideFeature ≠ -1 ∧
        (getN f' nid).misclassified < f'.minMisclassified)) :
    trainLoop f (fuel + 1) = .ok (.done f') := by
  unfold trainLoop
  rw [if_pos hq, hpop, exceptBind_ok]
  show (if ((getN f' nid).branchData.decideFeature == -1) = true then pure (.done f')
    else if (getN f' nid).misclassified < f'.minMisclassified then pure (.done f')
    else do
      let g ← convertToBranch f' nid
      trainLoop g fuel) = Except.ok (.done f')
  rcases hstop with hnc | ⟨hc, hlt⟩
  · have hb : ((getN f' nid).branchData.decideFeature == -1) = true := by
      simp [hnc]
    rw [hb, if_pos rfl]
    rfl
  · have hb : ((getN f' nid).branchData.decideFeature == -1) = false := by
      simp [hc]
    rw [hb, if_neg (by simp), if_pos hlt]
    rfl

/-- C2: the growth loop exits globally, with no further node of any tree
split, in exactly three situations: an empty queue; a popped
highest-priority leaf with no recorded candidate split; and a popped leaf
whose misclassified count is below minMisclassified.  In the latter two
cases the returned state is the one right after the pop, so the leaves
remaining in the queue are never split even when they hold candidates. -/
theorem claim_C2 (f : Forest) (fuel : Nat) :
    (f.leafQueue.size = 0 → trainLoop f (fuel + 1) = .ok (.done f)) ∧
    (∀ nid f', 0 < f.leafQueue.size → heapPopF f = .ok (nid, f') →
      (getN f' nid).branchData.decideFeature = -1 →
      trainLoop f (fuel + 1) = .ok (.done f')) ∧
    (∀ nid f', 0 < f.leafQueue.size → heapPopF f = .ok (nid, f') →
      (getN f' nid).branchData.decideFeature ≠ -1 →
      (getN f' nid).misclassified < f'.minMisclassified →
      trainLoop f (fuel + 1) = .ok (.done f')) := by
  refine ⟨?_, ?_, ?_⟩
  · intro hq
    unfold trainLoop
    rw [if_neg (by omega)]
    rfl
  · intro nid f' hq hpop hnc
    exact trainLoop_step_done hq hpop (Or.inl hnc)
  · intro nid f' hq hpop hc hlt
    exact trainLoop_step_done hq hpop (Or.inr ⟨hc, hlt⟩)

theorem claim_C2_wit :
    trainLoop scoreFixture 4 = .ok (.done scoreFixture) ∧
    trainLoop noCandFixture 1 = .ok (.done poppedNoCand) ∧
    trainLoop bigMinFixture 1 = .ok (.done poppedBigMin) := by
  refine ⟨?_, ?_, ?_⟩
  · exact (claim_C2 scoreFixture 3).1 rfl
  · exact (claim_C2 noCandFixture 0).2.1 0 poppedNoCand (by decide) rfl (by decide)
  · exact (claim_C2 bigMinFixture 0).2.2 0 poppedBigMin (by decide) rfl (by decide) (by decide)

/-! ## C3: the acceptance bar of precalcBestSplit -/

theorem goTrunc99_le {m : Int} (hm : 0 ≤ m) : goTrunc99 m ≤ m := by
  unfold goTrunc99
  rw [if_pos hm]
  omega

theorem goTrunc99_floor {m : Int} (hm : 0 ≤ m) :
    100 * goTrunc99 m ≤ 99 * m ∧ 99 * m < 100 * (goTrunc99 m + 1) := by
  unfold goTrunc99
  rw [if_pos hm]
  omega

theorem sweep_cases {f : Forest} {feature : Int} :
    ∀ {l : List (Int × Int)} {c : SweepCounts} {best res : SplitDetails},
      sweep f feature l c best = .ok res →
      res = best ∨ (res.splitFeature = feature ∧ res.misses < best.misses) := by
  intro l
  induction l with
  | nil =>
      intro c best res h
      cases h
      exact Or.inl rfl
  | cons p t ih =>
      intro c best res h
      obtain ⟨thisSplit, frame⟩ := p
      unfold sweep at h
      cases hlab : goGet f.trainExpected (frame + f.frameSize - 1) with
      | error e => rw [hlab, exceptBind_err] at h; cases h
      | ok lab =>
          rw [hlab, exceptBind_ok] at h
          rcases ih h with hres | ⟨hfeat, hlt⟩
          · subst hres
            split
            next hcmp =>
                split
                next hlt2 => exact Or.inr ⟨rfl, hlt2⟩
                next => exact Or.inl rfl
            next hcmp =>
                split
                next hlt2 => exact Or.inr ⟨rfl, hlt2⟩
                next => exact Or.inl rfl
          · refine Or.inr ⟨hfeat, ?_⟩
            revert hlt
            split
            next hcmp =>
                split
                next hlt2 => intro hlt; simp only at hlt; omega
                next => intro hlt; exact hlt
            next hcmp =>
                split
                next hlt2 => intro hlt; simp only at hlt; omega
                next => intro hlt; exact hlt

theorem splitReduction_cases {f : Forest} {n : Node} {feature : Int} {sd : SplitDetails}
    (h : splitReduction f n feature = .ok sd) :
    sd = ⟨-1, -1, false, n.misclassified, -1, -1⟩ ∨
      (sd.splitFeature = feature ∧ sd.misses < n.misclassified) := by
  simp only [splitReduction] at h
  cases hp : n.inputs.mapM (fun frame => do
      let v ← scoreForFrameAndFeature f frame feature
      pure (v, frame)) with
  | error e => rw [hp, exceptBind_err] at h; cases h
  | ok pairs =>
      rw [hp, exceptBind_ok] at h
      cases ht : (dsiiSort pairs).mapM (fun p => goGet f.trainExpected (p.2 + f.frameSize - 1)) with
      | error e => rw [ht, exceptBind_err] at h; cases h
      | ok tmp =>
          rw [ht, exceptBind_ok] at h
          rcases sweep_cases h with hres | ⟨hfeat, hlt⟩
          · exact Or.inl hres
          · exact Or.inr ⟨hfeat, hlt⟩

theorem precalcFold_cases {f : Forest} {n : Node} :
    ∀ (l : List Int) (best res : SplitDetails),
      l.foldlM (fun best splitFeature => do
          let nextSplit ← splitReduction f n splitFeature
          pure (if nextSplit.misses < best.misses then nextSplit else best)) best = .ok res →
      res = best ∨ ∃ feat ∈ l, ∃ sd, splitReduction f n feat = .ok sd ∧ sd = res ∧
        sd.misses < best.misses := by
  intro l
  induction l with
  | nil =>
      intro best res h
      cases h
      exact Or.inl rfl
  | cons feat t ih =>
      intro best res h
      rw [List.foldlM_cons] at h
      cases hsr : splitReduction f n feat with
      | error e => rw [hsr, exceptBind_err] at h; cases h
      | ok sd =>
          rw [hsr, exceptBind_ok, exceptPure_bind] at h
          by_cases hsel : sd.misses < best.misses
          · rw [if_pos hsel] at h
            rcases ih sd res h with hres | ⟨feat', hmem, sd', hsr', hsd', hlt'⟩
            · exact Or.inr ⟨feat, by simp, sd, hsr, hres.symm, hsel⟩
            · exact Or.inr ⟨feat', by simp [hmem], sd', hsr', hsd', by omega⟩
          · rw [if_neg hsel] at h
            rcases ih best res h with hres | ⟨feat', hmem, sd', hsr', hsd', hlt'⟩
            · exact Or.inl hres
            · exact Or.inr ⟨feat', by simp [hmem], sd', hsr', hsd', hlt'⟩

theorem precalcFold_min {f : Forest} {n : Node} :
    ∀ (l : List Int) (best res : SplitDetails),
      l.foldlM (fun best splitFeature => do
          let nextSplit ← splitReduction f n splitFeature
          pure (if nextSplit.misses < best.misses then nextSplit else best)) best = .ok res →
      res.misses ≤ best.misses ∧
        ∀ feat ∈ l, ∀ sd, splitReduction f n feat = .ok sd → res.misses ≤ sd.misses := by
  intro l
  induction l with
  | nil =>
      intro best res h
      cases h
      exact ⟨le_refl _, fun feat hmem => by cases hmem⟩
  | cons feat t ih =>
      intro best res h
      rw [List.foldlM_cons] at h
      cases hsr : splitReduction f n feat with
      | error e => rw [hsr, exceptBind_err] at h; cases h
      | ok sd =>
          rw [hsr, exceptBind_ok, exceptPure_bind] at h
          by_cases hsel : sd.misses < best.misses
          · rw [if_pos hsel] at h
            obtain ⟨hmono, hall⟩ := ih sd res h
            refine ⟨by omega, ?_⟩
            intro feat' hmem sd' hsr'
            rcases List.mem_cons.mp hmem with heq | hmem'
            · subst heq
              rw [hsr'] at hsr
              cases hsr
              exact hmono
            · exact hall feat' hmem' sd' hsr'
          · rw [if_neg hsel] at h
            obtain ⟨hmono, hall⟩ := ih best res h
            refine ⟨hmono, ?_⟩
            intro feat' hmem sd' hsr'
            rcases List.mem_cons.mp hmem with heq | hmem'
            · subst heq
              rw [hsr'] at hsr
              cases hsr
              omega
            · exact hall feat' hmem' sd' hsr'

/-- C3: on a node with a nonnegative misclassified count and no previous
candidate, precalcBestSplit records a candidate split exactly when the
minimum resulting misclassified count over the allowed features falls
strictly below the bar floor(0.99 * misclassified) (the second conjunct
pins goTrunc99 down as that floor); otherwise it leaves the forest
unchanged, and a popped node without a candidate halts the growth loop, so
such a node is never split and remains a leaf. -/
theorem claim_C3 (f f' : Forest) (nid : Nat)
    (hnid : nid < f.arena.size)
    (hm : 0 ≤ (getN f nid).misclassified)
    (hfresh : (getN f nid).branchData.decideFeature = -1)
    (hneg1 : (-1 : Int) ∉ f.allowed.getD (getN f nid).originalRoot [])
    (hpre : precalcBestSplit f nid = .ok f') :
    ((getN f' nid).branchData.decideFeature ≠ -1 ↔
      ∃ feat ∈ f.allowed.getD (getN f nid).originalRoot [], ∃ sd,
        splitReduction f (getN f nid) feat = .ok sd ∧
        sd.misses < goTrunc99 (getN f nid).misclassified) ∧
    (100 * goTrunc99 (getN f nid).misclassified ≤ 99 * (getN f nid).misclassified ∧
      99 * (getN f nid).misclassified < 100 * (goTrunc99 (getN f nid).misclassified + 1)) ∧
    ((getN f' nid).branchData.decideFeature = -1 → f' = f) ∧
    (∀ (g g' : Forest) (fuel : Nat), 0 < g.leafQueue.size → heapPopF g = .ok (nid, g') →
      (getN g' nid).branchData.decideFeature = -1 →
      trainLoop g (fuel + 1) = .ok (.done g')) := by
  have hperm : ∀ (g g' : Forest) (fuel : Nat), 0 < g.leafQueue.size →
      heapPopF g = .ok (nid, g') → (getN g' nid).branchData.decideFeature = -1 →
      trainLoop g (fuel + 1) = .ok (.done g') :=
    fun g g' fuel hq hpop hnc => trainLoop_step_done hq hpop (Or.inl hnc)
  simp only [precalcBestSplit] at hpre
  split at hpre
  next => cases hpre
  next aList haList =>
    have hgetD : f.allowed.getD (getN f nid).originalRoot [] = aList := by
      rw [List.getD_eq_getElem?_getD, ← List.get?_eq_getElem?, haList]
      rfl
    split at hpre
    next hz =>
      cases hpre
      have hlist : aList = [] := by
        cases aList with
        | nil => rfl
        | cons a t => simp at hz
      refine ⟨?_, goTrunc99_floor hm, fun _ => rfl, hperm⟩
      constructor
      · intro hne
        exact absurd hfresh hne
      · rintro ⟨feat, hmem, -⟩
        rw [hgetD, hlist] at hmem
        cases hmem
    next hz =>
      cases hfold : aList.foldlM (fun best splitFeature => do
          let nextSplit ← splitReduction f (getN f nid) splitFeature
          pure (if nextSplit.misses < best.misses then nextSplit else best))
        (⟨-1, -1, false, goTrunc99 (getN f nid).misclassified, -1, -1⟩ : SplitDetails) with
      | error e => rw [hfold, exceptBind_err] at hpre; cases hpre
      | ok best =>
          rw [hfold, exceptBind_ok] at hpre
          split at hpre
          next hbf =>
              obtain ⟨inputs, sl, hms, hlen, hshape⟩ := presplitOn_ok_shape hpre
              subst hshape
              have hsz : nid <
                  ({ f with arena := splitArena f nid best inputs sl } : Forest).arena.size := by
                simp [splitArena]
                omega
              have hdf : (getN (setN { f with arena := splitArena f nid best inputs sl } nid
                  (splitParent f nid best inputs)) nid).branchData.decideFeature
                  = best.splitFeature := by
                rw [getN_setN_self hsz]
                rfl
              refine ⟨?_, goTrunc99_floor hm, ?_, hperm⟩
              · constructor
                · intro _
                  rcases precalcFold_cases aList _ best hfold with hres |
                    ⟨feat, hmem, sd, hsr, hsd, hlt⟩
                  · exact absurd (by rw [hres] : best.splitFeature = -1) hbf
                  · exact ⟨feat, by rw [hgetD]; exact hmem, sd, hsr, hlt⟩
                · intro _
                  rw [hdf]
                  exact hbf
              · intro hdf1
                rw [hdf] at hdf1
                exact absurd hdf1 hbf
          next hbf =>
              cases hpre
              have hbf1 : best.splitFeature = -1 := by
                by_contra hc
                exact hbf hc
              refine ⟨?_, goTrunc99_floor hm, fun _ => rfl, hperm⟩
              constructor
              · intro hne
                exact absurd hfresh hne
              · rintro ⟨feat, hmem, sd, hsr, hlt⟩
                have hmin := precalcFold_min aList _ best hfold
                have h1 : best.misses ≤ sd.misses :=
                  hmin.2 feat (by rw [hgetD] at hmem; exact hmem) sd hsr
                rcases precalcFold_cases aList _ best hfold with hres |
                  ⟨feat', hmem', sd', hsr', hsd', hlt'⟩
                · have hbm : best.misses = goTrunc99 (getN f nid).misclassified := by
                    rw [hres]
                  omega
                · rcases splitReduction_cases hsr' with hsent | ⟨hf', -⟩
                  · have hble := goTrunc99_le hm
                    have hbm : best.misses = (getN f nid).misclassified := by
                      rw [← hsd', hsent]
                    omega
                  · have hfeat1 : feat' = -1 := by
                      rw [← hf', hsd', hbf1]
                    rw [hfeat1] at hmem'
                    rw [hgetD] at hneg1
                    exact absurd hmem' hneg1

theorem claim_C3_wit :
    ((getN postPrecalcFixture 0).branchData.decideFeature ≠ -1 ↔
      ∃ feat ∈ preRootFixture.allowed.getD (getN preRootFixture 0).originalRoot [], ∃ sd,
        splitReduction preRootFixture (getN preRootFixture 0) feat = .ok sd ∧
        sd.misses < goTrunc99 (getN preRootFixture 0).misclassified) ∧
    (getN postPrecalcFixture 0).branchData.decideFeature = 2 := by
  have h := claim_C3 preRootFixture postPrecalcFixture 0 (by decide) (by decide) (by decide)
    (by decide) rfl
  exact ⟨h.1, by decide⟩

/-! ## C4: children of a trueBelow = false split carry the wrong counts -/

/-- C4 fails on the code: on the concrete scenario of the spec the root is
split with a trueBelow = false candidate, and both resulting children store
a misclassified count of 0 although each of them actually holds three
frames whose end-aligned label disagrees with its classification (the
partition hands the below-threshold frames to the highEq child and the
others to the lower child, while the stored counts refer to the opposite
sides). -/
theorem claim_C4_eval :
    finishedOk specScenarioRun = true ∧
    (getN specScenarioForest 0).branchData.decideFeature = 2 ∧
    (getN specScenarioForest 1).misclassified = 0 ∧
    actualMisCount specScenarioForest (getN specScenarioForest 1) = 3 ∧
    (getN specScenarioForest 2).misclassified = 0 ∧
    actualMisCount specScenarioForest (getN specScenarioForest 2) = 3 := by
  exact ⟨rfl, rfl, rfl, rfl, rfl, rfl⟩

/-! ## C8: which malformed inputs actually fail -/

/-- C8 as stated is false: a frame size exceeding the sample count by one
yields frame count zero and the training completes silently, and a label
sequence strictly longer than the sample sequence is accepted silently as
well. -/
theorem claim_C8_cex :
    finishedOk (trainRun 3 1 0 [1, 2] [0, 1] 5) = true ∧
    finishedOk (trainRun 1 1 0 [1, 2] [0, 1, 1] 20) = true := by
  exact ⟨rfl, rfl⟩

/-! ## Success of the feature extractor and of splitReduction -/

/-- On an in-range frame and an allowed feature index the extractor
returns its pure value. -/
theorem pureScore_ok {f : Forest} {frame feature : Int}
    (hfs : 1 ≤ f.frameSize)
    (hF : f.trainFrameCount = (f.trainSamples.length : Int) - f.frameSize + 1)
    (hfr0 : 0 ≤ frame) (hfr1 : frame < f.trainFrameCount)
    (hft0 : 0 ≤ feature) (hft1 : feature < 2 * f.frameSize - 1) :
    scoreForFrameAndFeature f frame feature = .ok (pureScore f frame feature) := by
  unfold scoreForFrameAndFeature pureScore
  by_cases hraw : feature < f.frameSize
  · rw [if_pos hraw, if_pos hraw]
    exact goGet_ok_getD (by omega) (by omega)
  · rw [if_neg hraw, if_neg hraw, if_pos (by omega)]
    show (do
      let hi ← goGet f.trainSamples (frame + (feature - f.frameSize) + 1)
      let lo ← goGet f.trainSamples (frame + (feature - f.frameSize))
      pure (hi - lo) : Except String Int) = _
    have h1 : goGet f.trainSamples (frame + (feature - f.frameSize) + 1)
        = .ok (f.trainSamples.getD (frame + (feature - f.frameSize) + 1).toNat 0) :=
      goGet_ok_getD (by omega) (by omega)
    have h2 : goGet f.trainSamples (frame + (feature - f.frameSize))
        = .ok (f.trainSamples.getD (frame + (feature - f.frameSize)).toNat 0) :=
      goGet_ok_getD (by omega) (by omega)
    rw [h1, exceptBind_ok, h2, exceptBind_ok]
    rfl

/-- A monadic map over Except succeeds when every element does. -/
theorem listMapM_ok {α β : Type _} (g : α → Except String β) :
    ∀ (l : List α), (∀ x ∈ l, ∃ y, g x = .ok y) → ∃ ys, l.mapM g = .ok ys := by
  intro l
  induction l with
  | nil => intro _; exact ⟨[], rfl⟩
  | cons x t ih =>
      intro h
      obtain ⟨y, hy⟩ := h x (by simp)
      obtain ⟨ys, hys⟩ := ih (fun z hz => h z (by simp [hz]))
      refine ⟨y :: ys, ?_⟩
      rw [List.mapM_cons, hy, exceptBind_ok, hys, exceptBind_ok]
      rfl

/-- A monadic fold over Except succeeds when every step does. -/
theorem listFoldlM_ok {α β : Type _} (g : β → α → Except String β) :
    ∀ (l : List α) (b : β), (∀ b' x, x ∈ l → ∃ y, g b' x = .ok y) →
      ∃ r, l.foldlM g b = .ok r := by
  intro l
  induction l with
  | nil => intro b _; exact ⟨b, rfl⟩
  | cons x t ih =>
      intro b h
      obtain ⟨y, hy⟩ := h b x (by simp)
      obtain ⟨r, hr⟩ := ih y (fun b' z hz => h b' z (by simp [hz]))
      refine ⟨r, ?_⟩
      rw [List.foldlM_cons, hy, exceptBind_ok, hr]

/-- The pair list built by splitReduction: on success its frame components
are exactly the node's inputs, in order. -/
theorem pairsMapM {f : Forest} {feature : Int} :
    ∀ {l : List Int} {ps : List (Int × Int)},
      l.mapM (fun frame => do
        let v ← scoreForFrameAndFeature f frame feature
        pure (v, frame)) = .ok ps → ps.map Prod.snd = l := by
  intro l
  induction l with
  | nil =>
      intro ps h
      cases h
      rfl
  | cons x t ih =>
      intro ps h
      simp only [List.mapM_cons] at h
      cases hsc : scoreForFrameAndFeature f x feature with
      | error e => simp only [hsc, exceptBind_err] at h; cases h
      | ok v =>
          simp only [hsc, exceptBind_ok, exceptPure_bind] at h
          cases ht : t.mapM (fun frame => do
              let v ← scoreForFrameAndFeature f frame feature
              pure (v, frame)) with
          | error e => simp only [ht, exceptBind_err] at h; cases h
          | ok ps' =>
              simp only [ht, exceptBind_ok, exceptPure_bind] at h
              cases h
              simp only [List.map_cons, ih ht]

/-- dsiiInsert produces a permutation of consing. -/
theorem dsiiInsert_perm (x : Int × Int) :
    ∀ (l : List (Int × Int)), (dsiiInsert x l).Perm (x :: l) := by
  intro l
  induction l with
  | nil => exact List.Perm.refl _
  | cons y t ih =>
      unfold dsiiInsert
      split
      · exact List.Perm.refl _
      · exact (List.Perm.cons y ih).trans (List.Perm.swap x y t)

/-- The DualSortII sort permutes its argument. -/
theorem dsiiSort_perm : ∀ (l : List (Int × Int)), (dsiiSort l).Perm l := by
  intro l
  induction l with
  | nil => exact List.Perm.refl _
  | cons x t ih =>
      unfold dsiiSort
      exact (dsiiInsert_perm x (dsiiSort t)).trans (List.Perm.cons x ih)

/-- The sweep succeeds when the end-aligned label of every listed frame is
readable. -/
theorem sweep_ok {f : Forest} {feature : Int} :
    ∀ (l : List (Int × Int)) (c : SweepCounts) (best : SplitDetails),
      (∀ p ∈ l, ∃ lab, goGet f.trainExpected (p.2 + f.frameSize - 1) = .ok lab) →
      ∃ sd, sweep f feature l c best = .ok sd := by
  intro l
  induction l with
  | nil => intro c best _; exact ⟨best, rfl⟩
  | cons p t ih =>
      intro c best h
      obtain ⟨lab, hlab⟩ := h p (by simp)
      obtain ⟨pv, pf⟩ := p
      unfold sweep
      rw [hlab, exceptBind_ok]
      exact ih _ _ (fun q hq => h q (by simp [hq]))

/-- Any result of the sweep is the incoming best or a recorded candidate,
and a recorded candidate's misses are the sum of its two stored counts. -/
theorem sweep_R {f : Forest} {feature : Int} :
    ∀ {l : List (Int × Int)} {c : SweepCounts} {best res : SplitDetails},
      sweep f feature l c best = .ok res →
      res = best ∨ res.missesBelow + res.missesAbove = res.misses := by
  intro l
  induction l with
  | nil =>
      intro c best res h
      cases h
      exact Or.inl rfl
  | cons p t ih =>
      intro c best res h
      obtain ⟨thisSplit, frame⟩ := p
      unfold sweep at h
      cases hlab : goGet f.trainExpected (frame + f.frameSize - 1) with
      | error e => rw [hlab, exceptBind_err] at h; cases h
      | ok lab =>
          rw [hlab, exceptBind_ok] at h
          rcases ih h with hres | hR
          · subst hres
            split
            · split
              · exact Or.inr (by simp only)
              · exact Or.inl rfl
            · split
              · exact Or.inr (by simp only)
              · exact Or.inl rfl
          · exact Or.inr hR

/-- Any splitReduction result is the sentinel or satisfies the stored-count
decomposition. -/
theorem splitReduction_R {f : Forest} {n : Node} {feature : Int} {sd : SplitDetails}
    (h : splitReduction f n feature = .ok sd) :
    sd = ⟨-1, -1, false, n.misclassified, -1, -1⟩ ∨
      sd.missesBelow + sd.missesAbove = sd.misses := by
  simp only [splitReduction] at h
  cases hp : n.inputs.mapM (fun frame => do
      let v ← scoreForFrameAndFeature f frame feature
      pure (v, frame)) with
  | error e => rw [hp, exceptBind_err] at h; cases h
  | ok pairs =>
      rw [hp, exceptBind_ok] at h
      cases ht : (dsiiSort pairs).mapM (fun p => goGet f.trainExpected (p.2 + f.frameSize - 1)) with
      | error e => rw [ht, exceptBind_err] at h; cases h
      | ok tmp =>
          rw [ht, exceptBind_ok] at h
          exact sweep_R h

/-- splitReduction succeeds on a node whose inputs are in-range frames and
an allowed feature index. -/
theorem splitReduction_ok {f : Forest} {n : Node} {feature : Int}
    (hfs : 1 ≤ f.frameSize)
    (hF : f.trainFrameCount = (f.trainSamples.length : Int) - f.frameSize + 1)
    (helen : f.trainSamples.length ≤ f.trainExpected.length)
    (hin : ∀ fr ∈ n.inputs, 0 ≤ fr ∧ fr < f.trainFrameCount)
    (hft0 : 0 ≤ feature) (hft1 : feature < 2 * f.frameSize - 1) :
    ∃ sd, splitReduction f n feature = .ok sd := by
  simp only [splitReduction]
  obtain ⟨pairs, hp⟩ := listMapM_ok (fun frame => do
      let v ← scoreForFrameAndFeature f frame feature
      pure (v, frame)) n.inputs (fun fr hfr =>
    ⟨(pureScore f fr feature, fr), by
      show (do
        let v ← scoreForFrameAndFeature f fr feature
        pure (v, fr) : Except String (Int × Int)) = _
      rw [pureScore_ok hfs hF (hin fr hfr).1 (hin fr hfr).2 hft0 hft1, exceptBind_ok]
      rfl⟩)
  rw [hp, exceptBind_ok]
  have hframes : ∀ p ∈ dsiiSort pairs, p.2 ∈ n.inputs := by
    intro p hp2
    have hmem : p ∈ pairs := (dsiiSort_perm pairs).mem_iff.mp hp2
    have : p.2 ∈ pairs.map Prod.snd := List.mem_map_of_mem Prod.snd hmem
    rw [pairsMapM hp] at this
    exact this
  have hlabread : ∀ p ∈ dsiiSort pairs,
      ∃ lab, goGet f.trainExpected (p.2 + f.frameSize - 1) = .ok lab := by
    intro p hp2
    have hfr := hin p.2 (hframes p hp2)
    exact ⟨f.trainExpected.getD (p.2 + f.frameSize - 1).toNat 0,
      goGet_ok_getD (by omega) (by omega)⟩
  obtain ⟨tmp, htmp⟩ := listMapM_ok _ (dsiiSort pairs) hlabread
  rw [htmp, exceptBind_ok]
  exact sweep_ok _ _ _ hlabread

/-! ## The partition of presplitOn runs to completion within its fuel -/

theorem bool_bne_true {x y : Bool} (h : (x != y) = true) : (x == y) = false := by
  cases x <;> cases y <;> simp_all

theorem bool_bne_false {x y : Bool} (h : (x != y) = false) : (x == y) = true := by
  cases x <;> cases y <;> simp_all

theorem aswap_getD_left (a : Array Int) (i j : Nat) (hi : i < a.size) (hij : i ≠ j) :
    (aswap a i j).getD i 0 = a.getD j 0 := by
  show ((a.setD i (a.getD j 0)).setD j (a.getD i 0)).getD i 0 = a.getD j 0
  rw [arrGetD_setD_ne _ j i _ _ hij, arrGetD_setD_self _ _ _ _ hi]

theorem aswap_getD_right (a : Array Int) (i j : Nat) (hj : j < a.size) :
    (aswap a i j).getD j 0 = a.getD i 0 := by
  show ((a.setD i (a.getD j 0)).setD j (a.getD i 0)).getD j 0 = a.getD i 0
  rw [arrGetD_setD_self _ _ _ _ (by simpa using hj)]

/-- Equal entry multisets transport the no-panic score property. -/
theorem scOK_of_ms {f : Forest} {feat : Int} {a b : Array Int}
    (hms : (b.toList : Multiset Int) = (a.toList : Multiset Int))
    (hsc : scOK f feat a) : scOK f feat b := by
  intro x hx
  refine hsc x ?_
  rw [← Multiset.mem_coe, ← hms, Multiset.mem_coe]
  exact hx

theorem advanceLo_step {f : Forest} {feat v s : Int} {tb : Bool} {a : Array Int}
    {k lo : Nat} (hsc : scoreForFrameAndFeature f (a.getD lo 0) feat = .ok s) :
    advanceLo f feat v tb a (k+1) lo
      = if (decide (s < v)) != tb then pure lo else advanceLo f feat v tb a k (lo+1) := by
  show (do
    let sc ← scoreForFrameAndFeature f (a.getD lo 0) feat
    if (decide (sc < v)) != tb then pure lo
    else advanceLo f feat v tb a k (lo+1)) = _
  rw [hsc, exceptBind_ok]

theorem retreatHi_step {f : Forest} {feat v s : Int} {tb : Bool} {a : Array Int}
    {k hi : Nat} (hsc : scoreForFrameAndFeature f (a.getD hi 0) feat = .ok s) :
    retreatHi f feat v tb a (k+1) hi
      = if (decide (s < v)) == tb then pure hi else retreatHi f feat v tb a k (hi-1) := by
  show (do
    let sc ← scoreForFrameAndFeature f (a.getD hi 0) feat
    if (decide (sc < v)) == tb then pure hi
    else retreatHi f feat v tb a k (hi-1)) = _
  rw [hsc, exceptBind_ok]

theorem finalLo_step {f : Forest} {feat v s : Int} {tb : Bool} {a : Array Int}
    {k lo : Nat} (hsc : scoreForFrameAndFeature f (a.getD lo 0) feat = .ok s) :
    finalLo f feat v tb a (k+1) lo
      = if (decide (s < v)) != tb then pure lo else finalLo f feat v tb a k (lo+1) := by
  show (do
    let sc ← scoreForFrameAndFeature f (a.getD lo 0) feat
    if (decide (sc < v)) != tb then pure lo
    else finalLo f feat v tb a k (lo+1)) = _
  rw [hsc, exceptBind_ok]

/-- The first inner loop always succeeds within its pointer budget, lands
in [lo, lo+k], only stops early at an element failing the front predicate,
and moves at least one step when the front predicate holds at lo. -/
theorem advanceLo_str {f : Forest} {feat v : Int} {tb : Bool} {a : Array Int}
    (hsc : scOK f feat a) :
    ∀ (k lo : Nat), lo + k ≤ a.size →
      ∃ lo', advanceLo f feat v tb a k lo = .ok lo' ∧ lo ≤ lo' ∧ lo' ≤ lo + k ∧
        (lo' < lo + k → frontP f feat v tb (a.getD lo' 0) = false) ∧
        (1 ≤ k → frontP f feat v tb (a.getD lo 0) = true → lo + 1 ≤ lo') := by
  intro k
  induction k with
  | zero =>
      intro lo h
      exact ⟨lo, rfl, le_refl _, by omega,
        fun hlt => absurd hlt (by omega), fun h1 => absurd h1 (by omega)⟩
  | succ k ih =>
      intro lo h
      have hmem : a.getD lo 0 ∈ a.toList := arrGetD_mem a 0 lo (by omega)
      rw [advanceLo_step (hsc _ hmem)]
      by_cases hst : (decide (pureScore f (a.getD lo 0) feat < v) != tb) = true
      · rw [if_pos hst]
        refine ⟨lo, rfl, le_refl _, by omega, fun _ => bool_bne_true hst, ?_⟩
        intro _ hfp
        rw [show frontP f feat v tb (a.getD lo 0)
            = (decide (pureScore f (a.getD lo 0) feat < v) == tb) from rfl,
          bool_bne_true hst] at hfp
        cases hfp
      · rw [if_neg hst]
        obtain ⟨lo', h1, h2, h3, h4, h5⟩ := ih (lo+1) (by omega)
        exact ⟨lo', h1, by omega, by omega, fun hlt => h4 (by omega), fun _ _ => by omega⟩

/-- The second inner loop always succeeds when hi is in range, lands in
[hi-k, hi], and only stops early at an element satisfying the front
predicate. -/
theorem retreatHi_str {f : Forest} {feat v : Int} {tb : Bool} {a : Array Int}
    (hsc : scOK f feat a) :
    ∀ (k hi : Nat), hi < a.size →
      ∃ hi', retreatHi f feat v tb a k hi = .ok hi' ∧ hi - k ≤ hi' ∧ hi' ≤ hi ∧
        (hi - k < hi' → frontP f feat v tb (a.getD hi' 0) = true) := by
  intro k
  induction k with
  | zero =>
      intro hi h
      exact ⟨hi, rfl, by omega, le_refl _, fun hlt => absurd hlt (by omega)⟩
  | succ k ih =>
      intro hi h
      have hmem : a.getD hi 0 ∈ a.toList := arrGetD_mem a 0 hi h
      rw [retreatHi_step (hsc _ hmem)]
      by_cases hst : (decide (pureScore f (a.getD hi 0) feat < v) == tb) = true
      · rw [if_pos hst]
        exact ⟨hi, rfl, by omega, le_refl _, fun _ => hst⟩
      · rw [if_neg hst]
        obtain ⟨hi', h1, h2, h3, h4⟩ := ih (hi-1) (by omega)
        exact ⟨hi', h1, by omega, by omega, fun hlt => h4 (by omega)⟩

/-- The trailing slice-point loop always succeeds within its budget. -/
theorem finalLo_ok {f : Forest} {feat v : Int} {tb : Bool} {a : Array Int}
    (hsc : scOK f feat a) :
    ∀ (k lo : Nat), lo + k ≤ a.size →
      ∃ lo', finalLo f feat v tb a k lo = .ok lo' := by
  intro k
  induction k with
  | zero => intro lo h; exact ⟨lo, rfl⟩
  | succ k ih =>
      intro lo h
      have hmem : a.getD lo 0 ∈ a.toList := arrGetD_mem a 0 lo (by omega)
      rw [finalLo_step (hsc _ hmem)]
      by_cases hst : (decide (pureScore f (a.getD lo 0) feat < v) != tb) = true
      · rw [if_pos hst]; exact ⟨lo, rfl⟩
      · rw [if_neg hst]
        obtain ⟨lo', h1⟩ := ih (lo+1) (by omega)
        exact ⟨lo', h1⟩

theorem partOuter_step {f : Forest} {feat v : Int} {tb : Bool} {a : Array Int}
    {lo hi lo1 hi1 : Nat} {fuel : Nat}
    (hlt : lo < hi)
    (hA : advanceLo f feat v tb a (hi - lo) lo = .ok lo1)
    (hR : retreatHi f feat v tb a (hi - lo1) hi = .ok hi1) :
    partOuter f feat v tb (fuel+1) a lo hi
      = if lo1 ≠ hi1 then partOuter f feat v tb fuel (aswap a lo1 hi1) lo1 hi1
        else partOuter f feat v tb fuel a lo1 hi1 := by
  generalize hx : partOuter f feat v tb fuel (aswap a lo1 hi1) lo1 hi1 = X
  generalize hy : partOuter f feat v tb fuel a lo1 hi1 = Y
  unfold partOuter
  rw [if_pos hlt, hA, exceptBind_ok]
  show (do
      let H ← retreatHi f feat v tb a (hi - lo1) hi
      if lo1 ≠ H then partOuter f feat v tb fuel (aswap a lo1 H) lo1 H
      else partOuter f feat v tb fuel a lo1 H) = _
  rw [hR, exceptBind_ok]
  show (if lo1 ≠ hi1 then partOuter f feat v tb fuel (aswap a lo1 hi1) lo1 hi1
      else partOuter f feat v tb fuel a lo1 hi1) = _
  rw [hx, hy]

theorem partOuter_stop {f : Forest} {feat v : Int} {tb : Bool} {a : Array Int}
    {lo hi : Nat} {fuel : Nat} (hge : ¬ lo < hi) :
    partOuter f feat v tb (fuel+1) a lo hi = .ok (a, lo) := by
  unfold partOuter
  rw [if_neg hge]
  rfl

/-- Fuel sufficiency of the outer partition loop: with fuel at least
2*(hi-lo)+2 the loop runs to completion.  An iteration either shrinks the
pointer gap, or swaps without moving; in the latter case the swap plants a
front element at lo, which forces the next iteration to advance lo. -/
theorem partOuter_str {f : Forest} {feat v : Int} {tb : Bool} :
    ∀ (g : Nat), ∀ (fuel : Nat) (a : Array Int) (lo hi : Nat),
      hi - lo ≤ g → 2 * g + 2 ≤ fuel → (hi < a.size ∨ hi = 0) → lo ≤ a.size →
      scOK f feat a →
      ∃ (a' : Array Int) (lo' : Nat), partOuter f feat v tb fuel a lo hi = .ok (a', lo') ∧
        a'.size = a.size ∧ lo' ≤ a.size ∧ scOK f feat a' := by
  intro g
  induction g using Nat.strong_induction_on with
  | _ g IH =>
  intro fuel a lo hi hg hfuel hhi hlo hsc
  cases fuel with
  | zero => omega
  | succ fuel1 =>
  by_cases hlt : lo < hi
  · have hsz : hi < a.size := by
      rcases hhi with hx | hx
      · exact hx
      · omega
    obtain ⟨lo1, hA, hA1, hA2, hAstop, _⟩ := advanceLo_str hsc (hi - lo) lo (by omega)
    obtain ⟨hi1, hR, hR1, hR2, hRstop⟩ := retreatHi_str hsc (hi - lo1) hi hsz
    have hlo1hi : lo1 ≤ hi := by omega
    have hlo1hi1 : lo1 ≤ hi1 := by omega
    rw [partOuter_step hlt hA hR]
    by_cases hne : lo1 ≠ hi1
    · rw [if_pos hne]
      have hlh : lo1 < hi1 := by omega
      have hlo1sz : lo1 < a.size := by omega
      have hhi1sz : hi1 < a.size := by omega
      have hms2 := aswap_ms a lo1 hi1 hlo1sz hhi1sz hne
      have hsz2 : (aswap a lo1 hi1).size = a.size := aswap_size a lo1 hi1
      have hsc2 : scOK f feat (aswap a lo1 hi1) := scOK_of_ms hms2 hsc
      by_cases hshr : hi1 - lo1 < g
      · obtain ⟨a', lo', hrec, hs1, hs2, hs3⟩ := IH (hi1 - lo1) hshr fuel1
          (aswap a lo1 hi1) lo1 hi1 (le_refl _) (by omega)
          (Or.inl (by omega)) (by omega) hsc2
        exact ⟨a', lo', hrec, by rw [hs1, hsz2], by omega, hs3⟩
      · -- no shrink: the two pointers did not move, so lo1 = lo and hi1 = hi
        have hgap : hi1 - lo1 = g := by omega
        have hle : lo1 = lo := by omega
        have hhe : hi1 = hi := by omega
        subst hle
        subst hhe
        -- the element swapped into position lo1 satisfies the front predicate
        have hfrontHi : frontP f feat v tb (a.getD hi1 0) = true := hRstop (by omega)
        have hfront2 : frontP f feat v tb ((aswap a lo1 hi1).getD lo1 0) = true := by
          rw [aswap_getD_left a lo1 hi1 hlo1sz hne]
          exact hfrontHi
        cases fuel1 with
        | zero => omega
        | succ fuel2 =>
        obtain ⟨lo2, hA', hA1', hA2', hAstop', hprog⟩ :=
          advanceLo_str hsc2 (hi1 - lo1) lo1 (by omega)
        have hlo2 : lo1 + 1 ≤ lo2 := hprog (by omega) hfront2
        obtain ⟨hi2, hR', hR1', hR2', hRstop'⟩ :=
          retreatHi_str hsc2 (hi1 - lo2) hi1 (by omega)
        rw [partOuter_step (by omega) hA' hR']
        have hlo2hi2 : lo2 ≤ hi2 := by omega
        by_cases hne2 : lo2 ≠ hi2
        · rw [if_pos hne2]
          have hlo2sz : lo2 < (aswap a lo1 hi1).size := by omega
          have hhi2sz : hi2 < (aswap a lo1 hi1).size := by omega
          have hms3 := aswap_ms (aswap a lo1 hi1) lo2 hi2 hlo2sz hhi2sz hne2
          have hsz3 : (aswap (aswap a lo1 hi1) lo2 hi2).size = a.size := by
            rw [aswap_size, hsz2]
          have hsc3 : scOK f feat (aswap (aswap a lo1 hi1) lo2 hi2) :=
            scOK_of_ms (by rw [hms3, hms2]) hsc
          obtain ⟨a', lo', hrec, hs1, hs2, hs3⟩ := IH (hi2 - lo2) (by omega) fuel2
            (aswap (aswap a lo1 hi1) lo2 hi2) lo2 hi2 (le_refl _) (by omega)
            (Or.inl (by omega)) (by omega) hsc3
          exact ⟨a', lo', hrec, by rw [hs1, hsz3], by omega, hs3⟩
        · rw [if_neg hne2]
          have heq2 : lo2 = hi2 := by omega
          cases fuel2 with
          | zero => omega
          | succ fuel3 =>
          rw [partOuter_stop (by omega)]
          exact ⟨aswap a lo1 hi1, lo2, rfl, hsz2, by omega, hsc2⟩
    · rw [if_neg hne]
      have heq : lo1 = hi1 := by omega
      cases fuel1 with
      | zero => omega
      | succ fuel2 =>
      rw [partOuter_stop (by omega)]
      exact ⟨a, lo1, rfl, rfl, by omega, hsc⟩
  · rw [partOuter_stop hlt]
    exact ⟨a, lo, rfl, rfl, hlo, hsc⟩

/-! ## Success and invariant preservation of precalcBestSplit -/

theorem exceptBind_ok_ex {α β : Type _} {m : Except String α} {k : α → Except String β}
    {a : α} (hm : m = .ok a) (hk : ∃ b, k a = .ok b) : ∃ b, (m >>= k) = .ok b := by
  obtain ⟨b, hb⟩ := hk
  exact ⟨b, by rw [hm, exceptBind_ok, hb]⟩

/-- presplitOn succeeds on a node with in-range inputs and an allowed
split feature. -/
theorem presplitOn_ok {f : Forest} {nid : Nat} {sp : SplitDetails}
    (hfs : 1 ≤ f.frameSize)
    (hF : f.trainFrameCount = (f.trainSamples.length : Int) - f.frameSize + 1)
    (hin : ∀ fr ∈ (getN f nid).inputs, 0 ≤ fr ∧ fr < f.trainFrameCount)
    (hft0 : 0 ≤ sp.splitFeature) (hft1 : sp.splitFeature < 2 * f.frameSize - 1) :
    ∃ f', presplitOn f nid sp = .ok f' := by
  simp only [presplitOn]
  have hsc : scOK f sp.splitFeature ((getN f nid).inputs.toArray) := by
    intro x hx
    have hx' : x ∈ (getN f nid).inputs := by simpa using hx
    exact pureScore_ok hfs hF (hin x hx').1 (hin x hx').2 hft0 hft1
  obtain ⟨a, lo, hpart, hsz, hlo, hsc2⟩ := partOuter_str
      (((getN f nid).inputs.toArray).size)
      (2 * ((getN f nid).inputs.toArray).size + 2)
      ((getN f nid).inputs.toArray) 0 (((getN f nid).inputs.toArray).size - 1)
      (by omega) (by omega)
      (by
        by_cases hz : ((getN f nid).inputs.toArray).size = 0
        · exact Or.inr (by omega)
        · exact Or.inl (by omega))
      (by omega) hsc
  refine exceptBind_ok_ex hpart ?_
  obtain ⟨sl, hfin⟩ := finalLo_ok hsc2 (a.size - lo) lo (by omega)
  refine exceptBind_ok_ex hfin ?_
  exact ⟨_, rfl⟩

/-- Enriched case analysis of precalcBestSplit: on success it either left
the forest unchanged, or it presplit on an accepted candidate, which came
from an allowed feature, decomposes its misses into the two stored counts,
and beats the bar. -/
theorem precalc_rich {f f' : Forest} {nid : Nat}
    (h : precalcBestSplit f nid = .ok f') :
    f' = f ∨ ∃ (sp : SplitDetails) (aList : List Int),
      f.allowed.get? (getN f nid).originalRoot = some aList ∧
      sp.splitFeature ∈ aList ∧
      sp.missesBelow + sp.missesAbove = sp.misses ∧
      sp.misses < goTrunc99 (getN f nid).misclassified ∧
      presplitOn f nid sp = .ok f' := by
  simp only [precalcBestSplit] at h
  split at h
  next => cases h
  next aList haList =>
      split at h
      next hz => cases h; exact Or.inl rfl
      next hz =>
          cases hfold : aList.foldlM (fun best splitFeature => do
              let nextSplit ← splitReduction f (getN f nid) splitFeature
              pure (if nextSplit.misses < best.misses then nextSplit else best))
            (⟨-1, -1, false, goTrunc99 (getN f nid).misclassified, -1, -1⟩ : SplitDetails) with
          | error e => rw [hfold, exceptBind_err] at h; cases h
          | ok best =>
              rw [hfold, exceptBind_ok] at h
              split at h
              next hbf =>
                  rcases precalcFold_cases aList _ best hfold with hres | ⟨feat, hmem, sd, hsr, hsd, hlt⟩
                  · rw [hres] at hbf
                    exact absurd rfl hbf
                  · subst hsd
                    rcases splitReduction_R hsr with hsent | hR
                    · rw [hsent] at hbf
                      exact absurd rfl hbf
                    · rcases splitReduction_cases hsr with hsent | ⟨hfeat, _⟩
                      · rw [hsent] at hbf
                        exact absurd rfl hbf
                      · refine Or.inr ⟨sd, aList, haList, by rw [hfeat]; exact hmem, hR, hlt, h⟩
              next hbf => cases h; exact Or.inl rfl

/-- precalcBestSplit preserves the global invariant, the static fields,
the queue, the stored counts of existing nodes, and never removes child
pointers; it succeeds or not, this lemma assumes success (success is
proved separately where the invariant supplies its hypotheses). -/
theorem precalc_inv {f f' : Forest} {nid : Nat}
    (hinv : Inv f) (hnid : nid < f.arena.size)
    (hm : 0 ≤ (getN f nid).misclassified)
    (hpre : precalcBestSplit f nid = .ok f') :
    Inv f' ∧ StaticEq f f' ∧ MisKeep f f' ∧ f'.leafQueue = f.leafQueue ∧
      (∀ id, HasKids f id → HasKids f' id) := by
  rcases precalc_rich hpre with heq | ⟨sp, aList, haList, hmemA, hR, hbar, hps⟩
  · subst heq
    exact ⟨hinv, ⟨rfl, rfl, rfl, rfl, rfl, rfl, rfl, rfl⟩,
      ⟨le_refl _, fun _ _ => rfl⟩, rfl, fun _ h => h⟩
  · obtain ⟨inputs, sl, hms, hlen, hshape⟩ := presplitOn_ok_shape hps
    subst hshape
    -- basic size computations
    have hszA : (splitArena f nid sp inputs sl).size = f.arena.size + 2 := by
      simp [splitArena]
    have hsz' : (setN { f with arena := splitArena f nid sp inputs sl } nid
        (splitParent f nid sp inputs)).arena.size = f.arena.size + 2 := by
      simp [setN, Array.size_setD, hszA]
    -- reading back nodes of the new state
    have hget_nid : getN (setN { f with arena := splitArena f nid sp inputs sl } nid
        (splitParent f nid sp inputs)) nid = splitParent f nid sp inputs := by
      refine getN_setN_self ?_
      show nid < (splitArena f nid sp inputs sl).size
      omega
    have hTF : (setN { f with arena := splitArena f nid sp inputs sl } nid
        (splitParent f nid sp inputs)).trainFrameCount = f.trainFrameCount := rfl
    have hget_lt : ∀ id, id < f.arena.size → id ≠ nid →
        getN (setN { f with arena := splitArena f nid sp inputs sl } nid
          (splitParent f nid sp inputs)) id = getN f id := by
      intro id hid hne
      rw [getN_setN_ne hne]
      show (splitArena f nid sp inputs sl).getD id default = f.arena.getD id default
      unfold splitArena
      rw [arrGetD_push_lt _ _ _ _ (by simp; omega), arrGetD_push_lt _ _ _ _ hid]
    have hget_low : getN (setN { f with arena := splitArena f nid sp inputs sl } nid
        (splitParent f nid sp inputs)) f.arena.size
        = Node.mk (some nid) (inputs.take sl) sp.trueBelow sp.missesBelow
            (BranchNode.mk (-1) (-1) none none) true (getN f nid).originalRoot := by
      rw [getN_setN_ne (by omega)]
      show (splitArena f nid sp inputs sl).getD f.arena.size default = _
      unfold splitArena
      rw [arrGetD_push_lt _ _ _ _ (by simp), arrGetD_push_eq]
    have hget_high : getN (setN { f with arena := splitArena f nid sp inputs sl } nid
        (splitParent f nid sp inputs)) (f.arena.size + 1)
        = Node.mk (some nid) (inputs.drop sl) (!sp.trueBelow) sp.missesAbove
            (BranchNode.mk (-1) (-1) none none) true (getN f nid).originalRoot := by
      rw [getN_setN_ne (by omega)]
      show (splitArena f nid sp inputs sl).getD (f.arena.size + 1) default = _
      unfold splitArena
      have hkey := arrGetD_push_eq (f.arena.push (Node.mk (some nid) (inputs.take sl)
          sp.trueBelow sp.missesBelow (BranchNode.mk (-1) (-1) none none) true
          (getN f nid).originalRoot))
        (Node.mk (some nid) (inputs.drop sl) (!sp.trueBelow) sp.missesAbove
          (BranchNode.mk (-1) (-1) none none) true (getN f nid).originalRoot)
        (default : Node)
      simp only [Array.size_push] at hkey
      exact hkey
    -- stored count and input multiset of every old node are unchanged
    have hmisEq : ∀ c, c < f.arena.size →
        (getN (setN { f with arena := splitArena f nid sp inputs sl } nid
          (splitParent f nid sp inputs)) c).misclassified = (getN f c).misclassified := by
      intro c hc
      by_cases hcn : c = nid
      · subst hcn
        rw [hget_nid]
        rfl
      · rw [hget_lt c hc hcn]
    have hmsEq : ∀ c, c < f.arena.size →
        ((getN (setN { f with arena := splitArena f nid sp inputs sl } nid
          (splitParent f nid sp inputs)) c).inputs : Multiset Int)
          = ((getN f c).inputs : Multiset Int) := by
      intro c hc
      by_cases hcn : c = nid
      · subst hcn
        rw [hget_nid]
        show (inputs : Multiset Int) = _
        exact hms
      · rw [hget_lt c hc hcn]
    have hmemOld : ∀ x ∈ inputs, x ∈ (getN f nid).inputs := by
      intro x hx
      have : x ∈ (inputs : Multiset Int) := by simpa using hx
      rw [hms] at this
      simpa using this
    have hinOld := (hinv.nodesOk nid hnid).1
    have hrootOld := (hinv.nodesOk nid hnid).2.1
    have hinNew : ∀ x ∈ inputs, 0 ≤ x ∧ x < f.trainFrameCount := by
      intro x hx
      exact hinOld x (hmemOld x hx)
    -- the invariant for the new state
    refine ⟨⟨hinv.fsPos, hinv.flen, hinv.elen, hinv.allowedEq, hinv.rootsEq, ?_, ?_, ?_, ?_, ?_⟩,
      ⟨rfl, rfl, rfl, rfl, rfl, rfl, rfl, rfl⟩, ⟨by omega, hmisEq⟩, rfl, ?_⟩
    · -- arena nonempty
      omega
    · -- the root input multiset
      by_cases h0 : nid = 0
      · subst h0
        rw [hget_nid]
        show (inputs : Multiset Int) = _
        rw [hms]
        exact hinv.rootMs
      · rw [hget_lt 0 hinv.arenaPos (fun hh => h0 hh.symm)]
        exact hinv.rootMs
    · -- queue ids still in range
      intro id hid
      have := hinv.queueIds id hid
      omega
    · -- queue members keep their children
      rcases hinv.queueKids with hall | hone
      · refine Or.inl ?_
        intro id hid
        have hk := hall id hid
        by_cases hcn : id = nid
        · subst hcn
          rw [HasKids, hget_nid]
          exact ⟨by simp [splitParent], by simp [splitParent]⟩
        · rw [HasKids, hget_lt id (hinv.queueIds id hid) hcn]
          exact hk
      · exact Or.inr hone
    swap
    · -- child pointers are never removed
      intro id hk
      by_cases hcn : id = nid
      · subst hcn
        rw [HasKids, hget_nid]
        exact ⟨by simp [splitParent], by simp [splitParent]⟩
      · by_cases hid : id < f.arena.size
        · rw [HasKids, hget_lt id hid hcn]
          exact hk
        · exfalso
          rw [HasKids] at hk
          have : getN f id = default := by
            show f.arena.getD id default = default
            exact arrGetD_of_ge _ _ _ (by omega)
          rw [this] at hk
          exact hk.1 rfl
    · -- local well-formedness of every slot
      intro id hid
      rw [hsz'] at hid
      by_cases hcn : id = nid
      · -- the split node: now a candidate-carrying branch to the two fresh children
        subst hcn
        refine ⟨?_, ?_, Or.inr ⟨f.arena.size, f.arena.size + 1, ?_, ?_, ?_, ?_, ?_, ?_, ?_, ?_, ?_⟩⟩
        · rw [hget_nid]
          exact hinNew
        · rw [hget_nid]
          exact hrootOld
        · rw [hget_nid]; rfl
        · rw [hget_nid]; rfl
        · omega
        · omega
        · omega
        · omega
        · rw [hget_nid]
          exact hm
        · rw [hget_nid, hget_low, hget_high]
          simp only [splitParent]
          omega
        · rw [hget_nid, hget_low, hget_high]
          show ((inputs.take sl : List Int) : Multiset Int)
              + ((inputs.drop sl : List Int) : Multiset Int) = (inputs : Multiset Int)
          rw [Multiset.coe_add, List.take_append_drop]
      · by_cases hlow : id < f.arena.size
        · -- untouched old slot
          obtain ⟨h1, h2, h3⟩ := hinv.nodesOk id hlow
          refine ⟨?_, ?_, ?_⟩
          · rw [hget_lt id hlow hcn]
            exact h1
          · rw [hget_lt id hlow hcn]
            exact h2
          · rcases h3 with hnc | ⟨l, h, hl, hh, hil, hls, hih, hhs, hmis, hsum, hmseq⟩
            · refine Or.inl ?_
              rw [hget_lt id hlow hcn]
              exact hnc
            · refine Or.inr ⟨l, h, ?_, ?_, hil, by omega, hih, by omega, ?_, ?_, ?_⟩
              · rw [hget_lt id hlow hcn]; exact hl
              · rw [hget_lt id hlow hcn]; exact hh
              · rw [hget_lt id hlow hcn]; exact hmis
              · rw [hget_lt id hlow hcn, hmisEq l hls, hmisEq h hhs]
                exact hsum
              · rw [hget_lt id hlow hcn, hmsEq l hls, hmsEq h hhs]
                exact hmseq
        · -- one of the two fresh leaves
          by_cases hl2 : id = f.arena.size
          · subst hl2
            refine ⟨?_, ?_, Or.inl ?_⟩
            · rw [hget_low]
              intro x hx
              exact hinNew x (List.take_subset sl inputs hx)
            · rw [hget_low]
              exact hrootOld
            · rw [hget_low]
              exact ⟨rfl, rfl, rfl, rfl⟩
          · have hh2 : id = f.arena.size + 1 := by omega
            subst hh2
            refine ⟨?_, ?_, Or.inl ?_⟩
            · rw [hget_high]
              intro x hx
              exact hinNew x (List.drop_subset sl inputs hx)
            · rw [hget_high]
              exact hrootOld
            · rw [hget_high]
              exact ⟨rfl, rfl, rfl, rfl⟩

/-! ## The heap operations on the leaf queue -/

theorem qswap_size (q : Array Nat) (i j : Nat) : (qswap q i j).size = q.size := by
  simp [qswap, Array.size_setD]

theorem list_set_get_self {α : Type _} :
    ∀ (l : List α) (k : Nat) (hk : k < l.length), l.set k (l.get ⟨k, hk⟩) = l := by
  intro l
  induction l with
  | nil => intro k hk; cases hk
  | cons b r ih =>
      intro k hk
      cases k with
      | zero => rfl
      | succ k =>
          show b :: r.set k (r.get ⟨k, by simpa using hk⟩) = b :: r
          rw [ih k (by simpa using hk)]

/-- The queue swap preserves the multiset of queued ids, also at equal
indices. -/
theorem qswap_ms_all (q : Array Nat) (i j : Nat) (hi : i < q.size) (hj : j < q.size) :
    ((qswap q i j).toList : Multiset Nat) = (q.toList : Multiset Nat) := by
  by_cases hij : i = j
  · subst hij
    show (((q.setD i (q.getD i 0)).setD i (q.getD i 0)).toList : Multiset Nat) = _
    unfold Array.setD
    rw [dif_pos hi]
    rw [dif_pos (by simpa using hi)]
    rw [Array.toList_set, Array.toList_set, List.set_set]
    rw [arrGetD_eq_toListGet_any q 0 i hi]
    rw [list_set_get_self q.toList i (by simpa using hi)]
  · exact qswap_ms q i j hi hj hij

/-- Equal multisets of entries transport list membership. -/
theorem mem_of_ms_eq {α : Type _} {l1 l2 : List α} (h : (l1 : Multiset α) = (l2 : Multiset α))
    {x : α} (hx : x ∈ l1) : x ∈ l2 := by
  rw [← Multiset.mem_coe, ← h, Multiset.mem_coe]
  exact hx

/-- The comparator succeeds whenever both compared nodes have children. -/
theorem queueLess_ok {f : Forest} {q : Array Nat} {i j : Nat}
    (hi : HasKids f (q.getD i 0)) (hj : HasKids f (q.getD j 0)) :
    ∃ b, queueLess f q i j = .ok b := by
  obtain ⟨il, hil⟩ := Option.ne_none_iff_exists'.mp hi.1
  obtain ⟨ih2, hih⟩ := Option.ne_none_iff_exists'.mp hi.2
  obtain ⟨jl, hjl⟩ := Option.ne_none_iff_exists'.mp hj.1
  obtain ⟨jh, hjh⟩ := Option.ne_none_iff_exists'.mp hj.2
  simp only [queueLess]
  refine exceptBind_ok_ex (show childOrNil (getN f (q.getD i 0)).branchData.lowerChild
      = .ok il by rw [hil]; rfl) ?_
  refine exceptBind_ok_ex (show childOrNil (getN f (q.getD i 0)).branchData.highEqChild
      = .ok ih2 by rw [hih]; rfl) ?_
  refine exceptBind_ok_ex (show childOrNil (getN f (q.getD j 0)).branchData.lowerChild
      = .ok jl by rw [hjl]; rfl) ?_
  refine exceptBind_ok_ex (show childOrNil (getN f (q.getD j 0)).branchData.highEqChild
      = .ok jh by rw [hjh]; rfl) ?_
  exact ⟨_, rfl⟩

/-- siftdown preserves the queue multiset and size. -/
theorem siftdown_pres {f : Forest} :
    ∀ {fuel : Nat} {q : Array Nat} {i n : Nat} {q' : Array Nat},
      n ≤ q.size → siftdown f fuel q i n = .ok q' →
      (q'.toList : Multiset Nat) = (q.toList : Multiset Nat) ∧ q'.size = q.size := by
  intro fuel
  induction fuel with
  | zero => intro q i n q' hn h; cases h
  | succ fuel ih =>
      intro q i n q' hn h
      simp only [siftdown] at h
      split at h
      next hj1 =>
          cases h
          exact ⟨rfl, rfl⟩
      next hj1 =>
          split at h
          next hj2 =>
              cases hql : queueLess f q (2*i+1+1) (2*i+1) with
              | error e => rw [hql, exceptBind_err] at h; cases h
              | ok b =>
                  rw [hql, exceptBind_ok] at h
                  simp only [exceptPure_bind] at h
                  cases hql2 : queueLess f q (if b then 2*i+1+1 else 2*i+1) i with
                  | error e => rw [hql2, exceptBind_err] at h; cases h
                  | ok b2 =>
                      rw [hql2, exceptBind_ok] at h
                      split at h
                      next =>
                          cases h
                          exact ⟨rfl, rfl⟩
                      next =>
                          have hJn : (if b then 2*i+1+1 else 2*i+1) < n := by
                            split <;> omega
                          have hqs : n ≤ (qswap q i (if b then 2*i+1+1 else 2*i+1)).size := by
                            rw [qswap_size]; exact hn
                          obtain ⟨hms, hsz⟩ := ih hqs h
                          have hswap := qswap_ms_all q i (if b then 2*i+1+1 else 2*i+1)
                            (by omega) (by omega)
                          exact ⟨by rw [hms, hswap], by rw [hsz, qswap_size]⟩
          next hj2 =>
              rw [exceptPure_bind] at h
              cases hql2 : queueLess f q (2*i+1) i with
              | error e => rw [hql2, exceptBind_err] at h; cases h
              | ok b2 =>
                  rw [hql2, exceptBind_ok] at h
                  split at h
                  next =>
                      cases h
                      exact ⟨rfl, rfl⟩
                  next =>
                      have hqs : n ≤ (qswap q i (2*i+1)).size := by
                        rw [qswap_size]; exact hn
                      obtain ⟨hms, hsz⟩ := ih hqs h
                      have hswap := qswap_ms_all q i (2*i+1) (by omega) (by omega)
                      exact ⟨by rw [hms, hswap], by rw [hsz, qswap_size]⟩

/-- With every queued id owning children, siftdown never fails within its
fuel budget. -/
theorem siftdown_ne {f : Forest} :
    ∀ {fuel : Nat} {q : Array Nat} {i n : Nat} {e : String},
      (∀ id ∈ q.toList, HasKids f id) → n ≤ q.size → n - i < fuel →
      siftdown f fuel q i n ≠ .error e := by
  intro fuel
  induction fuel with
  | zero => intro q i n e hk hn hfuel; omega
  | succ fuel ih =>
      intro q i n e hk hn hfuel h
      simp only [siftdown] at h
      split at h
      next hj1 => cases h
      next hj1 =>
          have hkid : ∀ m, m < n → HasKids f (q.getD m 0) :=
            fun m hm => hk _ (arrGetD_mem q 0 m (by omega))
          split at h
          next hj2 =>
              obtain ⟨b, hql⟩ := queueLess_ok (hkid (2*i+1+1) hj2) (hkid (2*i+1) (by omega))
              rw [hql, exceptBind_ok] at h
              simp only [exceptPure_bind] at h
              have hJn : (if b then 2*i+1+1 else 2*i+1) < n := by
                split <;> omega
              obtain ⟨b2, hql2⟩ := queueLess_ok
                (hkid (if b then 2*i+1+1 else 2*i+1) hJn) (hkid i (by omega))
              rw [hql2, exceptBind_ok] at h
              split at h
              next => cases h
              next =>
                  have hJgt : i < (if b then 2*i+1+1 else 2*i+1) := by
                    split <;> omega
                  refine ih ?_ ?_ ?_ h
                  · intro id hid
                    exact hk id (mem_of_ms_eq (qswap_ms_all q i
                      (if b then 2*i+1+1 else 2*i+1) (by omega) (by omega)) hid)
                  · rw [qswap_size]; exact hn
                  · omega
          next hj2 =>
              rw [exceptPure_bind] at h
              obtain ⟨b2, hql2⟩ := queueLess_ok (hkid (2*i+1) (by omega)) (hkid i (by omega))
              rw [hql2, exceptBind_ok] at h
              split at h
              next => cases h
              next =>
                  refine ih ?_ ?_ ?_ h
                  · intro id hid
                    exact hk id (mem_of_ms_eq (qswap_ms_all q i (2*i+1) (by omega) (by omega)) hid)
                  · rw [qswap_size]; exact hn
                  · omega

/-- siftup preserves the queue multiset and size. -/
theorem siftup_pres {f : Forest} :
    ∀ {fuel : Nat} {q : Array Nat} {j : Nat} {q' : Array Nat},
      j < q.size → siftup f fuel q j = .ok q' →
      (q'.toList : Multiset Nat) = (q.toList : Multiset Nat) ∧ q'.size = q.size := by
  intro fuel
  induction fuel with
  | zero => intro q j q' hj h; cases h
  | succ fuel ih =>
      intro q j q' hj h
      simp only [siftup] at h
      split at h
      next hij =>
          cases h
          exact ⟨rfl, rfl⟩
      next hij =>
          have hne2 : (j - 1) / 2 ≠ j := by simpa using hij
          have hijlt : (j - 1) / 2 < j := by omega
          cases hql : queueLess f q j ((j - 1) / 2) with
          | error e => rw [hql, exceptBind_err] at h; cases h
          | ok b =>
              rw [hql, exceptBind_ok] at h
              split at h
              next =>
                  cases h
                  exact ⟨rfl, rfl⟩
              next =>
                  have hqs : (j - 1) / 2 < (qswap q ((j - 1) / 2) j).size := by
                    rw [qswap_size]; omega
                  obtain ⟨hms, hsz⟩ := ih hqs h
                  have hswap := qswap_ms_all q ((j - 1) / 2) j (by omega) hj
                  exact ⟨by rw [hms, hswap], by rw [hsz, qswap_size]⟩

/-- With every queued id owning children, siftup never fails within its
fuel budget. -/
theorem siftup_ne {f : Forest} :
    ∀ {fuel : Nat} {q : Array Nat} {j : Nat} {e : String},
      (∀ id ∈ q.toList, HasKids f id) → j < q.size → j < fuel →
      siftup f fuel q j ≠ .error e := by
  intro fuel
  induction fuel with
  | zero => intro q j e hk hj hfuel; omega
  | succ fuel ih =>
      intro q j e hk hj hfuel h
      simp only [siftup] at h
      split at h
      next hij => cases h
      next hij =>
          have hne2 : (j - 1) / 2 ≠ j := by simpa using hij
          have hijlt : (j - 1) / 2 < j := by omega
          have hkid : ∀ m, m < q.size → HasKids f (q.getD m 0) :=
            fun m hm => hk _ (arrGetD_mem q 0 m hm)
          obtain ⟨b, hql⟩ := queueLess_ok (hkid j hj) (hkid ((j - 1) / 2) (by omega))
          rw [hql, exceptBind_ok] at h
          split at h
          next => cases h
          next =>
              refine ih ?_ ?_ ?_ h
              · intro id hid
                exact hk id (mem_of_ms_eq (qswap_ms_all q ((j - 1) / 2) j (by omega) hj) hid)
              · rw [qswap_size]; omega
              · omega

/-- The last entry of a nonempty array heads its multiset of entries. -/
theorem arr_pop_ms {α : Type _} (a : Array α) (d : α) (h : 0 < a.size) :
    (a.toList : Multiset α) = a.getD (a.size - 1) d ::ₘ (a.pop.toList : Multiset α) := by
  have hne : a.toList ≠ [] := by
    intro hc
    have hlen : a.toList.length = a.size := by simp
    rw [hc] at hlen
    simp at hlen
    omega
  have hlast : a.getD (a.size - 1) d = a.toList.getLast hne := by
    rw [arrGetD_eq_toListGet_any a d (a.size - 1) (by omega)]
    rw [List.getLast_eq_get]
  rw [Array.toList_pop, hlast]
  have hdrop := List.dropLast_append_getLast hne
  calc (a.toList : Multiset α)
      = ((a.toList.dropLast ++ [a.toList.getLast hne] : List α) : Multiset α) := by
        rw [hdrop]
    _ = (a.toList.dropLast : Multiset α) + {a.toList.getLast hne} := by
        rw [← Multiset.coe_add]
        rfl
    _ = a.toList.getLast hne ::ₘ (a.toList.dropLast : Multiset α) := by
        rw [add_comm, Multiset.singleton_add]

/-- heap.Pop: on success the state is the input with one id removed from
the queue, and the removed id headed the queue multiset. -/
theorem heapPopF_pres {f : Forest} {nid : Nat} {f' : Forest}
    (hq : 0 < f.leafQueue.size) (h : heapPopF f = .ok (nid, f')) :
    (f.leafQueue.toList : Multiset Nat) = nid ::ₘ (f'.leafQueue.toList : Multiset Nat) ∧
    f'.leafQueue.size = f.leafQueue.size - 1 ∧
    f' = { f with leafQueue := f'.leafQueue } := by
  simp only [heapPopF] at h
  cases hsd : siftdown f ((qswap f.leafQueue 0 (f.leafQueue.size - 1)).size + 1)
      (qswap f.leafQueue 0 (f.leafQueue.size - 1)) 0 (f.leafQueue.size - 1) with
  | error e => rw [hsd, exceptBind_err] at h; cases h
  | ok q3 =>
      rw [hsd, exceptBind_ok] at h
      have hpres := siftdown_pres (by rw [qswap_size]; omega) hsd
      have hms0 := qswap_ms_all f.leafQueue 0 (f.leafQueue.size - 1) hq (by omega)
      have hsz3 : q3.size = f.leafQueue.size := by
        rw [hpres.2, qswap_size]
      have hms3 : (q3.toList : Multiset Nat) = (f.leafQueue.toList : Multiset Nat) := by
        rw [hpres.1, hms0]
      cases h
      refine ⟨?_, ?_, rfl⟩
      · rw [← hms3]
        have := arr_pop_ms q3 0 (by omega)
        rw [hsz3] at this
        exact this
      · show q3.pop.size = f.leafQueue.size - 1
        rw [Array.size_pop, hsz3]

/-- heap.Pop never fails on a nonempty queue whose members all have
children, nor on a singleton queue. -/
theorem heapPopF_ne {f : Forest} {e : String}
    (hq : 0 < f.leafQueue.size)
    (hk : (∀ id ∈ f.leafQueue.toList, HasKids f id) ∨ f.leafQueue.size = 1) :
    heapPopF f ≠ .error e := by
  intro h
  simp only [heapPopF] at h
  cases hsd : siftdown f ((qswap f.leafQueue 0 (f.leafQueue.size - 1)).size + 1)
      (qswap f.leafQueue 0 (f.leafQueue.size - 1)) 0 (f.leafQueue.size - 1) with
  | error e2 =>
      rcases hk with hall | hone
      · refine siftdown_ne ?_ (by rw [qswap_size]; omega) (by rw [qswap_size]; omega) hsd
        intro id hid
        exact hall id (mem_of_ms_eq (qswap_ms_all f.leafQueue 0 (f.leafQueue.size - 1) hq (by omega)) hid)
      · -- singleton queue: the sift range is empty, no comparison happens
        rw [show f.leafQueue.size - 1 = 0 from by omega] at hsd
        simp only [siftdown] at hsd
        rw [if_pos (by omega : 2*0+1 ≥ 0)] at hsd
        cases hsd
  | ok q3 =>
      rw [hsd, exceptBind_ok] at h
      cases h

/-- heap.Push: on success the state is the input with the pushed id added
to the queue multiset. -/
theorem heapPushF_pres {f : Forest} {x : Nat} {f' : Forest}
    (h : heapPushF f x = .ok f') :
    (f'.leafQueue.toList : Multiset Nat) = x ::ₘ (f.leafQueue.toList : Multiset Nat) ∧
    f'.leafQueue.size = f.leafQueue.size + 1 ∧
    f' = { f with leafQueue := f'.leafQueue } := by
  simp only [heapPushF] at h
  cases hsu : siftup f (f.leafQueue.push x).size (f.leafQueue.push x)
      ((f.leafQueue.push x).size - 1) with
  | error e => rw [hsu, exceptBind_err] at h; cases h
  | ok q' =>
      rw [hsu, exceptBind_ok] at h
      have hpres := siftup_pres (by simp [Array.size_push]) hsu
      cases h
      refine ⟨?_, ?_, rfl⟩
      · show (q'.toList : Multiset Nat) = _
        rw [hpres.1, Array.push_toList, ← Multiset.coe_add]
        show (f.leafQueue.toList : Multiset Nat) + {x}
            = x ::ₘ (f.leafQueue.toList : Multiset Nat)
        rw [add_comm, Multiset.singleton_add]
      · show q'.size = _
        rw [hpres.2, Array.size_push]

/-- heap.Push never fails when the queue members and the pushed id all
have children. -/
theorem heapPushF_ne {f : Forest} {x : Nat} {e : String}
    (hk : ∀ id ∈ f.leafQueue.toList, HasKids f id) (hx : HasKids f x) :
    heapPushF f x ≠ .error e := by
  intro h
  simp only [heapPushF] at h
  cases hsu : siftup f (f.leafQueue.push x).size (f.leafQueue.push x)
      ((f.leafQueue.push x).size - 1) with
  | error e2 =>
      refine siftup_ne ?_ (by simp [Array.size_push]) (by simp [Array.size_push]) hsu
      intro id hid
      rw [Array.push_toList, List.mem_append] at hid
      rcases hid with hid | hid
      · exact hk id hid
      · rw [List.mem_singleton] at hid
        subst hid
        exact hx
  | ok q' =>
      rw [hsu, exceptBind_ok] at h
      cases h

/-- heap.Init on a single-element queue is the identity. -/
theorem heapInitF_single {f : Forest} (h : f.leafQueue.size = 1) :
    heapInitF f = .ok f := by
  simp only [heapInitF]
  rw [show f.leafQueue.size / 2 = 0 from by omega]
  show (do
    let q ← heapInitLoop f [] f.leafQueue
    pure { f with leafQueue := q }) = _
  show (do
    let q ← (pure f.leafQueue : Except String (Array Nat))
    pure { f with leafQueue := q }) = _
  rw [exceptPure_bind]
  rfl

/-! ## convertToBranch and the growth loop preserve the invariant -/

theorem staticEq_trans {a b c : Forest} (h1 : StaticEq a b) (h2 : StaticEq b c) :
    StaticEq a c := by
  obtain ⟨x1, x2, x3, x4, x5, x6, x7, x8⟩ := h1
  obtain ⟨y1, y2, y3, y4, y5, y6, y7, y8⟩ := h2
  exact ⟨by rw [y1, x1], by rw [y2, x2], by rw [y3, x3], by rw [y4, x4],
    by rw [y5, x5], by rw [y6, x6], by rw [y7, x7], by rw [y8, x8]⟩

theorem misKeep_trans {a b c : Forest} (h1 : MisKeep a b) (h2 : MisKeep b c) :
    MisKeep a c := by
  obtain ⟨hab, hm1⟩ := h1
  obtain ⟨hbc, hm2⟩ := h2
  refine ⟨le_trans hab hbc, ?_⟩
  intro id hid
  rw [hm2 id (by omega), hm1 id hid]

theorem misKeep_refl (f : Forest) : MisKeep f f := ⟨le_refl _, fun _ _ => rfl⟩

theorem staticEq_refl (f : Forest) : StaticEq f f :=
  ⟨rfl, rfl, rfl, rfl, rfl, rfl, rfl, rfl⟩

/-- A node with a recorded candidate has both children. -/
theorem kids_of_cand {f : Forest} {id : Nat} (hinv : Inv f) (hid : id < f.arena.size)
    (hdf : (getN f id).branchData.decideFeature ≠ -1) : HasKids f id := by
  rcases (hinv.nodesOk id hid).2.2 with hnc | ⟨l, h, hl, hh, _⟩
  · exact absurd hnc.2.2.1 hdf
  · exact ⟨by rw [hl]; exact Option.some_ne_none l, by rw [hh]; exact Option.some_ne_none h⟩

/-- Replacing the queue by one whose members are valid kid-owning ids (or
at most one id) keeps the invariant. -/
theorem inv_queue_set {f : Forest} {q : Array Nat}
    (hinv : Inv f) (hids : ∀ id ∈ q.toList, id < f.arena.size)
    (hkids : (∀ id ∈ q.toList, HasKids f id) ∨ q.size ≤ 1) :
    Inv { f with leafQueue := q } := by
  refine ⟨hinv.fsPos, hinv.flen, hinv.elen, hinv.allowedEq, hinv.rootsEq, hinv.arenaPos,
    hinv.rootMs, hids, ?_, hinv.nodesOk⟩
  rcases hkids with hall | hone
  · exact Or.inl hall
  · exact Or.inr hone

/-- Flipping a candidate-carrying node to a branch keeps the invariant. -/
theorem setLeaf_inv {f : Forest} {nid : Nat} (hinv : Inv f) (hnid : nid < f.arena.size)
    (hcand : (getN f nid).branchData.decideFeature ≠ -1) :
    Inv (setN f nid { getN f nid with isLeaf := false }) ∧
    StaticEq f (setN f nid { getN f nid with isLeaf := false }) ∧
    MisKeep f (setN f nid { getN f nid with isLeaf := false }) ∧
    (∀ id, HasKids f id → HasKids (setN f nid { getN f nid with isLeaf := false }) id) := by
  have hsz1 : (setN f nid { getN f nid with isLeaf := false }).arena.size = f.arena.size := by
    simp [setN, Array.size_setD]
  have hgetn : getN (setN f nid { getN f nid with isLeaf := false }) nid
      = { getN f nid with isLeaf := false } := getN_setN_self hnid
  have hget1 : ∀ id, id ≠ nid →
      getN (setN f nid { getN f nid with isLeaf := false }) id = getN f id :=
    fun id hne => getN_setN_ne hne
  have hmis1 : ∀ c, (getN (setN f nid { getN f nid with isLeaf := false }) c).misclassified
      = (getN f c).misclassified := by
    intro c
    by_cases hcn : c = nid
    · subst hcn
      rw [hgetn]
    · rw [hget1 c hcn]
  have hms1 : ∀ c, ((getN (setN f nid { getN f nid with isLeaf := false }) c).inputs : Multiset Int)
      = ((getN f c).inputs : Multiset Int) := by
    intro c
    by_cases hcn : c = nid
    · subst hcn
      rw [hgetn]
    · rw [hget1 c hcn]
  have hbd1 : ∀ c, (getN (setN f nid { getN f nid with isLeaf := false }) c).branchData
      = (getN f c).branchData := by
    intro c
    by_cases hcn : c = nid
    · subst hcn
      rw [hgetn]
    · rw [hget1 c hcn]
  have hroot1 : ∀ c, (getN (setN f nid { getN f nid with isLeaf := false }) c).originalRoot
      = (getN f c).originalRoot := by
    intro c
    by_cases hcn : c = nid
    · subst hcn
      rw [hgetn]
    · rw [hget1 c hcn]
  have hkpres : ∀ id, HasKids f id →
      HasKids (setN f nid { getN f nid with isLeaf := false }) id := by
    intro id hk
    rw [HasKids, hbd1 id]
    exact hk
  refine ⟨⟨hinv.fsPos, hinv.flen, hinv.elen, hinv.allowedEq, hinv.rootsEq, by omega,
    ?_, ?_, ?_, ?_⟩, ⟨rfl, rfl, rfl, rfl, rfl, rfl, rfl, rfl⟩, ⟨by omega, fun id _ => hmis1 id⟩,
    hkpres⟩
  · rw [hms1 0]
    exact hinv.rootMs
  · intro id hid
    have := hinv.queueIds id hid
    omega
  · rcases hinv.queueKids with hall | hone
    · exact Or.inl (fun id hid => hkpres id (hall id hid))
    · exact Or.inr hone
  · intro id hid
    rw [hsz1] at hid
    obtain ⟨h1, h2, h3⟩ := hinv.nodesOk id hid
    refine ⟨?_, ?_, ?_⟩
    · intro fr hfr
      refine h1 fr ?_
      by_cases hcn : id = nid
      · subst hcn
        rw [hgetn] at hfr
        exact hfr
      · rw [hget1 id hcn] at hfr
        exact hfr
    · rw [hroot1 id]
      exact h2
    · rcases h3 with hnc | ⟨l, h, hl, hh, hil, hls, hih, hhs, hmis, hsum, hmseq⟩
      · by_cases hcn : id = nid
        · subst hcn
          exact absurd hnc.2.2.1 hcand
        · refine Or.inl ?_
          rw [hget1 id hcn]
          exact hnc
      · refine Or.inr ⟨l, h, ?_, ?_, hil, by omega, hih, by omega, ?_, ?_, ?_⟩
        · rw [show (getN (setN f nid { getN f nid with isLeaf := false }) id).branchData
            = (getN f id).branchData from hbd1 id]
          exact hl
        · rw [hbd1 id]
          exact hh
        · rw [hmis1 id]
          exact hmis
        · rw [hmis1 id, hmis1 l, hmis1 h]
          exact hsum
        · rw [hms1 id, hms1 l, hms1 h]
          exact hmseq

/-- precalcBestSplit never fails on a valid node of an invariant state. -/
theorem precalc_ne {f : Forest} {nid : Nat} {e : String}
    (hinv : Inv f) (hnid : nid < f.arena.size) :
    precalcBestSplit f nid ≠ .error e := by
  intro h
  have hroot := (hinv.nodesOk nid hnid).2.1
  have hin := (hinv.nodesOk nid hnid).1
  simp only [precalcBestSplit] at h
  split at h
  next hget =>
      rw [hroot, hinv.allowedEq] at hget
      cases hget
  next aList haList =>
      rw [hroot, hinv.allowedEq] at haList
      have haEq : aList = (List.range (2 * f.frameSize - 1).toNat).map Int.ofNat := by
        have h2 := haList
        simp only [List.get?] at h2
        cases h2
        rfl
      have hfeatB : ∀ feat ∈ aList, 0 ≤ feat ∧ feat < 2 * f.frameSize - 1 := by
        intro feat hmem
        rw [haEq] at hmem
        simp only [List.mem_map, List.mem_range] at hmem
        obtain ⟨k, hk, hkeq⟩ := hmem
        subst hkeq
        have hfs := hinv.fsPos
        simp only [Int.ofNat_eq_coe]
        omega
      split at h
      next hz => cases h
      next hz =>
          obtain ⟨best, hfold2⟩ := listFoldlM_ok (fun best splitFeature => do
              let nextSplit ← splitReduction f (getN f nid) splitFeature
              pure (if nextSplit.misses < best.misses then nextSplit else best)) aList
            (⟨-1, -1, false, goTrunc99 (getN f nid).misclassified, -1, -1⟩ : SplitDetails)
            (by
              intro b' feat hmem
              obtain ⟨sd, hsd⟩ := splitReduction_ok hinv.fsPos hinv.flen hinv.elen hin
                (hfeatB feat hmem).1 (hfeatB feat hmem).2
              exact exceptBind_ok_ex hsd ⟨_, rfl⟩)
          rw [hfold2, exceptBind_ok] at h
          split at h
          next hbf =>
              rcases precalcFold_cases aList _ best hfold2 with hres | ⟨feat, hmem, sd, hsr, hsd, hlt⟩
              · rw [hres] at hbf
                exact absurd rfl hbf
              · subst hsd
                rcases splitReduction_cases hsr with hsent | ⟨hfeat, _⟩
                · rw [hsent] at hbf
                  exact absurd rfl hbf
                · obtain ⟨f2, hps⟩ := presplitOn_ok hinv.fsPos hinv.flen hin
                    (by rw [hfeat]; exact (hfeatB feat hmem).1)
                    (by rw [hfeat]; exact (hfeatB feat hmem).2)
                  rw [hps] at h
                  cases h
          next hbf => cases h

theorem precalc_okex {f : Forest} {nid : Nat} (hinv : Inv f) (hnid : nid < f.arena.size) :
    ∃ f', precalcBestSplit f nid = .ok f' := by
  cases hres : precalcBestSplit f nid with
  | ok f' => exact ⟨f', rfl⟩
  | error e => exact absurd hres (precalc_ne hinv hnid)

theorem exceptBind_ok_inv {α β : Type _} {m : Except String α} {k : α → Except String β}
    {b : β} (h : (m >>= k) = .ok b) : ∃ a, m = .ok a ∧ k a = .ok b := by
  cases m with
  | ok a => exact ⟨a, rfl, h⟩
  | error e => cases h

theorem exceptBind_err_inv {α β : Type _} {m : Except String α} {k : α → Except String β}
    {e : String} (h : (m >>= k) = .error e) :
    m = .error e ∨ ∃ a, m = .ok a ∧ k a = .error e := by
  cases m with
  | ok a => exact Or.inr ⟨a, rfl, h⟩
  | error e2 =>
      rw [exceptBind_err] at h
      cases h
      exact Or.inl rfl

/-- Pushing a candidate-carrying node keeps the invariant (the pushed id
has children, so the comparator contract of the queue is maintained). -/
theorem pushCand_inv {g g3 : Forest} {c : Nat}
    (hinv : Inv g) (hc : c < g.arena.size)
    (hkq : ∀ id ∈ g.leafQueue.toList, HasKids g id)
    (hdf : (getN g c).branchData.decideFeature ≠ -1)
    (hpush : heapPushF g c = .ok g3) :
    Inv g3 ∧ StaticEq g g3 ∧ MisKeep g g3 ∧
      (∀ id ∈ g3.leafQueue.toList, HasKids g3 id) := by
  obtain ⟨hqms, hqsz, hshape⟩ := heapPushF_pres hpush
  have hkc : HasKids g c := kids_of_cand hinv hc hdf
  have hmem3 : ∀ id ∈ g3.leafQueue.toList, id = c ∨ id ∈ g.leafQueue.toList := by
    intro id hid
    have : id ∈ (g3.leafQueue.toList : Multiset Nat) := by simpa using hid
    rw [hqms] at this
    rcases Multiset.mem_cons.mp this with hic | him
    · exact Or.inl hic
    · exact Or.inr (by simpa using him)
  refine ⟨?_, ?_, ?_, ?_⟩
  · rw [hshape]
    refine inv_queue_set hinv ?_ ?_
    · intro id hid
      rcases hmem3 id hid with hic | him
      · omega
      · exact hinv.queueIds id him
    · refine Or.inl ?_
      intro id hid
      rcases hmem3 id hid with hic | him
      · rw [hic]; exact hkc
      · exact hkq id him
  · rw [hshape]
    exact staticEq_refl _
  · rw [hshape]
    exact misKeep_refl _
  · intro id hid
    have hk2 : HasKids g id := by
      rcases hmem3 id hid with hic | him
      · rw [hic]; exact hkc
      · exact hkq id him
    rw [hshape]
    exact hk2

/-- The per-child step of convertToBranch: split further when worthwhile,
enqueue when a candidate was recorded; it keeps the invariant and never
fails. -/
theorem convertChild_inv {g g' : Forest} {c : Nat}
    (hinv : Inv g) (hc : c < g.arena.size)
    (hkq : ∀ id ∈ g.leafQueue.toList, HasKids g id)
    (h : (if (getN g c).misclassified > 0 then do
        let g2 ← precalcBestSplit g c
        if (getN g2 c).branchData.decideFeature ≠ -1 then heapPushF g2 c else pure g2
      else pure g) = .ok g') :
    Inv g' ∧ StaticEq g g' ∧ MisKeep g g' ∧
      (∀ id ∈ g'.leafQueue.toList, HasKids g' id) := by
  split at h
  next hgt =>
      obtain ⟨g2, hpc, h2⟩ := exceptBind_ok_inv h
      obtain ⟨hinv2, hstat2, hmk2, hq2, hkm2⟩ := precalc_inv hinv hc (by omega) hpc
      have hc2 : c < g2.arena.size := by
        have := hmk2.1
        omega
      have hkq2 : ∀ id ∈ g2.leafQueue.toList, HasKids g2 id := by
        intro id hid
        rw [hq2] at hid
        exact hkm2 id (hkq id hid)
      split at h2
      next hdf =>
          obtain ⟨hinv3, hstat3, hmk3, hkq3⟩ := pushCand_inv hinv2 hc2 hkq2 hdf h2
          exact ⟨hinv3, staticEq_trans hstat2 hstat3, misKeep_trans hmk2 hmk3, hkq3⟩
      next hdf =>
          cases h2
          exact ⟨hinv2, hstat2, hmk2, hkq2⟩
  next hgt =>
      cases h
      exact ⟨hinv, staticEq_refl _, misKeep_refl _, hkq⟩

/-- The per-child step never fails. -/
theorem convertChild_ne {g : Forest} {c : Nat} {e : String}
    (hinv : Inv g) (hc : c < g.arena.size)
    (hkq : ∀ id ∈ g.leafQueue.toList, HasKids g id) :
    (if (getN g c).misclassified > 0 then do
        let g2 ← precalcBestSplit g c
        if (getN g2 c).branchData.decideFeature ≠ -1 then heapPushF g2 c else pure g2
      else pure g) ≠ .error e := by
  intro h
  split at h
  next hgt =>
      rcases exceptBind_err_inv h with hpc | ⟨g2, hpc, h2⟩
      · exact precalc_ne hinv hc hpc
      · obtain ⟨hinv2, hstat2, hmk2, hq2, hkm2⟩ := precalc_inv hinv hc (by omega) hpc
        have hc2 : c < g2.arena.size := by
          have := hmk2.1
          omega
        have hkq2 : ∀ id ∈ g2.leafQueue.toList, HasKids g2 id := by
          intro id hid
          rw [hq2] at hid
          exact hkm2 id (hkq id hid)
        split at h2
        next hdf =>
            exact heapPushF_ne hkq2 (kids_of_cand hinv2 hc2 hdf) h2
        next hdf => cases h2
  next hgt => cases h

/-- convertToBranch keeps the invariant, the static fields and the stored
counts, given a valid popped candidate node and a kid-owning queue. -/
theorem convert_inv {f f' : Forest} {nid : Nat}
    (hinv : Inv f) (hnid : nid < f.arena.size)
    (hcand : (getN f nid).branchData.decideFeature ≠ -1)
    (hkq : ∀ id ∈ f.leafQueue.toList, HasKids f id)
    (h : convertToBranch f nid = .ok f') :
    Inv f' ∧ StaticEq f f' ∧ MisKeep f f' := by
  obtain ⟨hinv1, hstat1, hmk1, hkm1⟩ := setLeaf_inv hinv hnid hcand
  rcases (hinv.nodesOk nid hnid).2.2 with hnc | ⟨l, hch, hl, hh, hil, hls, hih, hhs, _⟩
  · exact absurd hnc.2.2.1 hcand
  · simp only [convertToBranch] at h
    rw [getN_setN_self hnid] at h
    simp only [] at h
    rw [hl, hh] at h
    simp only [childOrNil, exceptPure_bind] at h
    have hsz1 : (setN f nid { getN f nid with isLeaf := false }).arena.size = f.arena.size := by
      simp [setN, Array.size_setD]
    have hls1 : l < (setN f nid { getN f nid with isLeaf := false }).arena.size := by
      omega
    have hkq1 : ∀ id ∈ (setN f nid { getN f nid with isLeaf := false }).leafQueue.toList,
        HasKids (setN f nid { getN f nid with isLeaf := false }) id := by
      intro id hid
      exact hkm1 id (hkq id hid)
    have hchs1 : hch < (setN f nid { getN f nid with isLeaf := false }).arena.size := by
      omega
    split at h
    next hgtl =>
        rw [getN_setN_ne (show l ≠ nid from by omega)] at hgtl
        obtain ⟨g2, hpc, h2⟩ := exceptBind_ok_inv h
        obtain ⟨hinv2, hstat2, hmk2, hq2, hkm2⟩ := precalc_inv hinv1 hls1
          (by rw [getN_setN_ne (show l ≠ nid from by omega)]; omega) hpc
        have hsz2 : (setN f nid { getN f nid with isLeaf := false }).arena.size
            ≤ g2.arena.size := hmk2.1
        have hls2 : l < g2.arena.size := by omega
        have hch2 : hch < g2.arena.size := by omega
        have hkq2 : ∀ id ∈ g2.leafQueue.toList, HasKids g2 id := by
          intro id hid
          rw [hq2] at hid
          exact hkm2 id (hkq1 id hid)
        split at h2
        next hdfl =>
            obtain ⟨g3, hpush, h3⟩ := exceptBind_ok_inv h2
            obtain ⟨hinv3, hstat3, hmk3, hkq3⟩ := pushCand_inv hinv2 hls2 hkq2 hdfl hpush
            have hch3 : hch < g3.arena.size := by
              have := hmk3.1
              omega
            have hres := convertChild_inv hinv3 hch3 hkq3 h3
            exact ⟨hres.1,
              staticEq_trans hstat1 (staticEq_trans hstat2 (staticEq_trans hstat3 hres.2.1)),
              misKeep_trans hmk1 (misKeep_trans hmk2 (misKeep_trans hmk3 hres.2.2.1))⟩
        next hdfl =>
            have hres := convertChild_inv hinv2 hch2 hkq2 h2
            exact ⟨hres.1, staticEq_trans hstat1 (staticEq_trans hstat2 hres.2.1),
              misKeep_trans hmk1 (misKeep_trans hmk2 hres.2.2.1)⟩
    next hgtl =>
        have hres := convertChild_inv hinv1 hchs1 hkq1 h
        exact ⟨hres.1, staticEq_trans hstat1 hres.2.1,
          misKeep_trans hmk1 hres.2.2.1⟩

/-- convertToBranch never fails under the same hypotheses. -/
theorem convert_ne {f : Forest} {nid : Nat} {e : String}
    (hinv : Inv f) (hnid : nid < f.arena.size)
    (hcand : (getN f nid).branchData.decideFeature ≠ -1)
    (hkq : ∀ id ∈ f.leafQueue.toList, HasKids f id) :
    convertToBranch f nid ≠ .error e := by
  intro h
  obtain ⟨hinv1, hstat1, hmk1, hkm1⟩ := setLeaf_inv hinv hnid hcand
  rcases (hinv.nodesOk nid hnid).2.2 with hnc | ⟨l, hch, hl, hh, hil, hls, hih, hhs, _⟩
  · exact absurd hnc.2.2.1 hcand
  · simp only [convertToBranch] at h
    rw [getN_setN_self hnid] at h
    simp only [] at h
    rw [hl, hh] at h
    simp only [childOrNil, exceptPure_bind] at h
    have hsz1 : (setN f nid { getN f nid with isLeaf := false }).arena.size = f.arena.size := by
      simp [setN, Array.size_setD]
    have hls1 : l < (setN f nid { getN f nid with isLeaf := false }).arena.size := by
      omega
    have hkq1 : ∀ id ∈ (setN f nid { getN f nid with isLeaf := false }).leafQueue.toList,
        HasKids (setN f nid { getN f nid with isLeaf := false }) id := by
      intro id hid
      exact hkm1 id (hkq id hid)
    have hchs1 : hch < (setN f nid { getN f nid with isLeaf := false }).arena.size := by
      omega
    split at h
    next hgtl =>
        rw [getN_setN_ne (show l ≠ nid from by omega)] at hgtl
        rcases exceptBind_err_inv h with hpc | ⟨g2, hpc, h2⟩
        · exact precalc_ne hinv1 hls1 hpc
        · obtain ⟨hinv2, hstat2, hmk2, hq2, hkm2⟩ := precalc_inv hinv1 hls1
            (by rw [getN_setN_ne (show l ≠ nid from by omega)]; omega) hpc
          have hsz2 : (setN f nid { getN f nid with isLeaf := false }).arena.size
              ≤ g2.arena.size := hmk2.1
          have hls2 : l < g2.arena.size := by omega
          have hch2 : hch < g2.arena.size := by omega
          have hkq2 : ∀ id ∈ g2.leafQueue.toList, HasKids g2 id := by
            intro id hid
            rw [hq2] at hid
            exact hkm2 id (hkq1 id hid)
          split at h2
          next hdfl =>
              rcases exceptBind_err_inv h2 with hpush | ⟨g3, hpush, h3⟩
              · exact heapPushF_ne hkq2 (kids_of_cand hinv2 hls2 hdfl) hpush
              · obtain ⟨hinv3, hstat3, hmk3, hkq3⟩ := pushCand_inv hinv2 hls2 hkq2 hdfl hpush
                have hch3 : hch < g3.arena.size := by
                  have := hmk3.1
                  omega
                exact convertChild_ne hinv3 hch3 hkq3 h3
          next hdfl =>
              exact convertChild_ne hinv2 hch2 hkq2 h2
    next hgtl =>
        exact convertChild_ne hinv1 hchs1 hkq1 h

/-- One unfolding of the growth loop when the queue is empty. -/
theorem trainLoop_stop {f : Forest} {fuel : Nat} (hq : ¬ f.leafQueue.size > 0) :
    trainLoop f (fuel+1) = .ok (.done f) := by
  unfold trainLoop
  rw [if_neg hq]
  rfl

/-- One unfolding of the growth loop after a successful pop. -/
theorem trainLoop_go {f f1 : Forest} {nid : Nat} {fuel : Nat}
    (hq : f.leafQueue.size > 0) (hpop : heapPopF f = .ok (nid, f1)) :
    trainLoop f (fuel+1)
      = if (getN f1 nid).branchData.decideFeature == -1 then .ok (.done f1)
        else if (getN f1 nid).misclassified < f1.minMisclassified then .ok (.done f1)
        else (convertToBranch f1 nid >>= fun f2 => trainLoop f2 fuel) := by
  generalize hG : (convertToBranch f1 nid >>= fun f2 => trainLoop f2 fuel) = G
  unfold trainLoop
  rw [if_pos hq, hpop, exceptBind_ok]
  show (if ((getN f1 nid).branchData.decideFeature == -1) = true then pure (LoopRes.done f1)
      else if (getN f1 nid).misclassified < f1.minMisclassified then pure (LoopRes.done f1)
      else do
        let f2 ← convertToBranch f1 nid
        trainLoop f2 fuel : Except String LoopRes) = _
  rw [hG]
  rfl

/-- The growth loop runs without a panic from any invariant state, and the
invariant, the static fields and the stored counts carry to the final
state. -/
theorem trainLoop_inv :
    ∀ (fuel : Nat) {f : Forest}, Inv f →
      ∃ res, trainLoop f fuel = .ok res ∧ Inv (resForest res) ∧
        StaticEq f (resForest res) ∧ MisKeep f (resForest res) := by
  intro fuel
  induction fuel with
  | zero =>
      intro f hinv
      exact ⟨.more f, rfl, hinv, staticEq_refl f, misKeep_refl f⟩
  | succ fuel ih =>
      intro f hinv
      by_cases hq : f.leafQueue.size > 0
      · cases hpop : heapPopF f with
        | error e =>
            exfalso
            refine heapPopF_ne hq ?_ hpop
            rcases hinv.queueKids with hall | hone
            · exact Or.inl hall
            · exact Or.inr (by omega)
        | ok p =>
            obtain ⟨nid, f1⟩ := p
            obtain ⟨hqms, hqsz, hshape⟩ := heapPopF_pres hq hpop
            have hmemsub : ∀ id ∈ f1.leafQueue.toList, id ∈ f.leafQueue.toList := by
              intro id hid
              have h2 : id ∈ (f1.leafQueue.toList : Multiset Nat) := by simpa using hid
              have h3 : id ∈ (f.leafQueue.toList : Multiset Nat) := by
                rw [hqms]
                exact Multiset.mem_cons_of_mem h2
              simpa using h3
            have hnidmem : nid ∈ f.leafQueue.toList := by
              have h3 : nid ∈ (f.leafQueue.toList : Multiset Nat) := by
                rw [hqms]
                exact Multiset.mem_cons_self nid _
              simpa using h3
            have hnid : nid < f.arena.size := hinv.queueIds nid hnidmem
            have harena1 : f1.arena = f.arena := by
              rw [hshape]
            have hgete : ∀ id, getN f1 id = getN f id := by
              intro id
              show f1.arena.getD id default = f.arena.getD id default
              rw [harena1]
            have hkq1 : ∀ id ∈ f1.leafQueue.toList, HasKids f1 id := by
              intro id hid
              rcases hinv.queueKids with hall | hone
              · have := hall id (hmemsub id hid)
                rw [HasKids, hgete id]
                exact this
              · exfalso
                have hsz0 : f1.leafQueue.size = 0 := by omega
                have : f1.leafQueue.toList.length = 0 := by
                  have h4 : f1.leafQueue.toList.length = f1.leafQueue.size := by simp
                  omega
                rw [List.length_eq_zero] at this
                rw [this] at hid
                cases hid
            have hinv1 : Inv f1 := by
              rw [hshape]
              refine inv_queue_set hinv ?_ ?_
              · intro id hid
                exact hinv.queueIds id (hmemsub id (by
                  rw [hshape] at hid
                  exact hid))
              · refine Or.inl ?_
                intro id hid
                have := hkq1 id (by rw [hshape] at hid; exact hid)
                rw [HasKids, hgete id] at this
                exact this
            have hstat1 : StaticEq f f1 := by
              rw [hshape]
              exact staticEq_refl _
            have hmk1 : MisKeep f f1 := by
              refine ⟨le_of_eq ?_, ?_⟩
              · rw [harena1]
              · intro id _
                rw [hgete id]
            have hnid1 : nid < f1.arena.size := by
              rw [harena1]
              exact hnid
            rw [trainLoop_go hq hpop]
            by_cases hdf : ((getN f1 nid).branchData.decideFeature == -1) = true
            · rw [if_pos hdf]
              exact ⟨.done f1, rfl, hinv1, hstat1, hmk1⟩
            · rw [if_neg hdf]
              by_cases hmin : (getN f1 nid).misclassified < f1.minMisclassified
              · rw [if_pos hmin]
                exact ⟨.done f1, rfl, hinv1, hstat1, hmk1⟩
              · rw [if_neg hmin]
                have hcand : (getN f1 nid).branchData.decideFeature ≠ -1 := by
                  simpa using hdf
                cases hcv : convertToBranch f1 nid with
                | error e => exact absurd hcv (convert_ne hinv1 hnid1 hcand hkq1)
                | ok f2 =>
                    rw [exceptBind_ok]
                    obtain ⟨hinv2, hstat2, hmk2⟩ := convert_inv hinv1 hnid1 hcand hkq1 hcv
                    obtain ⟨res, hrec, hinv3, hstat3, hmk3⟩ := ih hinv2
                    exact ⟨res, hrec, hinv3,
                      staticEq_trans hstat1 (staticEq_trans hstat2 hstat3),
                      misKeep_trans hmk1 (misKeep_trans hmk2 hmk3)⟩
      · rw [trainLoop_stop hq]
        exact ⟨.done f, rfl, hinv, staticEq_refl f, misKeep_refl f⟩

/-! ## The setup phase establishes the invariant -/

theorem endLabel_bounds (expected : List Int) (fs F : Int) :
    0 ≤ endLabelTrueCount expected fs F ∧ endLabelTrueCount expected fs F ≤ (F.toNat : Int) := by
  unfold endLabelTrueCount
  have h2 : (List.filter (fun i => expected.getD (i + (fs - 1).toNat) 0 == 1)
      (List.range F.toNat)).length ≤ F.toNat := by
    have := List.length_filter_le (fun i => expected.getD (i + (fs - 1).toNat) 0 == 1)
      (List.range F.toNat)
    simpa using this
  omega

/-- The state just before the root precalc satisfies the invariant, for
any classification and stored count on the root. -/
theorem inv_preRoot (fs minM : Int) (samples expected : List Int) (mT : Bool) (mis : Int)
    (hfs : 1 ≤ fs) (hfslen : fs ≤ (samples.length : Int) + 1)
    (hlen : samples.length ≤ expected.length) :
    Inv (preRootState fs minM samples expected mT mis) := by
  unfold preRootState
  refine ⟨hfs, rfl, hlen, rfl, rfl, by simp, rfl, ?_, Or.inr (by simp), ?_⟩
  · intro id hid
    simp at hid
    subst hid
    simp
  · intro id hid
    simp at hid
    subst hid
    refine ⟨?_, rfl, Or.inl ⟨rfl, rfl, rfl, rfl⟩⟩
    intro fr hfr
    have hfr2 : fr ∈ rootInputs ((samples.length : Int) - fs + 1) := hfr
    unfold rootInputs at hfr2
    simp only [List.mem_map, List.mem_range] at hfr2
    obtain ⟨k, hk, hkeq⟩ := hfr2
    subst hkeq
    simp only [Int.ofNat_eq_coe]
    constructor
    · omega
    · show (k : Int) < (samples.length : Int) - fs + 1
      omega

/-- trainSetup on well-formed input succeeds and establishes the
invariant; the root stores the majority-complement count. -/
theorem trainSetup_wf (fs minM : Int) (samples expected : List Int) {f0 : Forest}
    (hnew : NewForest fs 1 minM = .ok f0)
    (hfs1 : 1 ≤ fs) (hfslen : fs ≤ (samples.length : Int) + 1)
    (hlen : samples.length ≤ expected.length) :
    ∃ f1, trainSetup f0 samples expected = .ok f1 ∧ Inv f1 ∧
      f1.leafQueue = #[0] ∧ f1.frameSize = fs ∧
      f1.trainFrameCount = (samples.length : Int) - fs + 1 ∧
      f1.trainSamples = samples ∧ f1.trainExpected = expected ∧ f1.roots = #[0] ∧
      f1.minMisclassified = minM ∧ 0 < f1.arena.size ∧
      (getN f1 0).misclassified
        = min (endLabelTrueCount expected fs ((samples.length : Int) - fs + 1))
            (((samples.length : Int) - fs + 1)
              - endLabelTrueCount expected fs ((samples.length : Int) - fs + 1)) := by
  unfold NewForest at hnew
  rw [if_neg (by norm_num), if_neg (by simp), if_neg (by omega)] at hnew
  cases hsu : trainSetup f0 samples expected with
  | error e =>
      exfalso
      cases hnew
      simp only [trainSetup] at hsu
      rw [trueCount_eval _ (by simpa using hfs1) (by simpa using by omega :
          ((samples.length : Int) - fs + 1) + fs - 1 ≤ (expected.length : Int))] at hsu
      rw [exceptBind_ok] at hsu
      simp only at hsu
      rw [show (List.range (Int.toNat 1) : List Nat) = [0] from rfl, List.foldlM_cons] at hsu
      simp only at hsu
      rw [if_neg (by omega : ¬ ((samples.length : Int) - fs + 1 < 0))] at hsu
      simp only [List.foldlM_nil, bind_pure] at hsu
      rw [show (#[] : Array Node).size = 0 from rfl] at hsu
      exact precalc_ne (inv_preRoot fs minM samples expected _ _ hfs1 hfslen hlen)
        (by simp [preRootState]) hsu
  | ok f1 =>
      cases hnew
      simp only [trainSetup] at hsu
      rw [trueCount_eval _ (by simpa using hfs1) (by simpa using by omega :
          ((samples.length : Int) - fs + 1) + fs - 1 ≤ (expected.length : Int))] at hsu
      rw [exceptBind_ok] at hsu
      simp only at hsu
      rw [show (List.range (Int.toNat 1) : List Nat) = [0] from rfl, List.foldlM_cons] at hsu
      simp only at hsu
      rw [if_neg (by omega : ¬ ((samples.length : Int) - fs + 1 < 0))] at hsu
      simp only [List.foldlM_nil, bind_pure] at hsu
      rw [show (#[] : Array Node).size = 0 from rfl] at hsu
      obtain ⟨hinv1, hstat1, hmk1, hq1, _⟩ := precalc_inv
        (inv_preRoot fs minM samples expected _ _ hfs1 hfslen hlen) (by simp [preRootState])
        (by
          show 0 ≤ (if decide (endLabelTrueCount expected fs ((samples.length : Int) - fs + 1)
            > ((samples.length : Int) - fs + 1)
                - endLabelTrueCount expected fs ((samples.length : Int) - fs + 1)) = true
            then ((samples.length : Int) - fs + 1)
                - endLabelTrueCount expected fs ((samples.length : Int) - fs + 1)
            else endLabelTrueCount expected fs ((samples.length : Int) - fs + 1))
          have hb := endLabel_bounds expected fs ((samples.length : Int) - fs + 1)
          have hF0 : (0 : Int) ≤ (samples.length : Int) - fs + 1 := by omega
          split
          · omega
          · omega) hsu
      obtain ⟨hmis0, hmis1⟩ := hmk1
      refine ⟨f1, rfl, hinv1, ?_, hstat1.1, hstat1.2.2.2.2.2.1, hstat1.2.2.2.2.2.2.1,
        hstat1.2.2.2.2.2.2.2, hstat1.2.2.2.2.1, hstat1.2.2.1,
        hinv1.arenaPos, ?_⟩
      · rw [hq1]
        rfl
      · rw [hmis1 0 (by simp [preRootState])]
        show (if decide (endLabelTrueCount expected fs ((samples.length : Int) - fs + 1)
            > ((samples.length : Int) - fs + 1)
                - endLabelTrueCount expected fs ((samples.length : Int) - fs + 1)) = true
            then ((samples.length : Int) - fs + 1)
                - endLabelTrueCount expected fs ((samples.length : Int) - fs + 1)
            else endLabelTrueCount expected fs ((samples.length : Int) - fs + 1)) = _
        split
        next hgt =>
            rw [decide_eq_true_eq] at hgt
            omega
        next hgt =>
            rw [decide_eq_true_eq] at hgt
            omega

/-- A whole well-formed training run never panics, for any loop fuel, and
the resulting state satisfies the invariant with its root count pinned. -/
theorem trainRun_wf (fs minM : Int) (samples expected : List Int) (fuel : Nat)
    (hfs : 1 ≤ fs) (hfslen : fs ≤ (samples.length : Int) + 1)
    (hlen : samples.length ≤ expected.length) :
    ∃ res, trainRun fs 1 minM samples expected fuel = .ok res ∧
      Inv (resForest res) ∧
      (resForest res).frameSize = fs ∧
      (resForest res).roots = #[0] ∧
      (resForest res).trainFrameCount = (samples.length : Int) - fs + 1 ∧
      (resForest res).trainSamples = samples ∧
      (resForest res).trainExpected = expected ∧
      0 < (resForest res).arena.size ∧
      (getN (resForest res) 0).misclassified
        = min (endLabelTrueCount expected fs ((samples.length : Int) - fs + 1))
            (((samples.length : Int) - fs + 1)
              - endLabelTrueCount expected fs ((samples.length : Int) - fs + 1)) := by
  cases hnf : NewForest fs 1 minM with
  | error e =>
      exfalso
      unfold NewForest at hnf
      rw [if_neg (by norm_num), if_neg (by simp), if_neg (by omega)] at hnf
      cases hnf
  | ok f0 =>
      obtain ⟨f1, hsu, hinv1, hq1, hfs1, hF1, hS1, hE1, hR1, hm1, hsz1, hmis1⟩ :=
        trainSetup_wf fs minM samples expected hnf hfs hfslen hlen
      have e1 : trainRun fs 1 minM samples expected fuel = trainLoop f1 fuel := by
        unfold trainRun Train
        rw [hnf, exceptBind_ok]
        show (do
          let f ← trainSetup f0 samples expected
          let f ← heapInitF f
          trainLoop f fuel : Except String LoopRes) = _
        rw [hsu, exceptBind_ok]
        show (do
          let f ← heapInitF f1
          trainLoop f fuel : Except String LoopRes) = _
        rw [heapInitF_single (show f1.leafQueue.size = 1 from by rw [hq1]; rfl),
          exceptBind_ok]
      obtain ⟨res, hloop, hinvR, hstatR, hmkR⟩ := trainLoop_inv fuel hinv1
      rw [e1]
      refine ⟨res, hloop, hinvR, ?_, ?_, ?_, ?_, ?_, ?_, ?_⟩
      · rw [hstatR.1, hfs1]
      · rw [hstatR.2.2.2.2.1, hR1]
      · rw [hstatR.2.2.2.2.2.1, hF1]
      · rw [hstatR.2.2.2.2.2.2.1, hS1]
      · rw [hstatR.2.2.2.2.2.2.2, hE1]
      · have := hmkR.1
        omega
      · rw [hmkR.2 0 hsz1, hmis1]

/-! ## Tree folds over an invariant arena -/

/-- On an invariant state the leaf-frame multiset of any subtree is the
subtree root's own input multiset (children partition their parent). -/
theorem leafFrames_eq {f : Forest} (hinv : Inv f) :
    ∀ (fuel : Nat) (id : Nat), id < f.arena.size → f.arena.size - id ≤ fuel →
      leafFramesA f.arena fuel id = ((getN f id).inputs : Multiset Int) := by
  intro fuel
  induction fuel with
  | zero => intro id hid hfu; omega
  | succ fuel ih =>
      intro id hid hfu
      simp only [leafFramesA]
      by_cases hleaf : (f.arena.getD id default).isLeaf = true
      · rw [if_pos hleaf]
        rfl
      · rw [if_neg hleaf]
        obtain ⟨_, _, h3⟩ := hinv.nodesOk id hid
        rcases h3 with hnc | ⟨l, h, hl, hh, hil, hls, hih, hhs, _, _, hmseq⟩
        · exact absurd hnc.2.2.2 hleaf
        · have hgl : (f.arena.getD id default).branchData.lowerChild.getD 0 = l := by
            show (getN f id).branchData.lowerChild.getD 0 = l
            rw [hl]
            rfl
          have hgh : (f.arena.getD id default).branchData.highEqChild.getD 0 = h := by
            show (getN f id).branchData.highEqChild.getD 0 = h
            rw [hh]
            rfl
          rw [hgl, hgh, ih l hls (by omega), ih h hhs (by omega)]
          exact hmseq

/-- On an invariant state the total leaf error of any subtree never
exceeds the stored count of the subtree root. -/
theorem totalErrorsA_le {f : Forest} (hinv : Inv f) :
    ∀ (fuel : Nat) (id : Nat), id < f.arena.size → f.arena.size - id ≤ fuel →
      totalErrorsA f.arena fuel id ≤ (getN f id).misclassified := by
  intro fuel
  induction fuel with
  | zero => intro id hid hfu; omega
  | succ fuel ih =>
      intro id hid hfu
      simp only [totalErrorsA]
      by_cases hleaf : (f.arena.getD id default).isLeaf = true
      · rw [if_pos hleaf]
        exact le_refl _
      · rw [if_neg hleaf]
        obtain ⟨_, _, h3⟩ := hinv.nodesOk id hid
        rcases h3 with hnc | ⟨l, h, hl, hh, hil, hls, hih, hhs, hm0, hsum, _⟩
        · exact absurd hnc.2.2.2 hleaf
        · have hgl : (f.arena.getD id default).branchData.lowerChild.getD 0 = l := by
            show (getN f id).branchData.lowerChild.getD 0 = l
            rw [hl]
            rfl
          have hgh : (f.arena.getD id default).branchData.highEqChild.getD 0 = h := by
            show (getN f id).branchData.highEqChild.getD 0 = h
            rw [hh]
            rfl
          rw [hgl, hgh]
          have h1 := ih l hls (by omega)
          have h2 := ih h hhs (by omega)
          have h3 := goTrunc99_le hm0
          omega

/-- The two fresh children of any successful presplit carry input
multisets summing to the parent's previous inputs. -/
theorem presplit_children_ms {f : Forest} {nid : Nat} {sp : SplitDetails} {f' : Forest}
    (hnid : nid < f.arena.size) (h : presplitOn f nid sp = .ok f') :
    ((getN f' f.arena.size).inputs : Multiset Int)
      + ((getN f' (f.arena.size + 1)).inputs : Multiset Int)
      = ((getN f nid).inputs : Multiset Int) := by
  obtain ⟨inputs, sl, hms, hlen, hshape⟩ := presplitOn_ok_shape h
  subst hshape
  have hget_low : getN (setN { f with arena := splitArena f nid sp inputs sl } nid
      (splitParent f nid sp inputs)) f.arena.size
      = Node.mk (some nid) (inputs.take sl) sp.trueBelow sp.missesBelow
          (BranchNode.mk (-1) (-1) none none) true (getN f nid).originalRoot := by
    rw [getN_setN_ne (by omega)]
    show (splitArena f nid sp inputs sl).getD f.arena.size default = _
    unfold splitArena
    rw [arrGetD_push_lt _ _ _ _ (by simp), arrGetD_push_eq]
  have hget_high : getN (setN { f with arena := splitArena f nid sp inputs sl } nid
      (splitParent f nid sp inputs)) (f.arena.size + 1)
      = Node.mk (some nid) (inputs.drop sl) (!sp.trueBelow) sp.missesAbove
          (BranchNode.mk (-1) (-1) none none) true (getN f nid).originalRoot := by
    rw [getN_setN_ne (by omega)]
    show (splitArena f nid sp inputs sl).getD (f.arena.size + 1) default = _
    unfold splitArena
    have hkey := arrGetD_push_eq (f.arena.push (Node.mk (some nid) (inputs.take sl)
        sp.trueBelow sp.missesBelow (BranchNode.mk (-1) (-1) none none) true
        (getN f nid).originalRoot))
      (Node.mk (some nid) (inputs.drop sl) (!sp.trueBelow) sp.missesAbove
        (BranchNode.mk (-1) (-1) none none) true (getN f nid).originalRoot)
      (default : Node)
    simp only [Array.size_push] at hkey
    exact hkey
  rw [hget_low, hget_high]
  show ((inputs.take sl : List Int) : Multiset Int)
      + ((inputs.drop sl : List Int) : Multiset Int) = _
  rw [Multiset.coe_add, List.take_append_drop]
  exact hms

/-! ## C5: splits partition the frames, leaves partition the root -/

/-- C5: every split hands the parent frames to its two children without
loss or duplication (multiset equality), and consequently during a
well-formed training run, after any number of loop iterations, the union
of the leaf input arrays under the root is exactly the full frame set
[0, frameCount) with the leaf arrays pairwise disjoint (the union is the
duplicate-free multiset of all frame indices). -/
theorem claim_C5 (fs minM : Int) (samples expected : List Int) (fuel : Nat)
    (hfs : 1 ≤ fs) (hfslen : fs ≤ (samples.length : Int) + 1)
    (hlen : samples.length ≤ expected.length) :
    (∀ (f : Forest) (nid : Nat) (sp : SplitDetails) (f' : Forest), nid < f.arena.size →
      presplitOn f nid sp = .ok f' →
      ((getN f' f.arena.size).inputs : Multiset Int)
        + ((getN f' (f.arena.size + 1)).inputs : Multiset Int)
        = ((getN f nid).inputs : Multiset Int)) ∧
    ∃ res, trainRun fs 1 minM samples expected fuel = .ok res ∧
      leafFramesA (resForest res).arena (resForest res).arena.size 0
        = ((rootInputs ((samples.length : Int) - fs + 1) : List Int) : Multiset Int) ∧
      ((rootInputs ((samples.length : Int) - fs + 1) : List Int) : Multiset Int).Nodup := by
  refine ⟨fun f nid sp f' hnid h => presplit_children_ms hnid h, ?_⟩
  obtain ⟨res, hrun, hinv, _, _, hF, _, _, hsz, _⟩ :=
    trainRun_wf fs minM samples expected fuel hfs hfslen hlen
  refine ⟨res, hrun, ?_, ?_⟩
  · rw [leafFrames_eq hinv (resForest res).arena.size 0 hsz (by omega)]
    rw [hinv.rootMs, hF]
  · refine Multiset.coe_nodup.mpr ?_
    unfold rootInputs
    exact List.Nodup.map (fun a b hab => Int.ofNat.inj hab) (List.nodup_range _)

theorem claim_C5_wit :
    (∀ (f : Forest) (nid : Nat) (sp : SplitDetails) (f' : Forest), nid < f.arena.size →
      presplitOn f nid sp = .ok f' →
      ((getN f' f.arena.size).inputs : Multiset Int)
        + ((getN f' (f.arena.size + 1)).inputs : Multiset Int)
        = ((getN f nid).inputs : Multiset Int)) ∧
    ∃ res, trainRun 2 1 0 [10, 15, 11, 12, 8, 3, 7] [0, 1, 0, 1, 0, 0, 1] 10 = .ok res ∧
      leafFramesA (resForest res).arena (resForest res).arena.size 0
        = ((rootInputs (((7 : Nat) : Int) - 2 + 1) : List Int) : Multiset Int) ∧
      ((rootInputs (((7 : Nat) : Int) - 2 + 1) : List Int) : Multiset Int).Nodup :=
  claim_C5 2 0 [10, 15, 11, 12, 8, 3, 7] [0, 1, 0, 1, 0, 0, 1] 10
    (by decide) (by decide) (by decide)

/-! ## C7: children never exceed the parent; the average error never
exceeds the initial root error -/

/-- C7: in the state reached after any number of iterations of a
well-formed run, every node that was split (every non-leaf) has children
whose stored misclassified counts sum to at most the node's own stored
count, and the average error of the completed forest is at most the
initial majority-complement count of the root. -/
theorem claim_C7 (fs minM : Int) (samples expected : List Int) (fuel : Nat)
    (hfs : 1 ≤ fs) (hfslen : fs ≤ (samples.length : Int) + 1)
    (hlen : samples.length ≤ expected.length) :
    ∃ res, trainRun fs 1 minM samples expected fuel = .ok res ∧
      (∀ id, id < (resForest res).arena.size →
        (getN (resForest res) id).isLeaf = false →
        (getN (resForest res)
            ((getN (resForest res) id).branchData.lowerChild.getD 0)).misclassified
          + (getN (resForest res)
              ((getN (resForest res) id).branchData.highEqChild.getD 0)).misclassified
          ≤ (getN (resForest res) id).misclassified) ∧
      AverageErrors (resForest res)
        ≤ ((min (endLabelTrueCount expected fs ((samples.length : Int) - fs + 1))
            (((samples.length : Int) - fs + 1)
              - endLabelTrueCount expected fs ((samples.length : Int) - fs + 1)) : Int) : ℚ) := by
  obtain ⟨res, hrun, hinv, _, hroots, _, _, _, hsz, hmis⟩ :=
    trainRun_wf fs minM samples expected fuel hfs hfslen hlen
  refine ⟨res, hrun, ?_, ?_⟩
  · intro id hid hleaf
    obtain ⟨_, _, h3⟩ := hinv.nodesOk id hid
    rcases h3 with hnc | ⟨l, h, hl, hh, hil, hls, hih, hhs, hm0, hsum, _⟩
    · rw [hnc.2.2.2] at hleaf
      cases hleaf
    · rw [hl, hh]
      have h3 := goTrunc99_le hm0
      show (getN (resForest res) l).misclassified
          + (getN (resForest res) h).misclassified ≤ _
      omega
  · unfold AverageErrors
    rw [hroots]
    have hfold : ((#[0] : Array Nat).foldl
        (fun acc r => acc + totalErrors (resForest res) r) 0 : Int)
        = 0 + totalErrors (resForest res) 0 := rfl
    rw [hfold]
    have hle : totalErrors (resForest res) 0
        ≤ min (endLabelTrueCount expected fs ((samples.length : Int) - fs + 1))
            (((samples.length : Int) - fs + 1)
              - endLabelTrueCount expected fs ((samples.length : Int) - fs + 1)) := by
      rw [← hmis]
      exact totalErrorsA_le hinv (resForest res).arena.size 0 hsz (by omega)
    have hsize : ((#[0] : Array Nat).size : ℚ) = 1 := by
      rfl
    rw [hsize, div_one]
    exact Int.cast_le.mpr (by omega)

theorem claim_C7_wit :
    ∃ res, trainRun 2 1 0 [10, 15, 11, 12, 8, 3, 7] [0, 1, 0, 1, 0, 0, 1] 10 = .ok res ∧
      (∀ id, id < (resForest res).arena.size →
        (getN (resForest res) id).isLeaf = false →
        (getN (resForest res)
            ((getN (resForest res) id).branchData.lowerChild.getD 0)).misclassified
          + (getN (resForest res)
              ((getN (resForest res) id).branchData.highEqChild.getD 0)).misclassified
          ≤ (getN (resForest res) id).misclassified) ∧
      AverageErrors (resForest res)
        ≤ ((min (endLabelTrueCount [0, 1, 0, 1, 0, 0, 1] 2 (((7 : Nat) : Int) - 2 + 1))
            ((((7 : Nat) : Int) - 2 + 1)
              - endLabelTrueCount [0, 1, 0, 1, 0, 0, 1] 2 (((7 : Nat) : Int) - 2 + 1)) : Int) : ℚ) :=
  claim_C7 2 0 [10, 15, 11, 12, 8, 3, 7] [0, 1, 0, 1, 0, 0, 1] 10
    (by decide) (by decide) (by decide)

/-! ## C10: the queue comparator never dereferences a missing child -/

/-- C10: the queue comparator succeeds whenever both compared slots hold
nodes with both children allocated, and in the state reached after any
number of iterations of a well-formed run every queued id has both
children - except possibly while the queue holds at most one element, on
which heap operations perform no comparison; consequently the whole run
never fails (in particular it never hits the nil-child dereference). -/
theorem claim_C10 (fs minM : Int) (samples expected : List Int) (fuel : Nat)
    (hfs : 1 ≤ fs) (hfslen : fs ≤ (samples.length : Int) + 1)
    (hlen : samples.length ≤ expected.length) :
    (∀ (f : Forest) (q : Array Nat) (i j : Nat),
      HasKids f (q.getD i 0) → HasKids f (q.getD j 0) →
        ∃ b, queueLess f q i j = .ok b) ∧
    ∃ res, trainRun fs 1 minM samples expected fuel = .ok res ∧
      ((∀ id ∈ (resForest res).leafQueue.toList, HasKids (resForest res) id)
        ∨ (resForest res).leafQueue.size ≤ 1) := by
  refine ⟨fun f q i j hi hj => queueLess_ok hi hj, ?_⟩
  obtain ⟨res, hrun, hinv, _⟩ := trainRun_wf fs minM samples expected fuel hfs hfslen hlen
  exact ⟨res, hrun, hinv.queueKids⟩

theorem claim_C10_wit :
    (∀ (f : Forest) (q : Array Nat) (i j : Nat),
      HasKids f (q.getD i 0) → HasKids f (q.getD j 0) →
        ∃ b, queueLess f q i j = .ok b) ∧
    ∃ res, trainRun 2 1 0 [10, 15, 11, 12, 8, 3, 7] [0, 1, 0, 1, 0, 0, 1] 10 = .ok res ∧
      ((∀ id ∈ (resForest res).leafQueue.toList, HasKids (resForest res) id)
        ∨ (resForest res).leafQueue.size ≤ 1) :=
  claim_C10 2 0 [10, 15, 11, 12, 8, 3, 7] [0, 1, 0, 1, 0, 0, 1] 10
    (by decide) (by decide) (by decide)

/-! ## C8 amended: the panics that actually occur -/

/-- Success of the true-label count forces every end-aligned label read of
the listed frames to be in range. -/
theorem trueCountFold_ok_forall (expected : List Int) (fs : Int) :
    ∀ (l : List Nat) (acc : Int) (r : Int),
      l.foldlM (fun acc i => do
          let lab ← goGet expected ((i : Int) + fs - 1)
          pure (if lab == 1 then acc + 1 else acc)) acc = .ok r →
      ∀ i ∈ l, ∃ lab, goGet expected ((i : Int) + fs - 1) = .ok lab := by
  intro l
  induction l with
  | nil => intro acc r _ i hi; cases hi
  | cons x t ih =>
      intro acc r h i hi
      rw [List.foldlM_cons] at h
      cases hg : goGet expected ((x : Int) + fs - 1) with
      | error e =>
          rw [hg] at h
          cases h
      | ok lab =>
          rw [hg, exceptBind_ok, exceptPure_bind] at h
          rcases List.mem_cons.mp hi with hix | hit
          · subst hix
            exact ⟨lab, hg⟩
          · exact ih _ r h i hit

/-- C8 corrected: the failures of Train are exactly these - a tree count
other than one is rejected by the constructor; a non-positive frame size
makes the constructor's feature allocation panic; a frame size exceeding
len(samples)+1 makes the per-tree frame allocation panic; labels shorter
than the samples panic on an end-aligned label read whenever the frame
count is positive.  Conversely, any tree count one, frame size between 1
and len(samples)+1 and labels at least as long as the samples complete
without a panic for every loop fuel - in particular a frame size of
len(samples)+1 (empty frame set) and labels strictly longer than the
samples are accepted, against the claim's stated precondition. -/
theorem claim_C8 (fs tc2 minM : Int) (samples expected : List Int) (fuel : Nat) :
    (tc2 ≠ 1 → ∃ e, trainRun fs tc2 minM samples expected fuel = .error e) ∧
    (fs ≤ 0 → trainRun fs 1 minM samples expected fuel = .error makesliceMsg) ∧
    (1 ≤ fs → (samples.length : Int) + 1 < fs →
      ∃ e, trainRun fs 1 minM samples expected fuel = .error e) ∧
    (1 ≤ fs → fs ≤ (samples.length : Int) → expected.length < samples.length →
      ∃ e, trainRun fs 1 minM samples expected fuel = .error e) ∧
    (1 ≤ fs → fs ≤ (samples.length : Int) + 1 → samples.length ≤ expected.length →
      ∃ res, trainRun fs 1 minM samples expected fuel = .ok res) := by
  refine ⟨?_, ?_, ?_, ?_, ?_⟩
  · intro htc
    by_cases hneg : tc2 < 0
    · refine ⟨makesliceMsg, ?_⟩
      have hnf : NewForest fs tc2 minM = .error makesliceMsg := by
        unfold NewForest
        rw [if_pos hneg]
      unfold trainRun
      rw [hnf, exceptBind_err]
    · refine ⟨"Forest currently only supports single tree", ?_⟩
      have hnf : NewForest fs tc2 minM
          = .error "Forest currently only supports single tree" := by
        unfold NewForest
        rw [if_neg hneg, if_pos htc]
      unfold trainRun
      rw [hnf, exceptBind_err]
  · intro hfs
    have hnf : NewForest fs 1 minM = .error makesliceMsg := by
      unfold NewForest
      rw [if_neg (by norm_num), if_neg (by simp), if_pos (by omega)]
    unfold trainRun
    rw [hnf, exceptBind_err]
  · intro hfs hbig
    cases hres : trainRun fs 1 minM samples expected fuel with
    | error e => exact ⟨e, rfl⟩
    | ok res =>
        exfalso
        have hnf : NewForest fs 1 minM = .ok (newForestState fs minM) := by
          unfold NewForest newForestState
          rw [if_neg (by norm_num), if_neg (by simp), if_neg (by omega)]
        unfold trainRun Train at hres
        rw [hnf, exceptBind_ok] at hres
        simp only [trainSetup, newForestState] at hres
        obtain ⟨f1, hsu, hres2⟩ := exceptBind_ok_inv hres
        obtain ⟨tc0, htc, hsu2⟩ := exceptBind_ok_inv hsu
        rw [show (List.range (Int.toNat 1) : List Nat) = [0] from rfl,
          List.foldlM_cons] at hsu2
        simp only [] at hsu2
        rw [if_pos (by omega : (samples.length : Int) - fs + 1 < 0)] at hsu2
        rw [exceptBind_err] at hsu2
        cases hsu2
  · intro hfs hfsle hshort
    cases hres : trainRun fs 1 minM samples expected fuel with
    | error e => exact ⟨e, rfl⟩
    | ok res =>
        exfalso
        have hnf : NewForest fs 1 minM = .ok (newForestState fs minM) := by
          unfold NewForest newForestState
          rw [if_neg (by norm_num), if_neg (by simp), if_neg (by omega)]
        unfold trainRun Train at hres
        rw [hnf, exceptBind_ok] at hres
        simp only [trainSetup, newForestState] at hres
        obtain ⟨f1, hsu, hres2⟩ := exceptBind_ok_inv hres
        obtain ⟨tc0, htc, hsu2⟩ := exceptBind_ok_inv hsu
        simp only [trueCount] at htc
        -- the count loop read the label of the last frame, which is out
        -- of range when the labels are shorter than the samples
        have hread := trueCountFold_ok_forall expected fs _ _ _ htc
          (((samples.length : Int) - fs + 1).toNat - 1)
          (by
            rw [List.mem_range]
            omega)
        obtain ⟨lab, hlab⟩ := hread
        rw [goGet_ok_iff] at hlab
        have hsome := hlab.2
        rw [List.get?_eq_some] at hsome
        obtain ⟨hlt, _⟩ := hsome
        omega
  · intro hfs hfsle hlong
    obtain ⟨res, hrun, _⟩ := trainRun_wf fs minM samples expected fuel hfs hfsle hlong
    exact ⟨res, hrun⟩

theorem claim_C8_wit :
    (∃ e, trainRun 2 2 0 [1, 2, 3] [0, 1, 1] 5 = .error e) ∧
    trainRun 0 1 0 [1, 2, 3] [0, 1, 1] 5 = .error makesliceMsg ∧
    (∃ e, trainRun 5 1 0 [1, 2, 3] [0, 1, 1] 5 = .error e) ∧
    (∃ e, trainRun 2 1 0 [1, 2, 3] [0, 1] 5 = .error e) ∧
    (∃ res, trainRun 4 1 0 [1, 2, 3] [0, 1, 1, 0] 5 = .ok res) :=
  ⟨(claim_C8 2 2 0 [1, 2, 3] [0, 1, 1] 5).1 (by decide),
   (claim_C8 0 1 0 [1, 2, 3] [0, 1, 1] 5).2.1 (by decide),
   (claim_C8 5 1 0 [1, 2, 3] [0, 1, 1] 5).2.2.1 (by decide) (by decide),
   (claim_C8 2 1 0 [1, 2, 3] [0, 1] 5).2.2.2.1 (by decide) (by decide) (by decide),
   (claim_C8 4 1 0 [1, 2, 3] [0, 1, 1, 0] 5).2.2.2.2 (by decide) (by decide) (by decide)⟩

/-! ## C9: the growth loop terminates.  The per-split facts below feed a
strictly decreasing measure: every pushed child either has a strictly
smaller input list, or the same list with classification false where the
parent was classified true, or the same list and classification false on
both with a strictly smaller stored count. -/

theorem goTrunc99_lt {m : Int} (hm : 1 ≤ m) : goTrunc99 m < m := by
  unfold goTrunc99
  rw [if_pos (by omega)]
  omega

theorem goTrunc99_nonpos {m : Int} (hm : m ≤ 0) : goTrunc99 m ≤ 0 := by
  unfold goTrunc99
  by_cases h0 : (0 : Int) ≤ m
  · rw [if_pos h0]
    omega
  · rw [if_neg h0]
    omega

/-- Every element of a successful mapM output has a preimage. -/
theorem listMapM_mem {α β : Type _} (g : α → Except String β) :
    ∀ {l : List α} {out : List β}, l.mapM g = .ok out →
      ∀ b ∈ out, ∃ a ∈ l, g a = .ok b := by
  intro l
  induction l with
  | nil =>
      intro out h b hb
      cases h
      cases hb
  | cons x t ih =>
      intro out h b hb
      rw [List.mapM_cons] at h
      cases hx : g x with
      | error e => rw [hx, exceptBind_err] at h; cases h
      | ok y =>
          rw [hx, exceptBind_ok] at h
          cases ht : t.mapM g with
          | error e => rw [ht, exceptBind_err] at h; cases h
          | ok ys =>
              rw [ht, exceptBind_ok] at h
              cases h
              rcases List.mem_cons.mp hb with hby | hbys
              · exact ⟨x, by simp, by rw [hx, hby]⟩
              · obtain ⟨a, ha, hga⟩ := ih ht b hbys
                exact ⟨a, by simp [ha], hga⟩

/-- Every pair the score mapM of splitReduction produces scores its frame
to its recorded value. -/
theorem pairsMapM_score {f : Forest} {feature : Int} {l : List Int}
    {ps : List (Int × Int)}
    (h : l.mapM (fun frame => do
        let v ← scoreForFrameAndFeature f frame feature
        pure (v, frame)) = .ok ps) :
    ∀ p ∈ ps, p.2 ∈ l ∧ scoreForFrameAndFeature f p.2 feature = .ok p.1 := by
  intro p hp
  obtain ⟨fr, hfr, hg⟩ := listMapM_mem _ h p hp
  cases hsc : scoreForFrameAndFeature f fr feature with
  | error e =>
      rw [show (do
          let v ← scoreForFrameAndFeature f fr feature
          pure (v, fr) : Except String (Int × Int))
        = (scoreForFrameAndFeature f fr feature >>= fun v => pure (v, fr)) from rfl,
        hsc, exceptBind_err] at hg
      cases hg
  | ok v =>
      rw [show (do
          let v ← scoreForFrameAndFeature f fr feature
          pure (v, fr) : Except String (Int × Int))
        = (scoreForFrameAndFeature f fr feature >>= fun v => pure (v, fr)) from rfl,
        hsc, exceptBind_ok] at hg
      cases hg
      exact ⟨hfr, hsc⟩

/-- The enriched sweep analysis: any result is the incoming best or a
candidate recorded at some processed position, whose value is one of the
listed scores and whose stored counts are the running counts there. -/
theorem sweep_R2 {f : Forest} {feature A B L : Int} :
    ∀ (l : List (Int × Int)) (c : SweepCounts) (best res : SplitDetails)
      (t u : Int),
      0 ≤ t → 0 ≤ u → t + u + (l.length : Int) ≤ L →
      c.trueBelow = t → c.trueAbove = A - t →
      c.falseBelow = u → c.falseAbove = B - u →
      sweep f feature l c best = .ok res →
      res = best ∨
        ((∃ p ∈ l, res.splitValue = p.1) ∧ res.splitFeature = feature ∧
         res.misses = res.missesBelow + res.missesAbove ∧
         ∃ t' u' : Int, 0 ≤ t' ∧ 0 ≤ u' ∧ t' + u' ≤ L - 1 ∧
           ((res.trueBelow = true ∧ res.missesBelow = u' ∧ res.missesAbove = A - t') ∨
            (res.trueBelow = false ∧ res.missesBelow = t' ∧ res.missesAbove = B - u'))) := by
  intro l
  induction l with
  | nil =>
      intro c best res t u _ _ _ _ _ _ _ h
      cases h
      exact Or.inl rfl
  | cons p rest ih =>
      intro c best res t u ht hu hlen hc1 hc2 hc3 hc4 h
      obtain ⟨thisSplit, frame⟩ := p
      unfold sweep at h
      cases hlab : goGet f.trainExpected (frame + f.frameSize - 1) with
      | error e => rw [hlab, exceptBind_err] at h; cases h
      | ok lab =>
          rw [hlab, exceptBind_ok] at h
          have hlen2 : (t + u) + (rest.length : Int) ≤ L - 1 := by
            simp only [List.length_cons] at hlen
            push_cast at hlen ⊢
            omega
          -- the evolved counts
          by_cases hl1 : (lab == 1) = true
          · rw [if_pos hl1] at h
            have hrec := ih _ _ res (t + 1) u (by omega) hu
              (by omega)
              (by simp only []; omega)
              (by simp only []; omega)
              (by simp only []; omega)
              (by simp only []; omega) h
            rcases hrec with hres | ⟨⟨q, hq, hqv⟩, hfeat, hmm, t', u', ht', hu', hb, hvar⟩
            · -- the tail returned the stepped best: the recorded candidate, or best
              rw [hres]
              split
              next hcmp =>
                  split
                  next hlt2 =>
                      refine Or.inr ⟨⟨(thisSplit, frame), by simp, rfl⟩, rfl,
                        rfl,
                        t, u, ht, hu, by omega, Or.inl ⟨rfl, by simp only [hc3],
                          by simp only [hc2]⟩⟩
                  next => exact Or.inl rfl
              next hcmp =>
                  split
                  next hlt2 =>
                      refine Or.inr ⟨⟨(thisSplit, frame), by simp, rfl⟩, rfl,
                        rfl,
                        t, u, ht, hu, by omega, Or.inr ⟨rfl, by simp only [hc1],
                          by simp only [hc4]⟩⟩
                  next => exact Or.inl rfl
            · exact Or.inr ⟨⟨q, by simp [hq], hqv⟩, hfeat, hmm,
                t', u', ht', hu', by omega, hvar⟩
          · rw [if_neg hl1] at h
            have hrec := ih _ _ res t (u + 1) ht (by omega)
              (by omega)
              (by simp only []; omega)
              (by simp only []; omega)
              (by simp only []; omega)
              (by simp only []; omega) h
            rcases hrec with hres | ⟨⟨q, hq, hqv⟩, hfeat, hmm, t', u', ht', hu', hb, hvar⟩
            · rw [hres]
              split
              next hcmp =>
                  split
                  next hlt2 =>
                      refine Or.inr ⟨⟨(thisSplit, frame), by simp, rfl⟩, rfl,
                        rfl,
                        t, u, ht, hu, by omega, Or.inl ⟨rfl, by simp only [hc3],
                          by simp only [hc2]⟩⟩
                  next => exact Or.inl rfl
              next hcmp =>
                  split
                  next hlt2 =>
                      refine Or.inr ⟨⟨(thisSplit, frame), by simp, rfl⟩, rfl,
                        rfl,
                        t, u, ht, hu, by omega, Or.inr ⟨rfl, by simp only [hc1],
                          by simp only [hc4]⟩⟩
                  next => exact Or.inl rfl
            · exact Or.inr ⟨⟨q, by simp [hq], hqv⟩, hfeat, hmm,
                t', u', ht', hu', by omega, hvar⟩

/-- Any splitReduction result is the sentinel or a recorded candidate
carrying the CandAt facts. -/
theorem splitReduction_R2 {f : Forest} {n : Node} {feature : Int} {sd : SplitDetails}
    (h : splitReduction f n feature = .ok sd) :
    sd = ⟨-1, -1, false, n.misclassified, -1, -1⟩ ∨
      (sd.splitFeature = feature ∧ CandAt f n sd) := by
  simp only [splitReduction] at h
  cases hp : n.inputs.mapM (fun frame => do
      let v ← scoreForFrameAndFeature f frame feature
      pure (v, frame)) with
  | error e => rw [hp, exceptBind_err] at h; cases h
  | ok pairs =>
      rw [hp, exceptBind_ok] at h
      cases ht : (dsiiSort pairs).mapM (fun p => goGet f.trainExpected (p.2 + f.frameSize - 1)) with
      | error e => rw [ht, exceptBind_err] at h; cases h
      | ok tmp =>
          rw [ht, exceptBind_ok] at h
          have hlenp : pairs.length = n.inputs.length := by
            have h2 := congrArg List.length (pairsMapM hp)
            simpa using h2
          have hlens : (dsiiSort pairs).length = n.inputs.length := by
            rw [(dsiiSort_perm pairs).length_eq, hlenp]
          by_cases hcls : n.classifyAsTrue = true
          · rw [if_pos hcls] at h
            have hres := @sweep_R2 f feature ((n.inputs.length : Int) - n.misclassified)
              n.misclassified (n.inputs.length : Int) (dsiiSort pairs) _ _ sd 0 0
              (le_refl 0) (le_refl 0) (by rw [hlens]; omega) rfl (sub_zero _).symm rfl
              (sub_zero _).symm h
            rcases hres with hsent | ⟨⟨q, hq, hqv⟩, hfeat, hmm, t', u', ht', hu', hb, hvar⟩
            · exact Or.inl hsent
            · have hqp : q ∈ pairs := (dsiiSort_perm pairs).mem_iff.mp hq
              obtain ⟨hmem2, hscore⟩ := pairsMapM_score hp q hqp
              refine Or.inr ⟨hfeat, ⟨q.2, hmem2, by rw [hfeat, hqv]; exact hscore⟩,
                t', u', ht', hu', by omega, hmm, ?_⟩
              rcases hvar with ⟨hv1, hv2, hv3⟩ | ⟨hv1, hv2, hv3⟩
              · exact Or.inl ⟨hv1, hv2, by rw [if_pos hcls]; exact hv3⟩
              · exact Or.inr ⟨hv1, hv2, by rw [if_pos hcls]; exact hv3⟩
          · rw [if_neg hcls] at h
            have hres := @sweep_R2 f feature n.misclassified
              ((n.inputs.length : Int) - n.misclassified) (n.inputs.length : Int)
              (dsiiSort pairs) _ _ sd 0 0
              (le_refl 0) (le_refl 0) (by rw [hlens]; omega) rfl (sub_zero _).symm rfl
              (sub_zero _).symm h
            rcases hres with hsent | ⟨⟨q, hq, hqv⟩, hfeat, hmm, t', u', ht', hu', hb, hvar⟩
            · exact Or.inl hsent
            · have hqp : q ∈ pairs := (dsiiSort_perm pairs).mem_iff.mp hq
              obtain ⟨hmem2, hscore⟩ := pairsMapM_score hp q hqp
              refine Or.inr ⟨hfeat, ⟨q.2, hmem2, by rw [hfeat, hqv]; exact hscore⟩,
                t', u', ht', hu', by omega, hmm, ?_⟩
              rcases hvar with ⟨hv1, hv2, hv3⟩ | ⟨hv1, hv2, hv3⟩
              · exact Or.inl ⟨hv1, hv2, by rw [if_neg hcls]; exact hv3⟩
              · exact Or.inr ⟨hv1, hv2, by rw [if_neg hcls]; exact hv3⟩

/-- The enriched precalc analysis: on success the forest is unchanged, or
the presplit ran on an accepted candidate carrying the CandAt facts. -/
theorem precalc_rich2 {f f' : Forest} {nid : Nat}
    (h : precalcBestSplit f nid = .ok f') :
    f' = f ∨ ∃ (sp : SplitDetails) (aList : List Int),
      f.allowed.get? (getN f nid).originalRoot = some aList ∧
      sp.splitFeature ∈ aList ∧
      CandAt f (getN f nid) sp ∧
      sp.misses < goTrunc99 (getN f nid).misclassified ∧
      presplitOn f nid sp = .ok f' := by
  simp only [precalcBestSplit] at h
  split at h
  next => cases h
  next aList haList =>
      split at h
      next hz => cases h; exact Or.inl rfl
      next hz =>
          cases hfold : aList.foldlM (fun best splitFeature => do
              let nextSplit ← splitReduction f (getN f nid) splitFeature
              pure (if nextSplit.misses < best.misses then nextSplit else best))
            (⟨-1, -1, false, goTrunc99 (getN f nid).misclassified, -1, -1⟩ : SplitDetails) with
          | error e => rw [hfold, exceptBind_err] at h; cases h
          | ok best =>
              rw [hfold, exceptBind_ok] at h
              split at h
              next hbf =>
                  rcases precalcFold_cases aList _ best hfold with hres | ⟨feat, hmem, sd, hsr, hsd, hlt⟩
                  · rw [hres] at hbf
                    exact absurd rfl hbf
                  · subst hsd
                    rcases splitReduction_R2 hsr with hsent | ⟨hfeat, hcand⟩
                    · rw [hsent] at hbf
                      exact absurd rfl hbf
                    · exact Or.inr ⟨sd, aList, haList, by rw [hfeat]; exact hmem, hcand, hlt, h⟩
              next hbf => cases h; exact Or.inl rfl

theorem aswap_getD_other (a : Array Int) (i j p : Nat) (hp1 : p ≠ i) (hp2 : p ≠ j) :
    (aswap a i j).getD p 0 = a.getD p 0 := by
  unfold aswap
  rw [arrGetD_setD_ne _ _ _ _ _ hp2, arrGetD_setD_ne _ _ _ _ _ hp1]

/-- advanceLo with the block fact: every position it passed satisfies the
front predicate. -/
theorem advanceLo_blk {f : Forest} {feat v : Int} {tb : Bool} {a : Array Int}
    (hsc : scOK f feat a) :
    ∀ (k lo : Nat), lo + k ≤ a.size →
      ∃ lo', advanceLo f feat v tb a k lo = .ok lo' ∧ lo ≤ lo' ∧ lo' ≤ lo + k ∧
        (lo' < lo + k → frontP f feat v tb (a.getD lo' 0) = false) ∧
        (1 ≤ k → frontP f feat v tb (a.getD lo 0) = true → lo + 1 ≤ lo') ∧
        (∀ p, lo ≤ p → p < lo' → frontP f feat v tb (a.getD p 0) = true) := by
  intro k
  induction k with
  | zero =>
      intro lo h
      exact ⟨lo, rfl, le_refl _, by omega,
        fun hlt => absurd hlt (by omega), fun h1 => absurd h1 (by omega),
        fun p hp1 hp2 => absurd (lt_of_le_of_lt hp1 hp2) (by omega)⟩
  | succ k ih =>
      intro lo h
      have hmem : a.getD lo 0 ∈ a.toList := arrGetD_mem a 0 lo (by omega)
      rw [advanceLo_step (hsc _ hmem)]
      by_cases hst : (decide (pureScore f (a.getD lo 0) feat < v) != tb) = true
      · rw [if_pos hst]
        refine ⟨lo, rfl, le_refl _, by omega, fun _ => bool_bne_true hst, ?_,
          fun p hp1 hp2 => absurd (lt_of_le_of_lt hp1 hp2) (by omega)⟩
        intro _ hfp
        rw [show frontP f feat v tb (a.getD lo 0)
            = (decide (pureScore f (a.getD lo 0) feat < v) == tb) from rfl,
          bool_bne_true hst] at hfp
        cases hfp
      · rw [if_neg hst]
        have hfront : frontP f feat v tb (a.getD lo 0) = true := by
          rw [show frontP f feat v tb (a.getD lo 0)
              = (decide (pureScore f (a.getD lo 0) feat < v) == tb) from rfl]
          exact bool_bne_false (by simpa using hst)
        obtain ⟨lo', h1, h2, h3, h4, h5, h6⟩ := ih (lo+1) (by omega)
        refine ⟨lo', h1, by omega, by omega, fun hlt => h4 (by omega), fun _ _ => by omega, ?_⟩
        intro p hp1 hp2
        by_cases hpl : p = lo
        · rw [hpl]
          exact hfront
        · exact h6 p (by omega) hp2

/-- retreatHi with the block fact: every position it passed fails the
front predicate. -/
theorem retreatHi_blk {f : Forest} {feat v : Int} {tb : Bool} {a : Array Int}
    (hsc : scOK f feat a) :
    ∀ (k hi : Nat), hi < a.size →
      ∃ hi', retreatHi f feat v tb a k hi = .ok hi' ∧ hi - k ≤ hi' ∧ hi' ≤ hi ∧
        (hi - k < hi' → frontP f feat v tb (a.getD hi' 0) = true) ∧
        (∀ p, hi' < p → p ≤ hi → frontP f feat v tb (a.getD p 0) = false) := by
  intro k
  induction k with
  | zero =>
      intro hi h
      exact ⟨hi, rfl, by omega, le_refl _, fun hlt => absurd hlt (by omega),
        fun p hp1 hp2 => absurd (lt_of_lt_of_le hp1 hp2) (by omega)⟩
  | succ k ih =>
      intro hi h
      have hmem : a.getD hi 0 ∈ a.toList := arrGetD_mem a 0 hi h
      rw [retreatHi_step (hsc _ hmem)]
      by_cases hst : (decide (pureScore f (a.getD hi 0) feat < v) == tb) = true
      · rw [if_pos hst]
        exact ⟨hi, rfl, by omega, le_refl _, fun _ => hst,
          fun p hp1 hp2 => absurd (lt_of_lt_of_le hp1 hp2) (by omega)⟩
      · rw [if_neg hst]
        have hback : frontP f feat v tb (a.getD hi 0) = false := by
          rw [show frontP f feat v tb (a.getD hi 0)
              = (decide (pureScore f (a.getD hi 0) feat < v) == tb) from rfl]
          simpa using hst
        obtain ⟨hi', h1, h2, h3, h4, h5⟩ := ih (hi-1) (by omega)
        refine ⟨hi', h1, by omega, by omega, fun hlt => h4 (by omega), ?_⟩
        intro p hp1 hp2
        by_cases hph : p = hi
        · rw [hph]
          exact hback
        · exact h5 p hp1 (by omega)

/-- The trailing slice-point loop with the block facts: it stops at a
non-front element (or the end) having passed only front elements. -/
theorem finalLo_blk {f : Forest} {feat v : Int} {tb : Bool} {a : Array Int}
    (hsc : scOK f feat a) :
    ∀ (k lo : Nat), lo + k ≤ a.size →
      ∃ lo', finalLo f feat v tb a k lo = .ok lo' ∧ lo ≤ lo' ∧ lo' ≤ lo + k ∧
        (lo' < lo + k → frontP f feat v tb (a.getD lo' 0) = false) ∧
        (∀ p, lo ≤ p → p < lo' → frontP f feat v tb (a.getD p 0) = true) := by
  intro k
  induction k with
  | zero =>
      intro lo h
      exact ⟨lo, rfl, le_refl _, by omega, fun hlt => absurd hlt (by omega),
        fun p hp1 hp2 => absurd (lt_of_le_of_lt hp1 hp2) (by omega)⟩
  | succ k ih =>
      intro lo h
      have hmem : a.getD lo 0 ∈ a.toList := arrGetD_mem a 0 lo (by omega)
      rw [finalLo_step (hsc _ hmem)]
      by_cases hst : (decide (pureScore f (a.getD lo 0) feat < v) != tb) = true
      · rw [if_pos hst]
        exact ⟨lo, rfl, le_refl _, by omega, fun _ => bool_bne_true hst,
          fun p hp1 hp2 => absurd (lt_of_le_of_lt hp1 hp2) (by omega)⟩
      · rw [if_neg hst]
        have hfront : frontP f feat v tb (a.getD lo 0) = true := by
          rw [show frontP f feat v tb (a.getD lo 0)
              = (decide (pureScore f (a.getD lo 0) feat < v) == tb) from rfl]
          exact bool_bne_false (by simpa using hst)
        obtain ⟨lo', h1, h2, h3, h4, h5⟩ := ih (lo+1) (by omega)
        refine ⟨lo', h1, by omega, by omega, fun hlt => h4 (by omega), ?_⟩
        intro p hp1 hp2
        by_cases hpl : p = lo
        · rw [hpl]
          exact hfront
        · exact h5 p (by omega) hp2

/-- The outer partition loop with the block facts: on return the prefix
before the final pointer satisfies the front predicate and the suffix
after it fails it. -/
theorem partOuter_blk {f : Forest} {feat v : Int} {tb : Bool} :
    ∀ (g : Nat), ∀ (fuel : Nat) (a : Array Int) (lo hi : Nat),
      hi - lo ≤ g → 2 * g + 2 ≤ fuel → (hi < a.size ∨ hi = 0) → lo ≤ a.size →
      scOK f feat a →
      (∀ p, p < lo → frontP f feat v tb (a.getD p 0) = true) →
      (∀ p, hi < p → p < a.size → frontP f feat v tb (a.getD p 0) = false) →
      ∃ (a' : Array Int) (lo' : Nat), partOuter f feat v tb fuel a lo hi = .ok (a', lo') ∧
        a'.size = a.size ∧ lo' ≤ a.size ∧ scOK f feat a' ∧
        (∀ p, p < lo' → frontP f feat v tb (a'.getD p 0) = true) ∧
        (∀ p, lo' < p → p < a.size → frontP f feat v tb (a'.getD p 0) = false) := by
  intro g
  induction g using Nat.strong_induction_on with
  | _ g IH =>
  intro fuel a lo hi hg hfuel hhi hlo hsc hIlo hIhi
  cases fuel with
  | zero => omega
  | succ fuel1 =>
  by_cases hlt : lo < hi
  · have hsz : hi < a.size := by
      rcases hhi with hx | hx
      · exact hx
      · omega
    obtain ⟨lo1, hA, hA1, hA2, hAstop, hAprog, hApass⟩ := advanceLo_blk hsc (hi - lo) lo (by omega)
    obtain ⟨hi1, hR, hR1, hR2, hRstop, hRpass⟩ := retreatHi_blk hsc (hi - lo1) hi hsz
    have hlo1hi : lo1 ≤ hi := by omega
    have hlo1hi1 : lo1 ≤ hi1 := by omega
    have hIlo1 : ∀ p, p < lo1 → frontP f feat v tb (a.getD p 0) = true := by
      intro p hp
      by_cases hpl : p < lo
      · exact hIlo p hpl
      · exact hApass p (by omega) hp
    have hIhi1 : ∀ p, hi1 < p → p < a.size → frontP f feat v tb (a.getD p 0) = false := by
      intro p hp hps
      by_cases hph : hi < p
      · exact hIhi p hph hps
      · exact hRpass p hp (by omega)
    rw [partOuter_step hlt hA hR]
    by_cases hne : lo1 ≠ hi1
    · rw [if_pos hne]
      have hlh : lo1 < hi1 := by omega
      have hlo1sz : lo1 < a.size := by omega
      have hhi1sz : hi1 < a.size := by omega
      have hms2 := aswap_ms a lo1 hi1 hlo1sz hhi1sz hne
      have hsz2 : (aswap a lo1 hi1).size = a.size := aswap_size a lo1 hi1
      have hsc2 : scOK f feat (aswap a lo1 hi1) := scOK_of_ms hms2 hsc
      have hIlo2 : ∀ p, p < lo1 → frontP f feat v tb ((aswap a lo1 hi1).getD p 0) = true := by
        intro p hp
        rw [aswap_getD_other a lo1 hi1 p (by omega) (by omega)]
        exact hIlo1 p hp
      have hIhi2 : ∀ p, hi1 < p → p < a.size →
          frontP f feat v tb ((aswap a lo1 hi1).getD p 0) = false := by
        intro p hp hps
        rw [aswap_getD_other a lo1 hi1 p (by omega) (by omega)]
        exact hIhi1 p hp hps
      by_cases hshr : hi1 - lo1 < g
      · obtain ⟨a', lo', hrec, hs1, hs2, hs3, hs4, hs5⟩ := IH (hi1 - lo1) hshr fuel1
          (aswap a lo1 hi1) lo1 hi1 (le_refl _) (by omega)
          (Or.inl (by omega)) (by omega) hsc2 hIlo2
          (by
            intro p hp hps
            exact hIhi2 p hp (by rw [hsz2] at hps; exact hps))
        refine ⟨a', lo', hrec, by rw [hs1, hsz2], by omega, hs3, hs4, ?_⟩
        intro p hp hps
        exact hs5 p hp (by rw [hsz2]; exact hps)
      · -- no shrink: the two pointers did not move, so lo1 = lo and hi1 = hi
        have hgap : hi1 - lo1 = g := by omega
        have hle : lo1 = lo := by omega
        have hhe : hi1 = hi := by omega
        subst hle
        subst hhe
        have hfrontHi : frontP f feat v tb (a.getD hi1 0) = true := hRstop (by omega)
        have hfront2 : frontP f feat v tb ((aswap a lo1 hi1).getD lo1 0) = true := by
          rw [aswap_getD_left a lo1 hi1 hlo1sz hne]
          exact hfrontHi
        cases fuel1 with
        | zero => omega
        | succ fuel2 =>
        obtain ⟨lo2, hA', hA1', hA2', hAstop', hprog', hApass'⟩ :=
          advanceLo_blk hsc2 (hi1 - lo1) lo1 (by omega)
        have hlo2 : lo1 + 1 ≤ lo2 := hprog' (by omega) hfront2
        obtain ⟨hi2, hR', hR1', hR2', hRstop', hRpass'⟩ :=
          retreatHi_blk hsc2 (hi1 - lo2) hi1 (by omega)
        have hIlo3 : ∀ p, p < lo2 → frontP f feat v tb ((aswap a lo1 hi1).getD p 0) = true := by
          intro p hp
          by_cases hpl : p < lo1
          · exact hIlo2 p hpl
          · exact hApass' p (by omega) hp
        have hIhi3 : ∀ p, hi2 < p → p < a.size →
            frontP f feat v tb ((aswap a lo1 hi1).getD p 0) = false := by
          intro p hp hps
          by_cases hph : hi1 < p
          · exact hIhi2 p hph hps
          · exact hRpass' p hp (by omega)
        rw [partOuter_step (by omega) hA' hR']
        have hlo2hi2 : lo2 ≤ hi2 := by omega
        by_cases hne2 : lo2 ≠ hi2
        · rw [if_pos hne2]
          have hlo2sz : lo2 < (aswap a lo1 hi1).size := by omega
          have hhi2sz : hi2 < (aswap a lo1 hi1).size := by omega
          have hms3 := aswap_ms (aswap a lo1 hi1) lo2 hi2 hlo2sz hhi2sz hne2
          have hsz3 : (aswap (aswap a lo1 hi1) lo2 hi2).size = a.size := by
            rw [aswap_size, hsz2]
          have hsc3 : scOK f feat (aswap (aswap a lo1 hi1) lo2 hi2) :=
            scOK_of_ms (by rw [hms3, hms2]) hsc
          have hIlo4 : ∀ p, p < lo2 →
              frontP f feat v tb ((aswap (aswap a lo1 hi1) lo2 hi2).getD p 0) = true := by
            intro p hp
            rw [aswap_getD_other _ lo2 hi2 p (by omega) (by omega)]
            exact hIlo3 p hp
          have hIhi4 : ∀ p, hi2 < p → p < a.size →
              frontP f feat v tb ((aswap (aswap a lo1 hi1) lo2 hi2).getD p 0) = false := by
            intro p hp hps
            rw [aswap_getD_other _ lo2 hi2 p (by omega) (by omega)]
            exact hIhi3 p hp hps
          obtain ⟨a', lo', hrec, hs1, hs2, hs3, hs4, hs5⟩ := IH (hi2 - lo2) (by omega) fuel2
            (aswap (aswap a lo1 hi1) lo2 hi2) lo2 hi2 (le_refl _) (by omega)
            (Or.inl (by omega)) (by omega) hsc3 hIlo4
            (by
              intro p hp hps
              exact hIhi4 p hp (by rw [hsz3] at hps; exact hps))
          refine ⟨a', lo', hrec, by rw [hs1, hsz3], by omega, hs3, hs4, ?_⟩
          intro p hp hps
          exact hs5 p hp (by rw [hsz3]; exact hps)
        · rw [if_neg hne2]
          have heq2 : lo2 = hi2 := by omega
          cases fuel2 with
          | zero => omega
          | succ fuel3 =>
          rw [partOuter_stop (by omega)]
          refine ⟨aswap a lo1 hi1, lo2, rfl, hsz2, by omega, hsc2, hIlo3, ?_⟩
          intro p hp hps
          exact hIhi3 p (by omega) hps
    · rw [if_neg hne]
      have heq : lo1 = hi1 := by omega
      cases fuel1 with
      | zero => omega
      | succ fuel2 =>
      rw [partOuter_stop (by omega)]
      refine ⟨a, lo1, rfl, rfl, by omega, hsc, hIlo1, ?_⟩
      intro p hp hps
      exact hIhi1 p (by omega) hps
  · rw [partOuter_stop hlt]
    refine ⟨a, lo, rfl, rfl, hlo, hsc, hIlo, ?_⟩
    intro p hp hps
    exact hIhi p (by omega) hps

theorem arrGetD_of_mem (a : Array Int) {x : Int} (hx : x ∈ a.toList) :
    ∃ j, j < a.size ∧ a.getD j 0 = x := by
  obtain ⟨i, hi⟩ := List.get_of_mem hx
  refine ⟨i.1, by simpa using i.2, ?_⟩
  rw [arrGetD_eq_toListGet a i.1 (by simpa using i.2)]
  rw [← hi]

/-- presplitOn with the partition block facts: the slice point can only be
zero when the candidate was a trueBelow split, and can only cover the
whole list when it was not (the recorded cutoff is the score of one of
the frames, which lands in the half its own comparison selects). -/
theorem presplit_shape2 {f : Forest} {nid : Nat} {sp : SplitDetails} {f' : Forest}
    (hfs : 1 ≤ f.frameSize)
    (hF : f.trainFrameCount = (f.trainSamples.length : Int) - f.frameSize + 1)
    (hin : ∀ fr ∈ (getN f nid).inputs, 0 ≤ fr ∧ fr < f.trainFrameCount)
    (hft0 : 0 ≤ sp.splitFeature) (hft1 : sp.splitFeature < 2 * f.frameSize - 1)
    (hreal : ∃ fr ∈ (getN f nid).inputs,
      scoreForFrameAndFeature f fr sp.splitFeature = .ok sp.splitValue)
    (h : presplitOn f nid sp = .ok f') :
    ∃ (inputs : List Int) (sl : Nat),
      sl ≤ inputs.length ∧
      (inputs : Multiset Int) = ((getN f nid).inputs : Multiset Int) ∧
      inputs.length = (getN f nid).inputs.length ∧
      f' = setN { f with arena := splitArena f nid sp inputs sl } nid
          (splitParent f nid sp inputs) ∧
      (sl = 0 → sp.trueBelow = true) ∧
      (sl = inputs.length → sp.trueBelow = false) := by
  simp only [presplitOn] at h
  have hsc : scOK f sp.splitFeature ((getN f nid).inputs.toArray) := by
    intro x hx
    have hx' : x ∈ (getN f nid).inputs := by simpa using hx
    exact pureScore_ok hfs hF (hin x hx').1 (hin x hx').2 hft0 hft1
  obtain ⟨a, lo, hpart, hsza, hloa, hsca, hPre, hSuf⟩ := partOuter_blk
      (((getN f nid).inputs.toArray).size)
      (2 * ((getN f nid).inputs.toArray).size + 2)
      ((getN f nid).inputs.toArray) 0 (((getN f nid).inputs.toArray).size - 1)
      (by omega) (by omega)
      (by
        by_cases hz : ((getN f nid).inputs.toArray).size = 0
        · exact Or.inr (by omega)
        · exact Or.inl (by omega))
      (by omega) hsc
      (fun p hp => absurd hp (by omega))
      (fun p hp1 hp2 => absurd hp1 (by omega))
  rw [hpart, exceptBind_ok] at h
  obtain ⟨sl, hfin, hsl1, hsl2, hslstop, hslpass⟩ := finalLo_blk hsca (a.size - lo) lo
    (by omega)
  rw [hfin, exceptBind_ok] at h
  have hms := partOuter_ms
    (by
      by_cases hz : ((getN f nid).inputs.toArray).size = 0
      · exact Or.inr (by omega)
      · exact Or.inl (by omega)) hpart
  have hmseq : (a.toList : Multiset Int) = ((getN f nid).inputs : Multiset Int) := by
    rw [hms.1]
  have hlen : a.toList.length = (getN f nid).inputs.length := by
    have := congrArg Multiset.card hmseq
    simpa using this
  have hslsz : sl ≤ a.size := by omega
  have hAllFront : ∀ p, p < sl → frontP f sp.splitFeature sp.splitValue sp.trueBelow
      (a.getD p 0) = true := by
    intro p hp
    by_cases hpl : p < lo
    · exact hPre p hpl
    · exact hslpass p (by omega) hp
  have hAllBack : ∀ p, sl ≤ p → p < a.size → frontP f sp.splitFeature sp.splitValue
      sp.trueBelow (a.getD p 0) = false := by
    intro p hp hps
    by_cases hpe : p = sl
    · subst hpe
      exact hslstop (by omega)
    · refine hSuf p ?_ (by omega)
      omega
  -- the recorded cutoff is the pure score of one of the permuted entries
  obtain ⟨fr, hfrmem, hfrsc⟩ := hreal
  have hfrA : fr ∈ a.toList := by
    have : fr ∈ (a.toList : Multiset Int) := by
      rw [hmseq]
      simpa using hfrmem
    simpa using this
  obtain ⟨j, hj, hjget⟩ := arrGetD_of_mem a hfrA
  have hfrpure : pureScore f fr sp.splitFeature = sp.splitValue := by
    have h2 := pureScore_ok hfs hF (hin fr hfrmem).1 (hin fr hfrmem).2 hft0 hft1
    rw [hfrsc] at h2
    exact (Except.ok.inj h2).symm
  have hfrfront : frontP f sp.splitFeature sp.splitValue sp.trueBelow fr
      = (false == sp.trueBelow) := by
    unfold frontP
    rw [hfrpure]
    simp
  cases h
  refine ⟨a.toList, sl, by simpa using hslsz, hmseq, hlen, rfl, ?_, ?_⟩
  · intro hsl0
    have hb := hAllBack j (by omega) hj
    rw [hjget, hfrfront] at hb
    cases htb : sp.trueBelow
    · rw [htb] at hb
      cases hb
    · rfl
  · intro hslL
    have hfj : frontP f sp.splitFeature sp.splitValue sp.trueBelow (a.getD j 0) = true := by
      refine hAllFront j ?_
      have : a.size = a.toList.length := by simp
      omega
    rw [hjget, hfrfront] at hfj
    cases htb : sp.trueBelow
    · rfl
    · rw [htb] at hfj
      cases hfj

/-- precalcBestSplit establishes the measure facts on the node it splits
and preserves them everywhere else; the size, classification and stored
count of every preexisting node are unchanged. -/
theorem precalc_inv2 {f f' : Forest} {nid : Nat}
    (hinv : Inv f) (hFnn : 0 ≤ f.trainFrameCount)
    (hn2 : ∀ id, id < f.arena.size → NodeOk2 f id)
    (hnid : nid < f.arena.size)
    (hpre : precalcBestSplit f nid = .ok f') :
    (∀ id, id < f'.arena.size → NodeOk2 f' id) ∧
    (∀ id, id < f.arena.size →
      (getN f' id).inputs.length = (getN f id).inputs.length ∧
      (getN f' id).classifyAsTrue = (getN f id).classifyAsTrue ∧
      (getN f' id).misclassified = (getN f id).misclassified) := by
  rcases precalc_rich2 hpre with heq | ⟨sp, aList, haList, hmemA, hcand, hbar, hps⟩
  · subst heq
    exact ⟨hn2, fun id _ => ⟨rfl, rfl, rfl⟩⟩
  · have hroot := (hinv.nodesOk nid hnid).2.1
    rw [hroot, hinv.allowedEq] at haList
    have haEq : aList = (List.range (2 * f.frameSize - 1).toNat).map Int.ofNat := by
      have h2 := haList
      simp only [List.get?] at h2
      cases h2
      rfl
    have hft : 0 ≤ sp.splitFeature ∧ sp.splitFeature < 2 * f.frameSize - 1 := by
      rw [haEq] at hmemA
      simp only [List.mem_map, List.mem_range] at hmemA
      obtain ⟨k, hk, hkeq⟩ := hmemA
      have hfs := hinv.fsPos
      rw [← hkeq]
      simp only [Int.ofNat_eq_coe]
      omega
    obtain ⟨inputs, sl, hslle, hms, hlen, hshape, hsl0, hslL⟩ := presplit_shape2 hinv.fsPos
      hinv.flen (hinv.nodesOk nid hnid).1 hft.1 hft.2 hcand.1 hps
    subst hshape
    -- reading back nodes of the new state
    have hszA : (splitArena f nid sp inputs sl).size = f.arena.size + 2 := by
      simp [splitArena]
    have hsz' : (setN { f with arena := splitArena f nid sp inputs sl } nid
        (splitParent f nid sp inputs)).arena.size = f.arena.size + 2 := by
      simp [setN, Array.size_setD, hszA]
    have hget_nid : getN (setN { f with arena := splitArena f nid sp inputs sl } nid
        (splitParent f nid sp inputs)) nid = splitParent f nid sp inputs := by
      refine getN_setN_self ?_
      show nid < (splitArena f nid sp inputs sl).size
      omega
    have hTF : (setN { f with arena := splitArena f nid sp inputs sl } nid
        (splitParent f nid sp inputs)).trainFrameCount = f.trainFrameCount := rfl
    have hget_lt : ∀ id, id < f.arena.size → id ≠ nid →
        getN (setN { f with arena := splitArena f nid sp inputs sl } nid
          (splitParent f nid sp inputs)) id = getN f id := by
      intro id hid hne
      rw [getN_setN_ne hne]
      show (splitArena f nid sp inputs sl).getD id default = f.arena.getD id default
      unfold splitArena
      rw [arrGetD_push_lt _ _ _ _ (by simp; omega), arrGetD_push_lt _ _ _ _ hid]
    have hget_low : getN (setN { f with arena := splitArena f nid sp inputs sl } nid
        (splitParent f nid sp inputs)) f.arena.size
        = Node.mk (some nid) (inputs.take sl) sp.trueBelow sp.missesBelow
            (BranchNode.mk (-1) (-1) none none) true (getN f nid).originalRoot := by
      rw [getN_setN_ne (by omega)]
      show (splitArena f nid sp inputs sl).getD f.arena.size default = _
      unfold splitArena
      rw [arrGetD_push_lt _ _ _ _ (by simp), arrGetD_push_eq]
    have hget_high : getN (setN { f with arena := splitArena f nid sp inputs sl } nid
        (splitParent f nid sp inputs)) (f.arena.size + 1)
        = Node.mk (some nid) (inputs.drop sl) (!sp.trueBelow) sp.missesAbove
            (BranchNode.mk (-1) (-1) none none) true (getN f nid).originalRoot := by
      rw [getN_setN_ne (by omega)]
      show (splitArena f nid sp inputs sl).getD (f.arena.size + 1) default = _
      unfold splitArena
      have hkey := arrGetD_push_eq (f.arena.push (Node.mk (some nid) (inputs.take sl)
          sp.trueBelow sp.missesBelow (BranchNode.mk (-1) (-1) none none) true
          (getN f nid).originalRoot))
        (Node.mk (some nid) (inputs.drop sl) (!sp.trueBelow) sp.missesAbove
          (BranchNode.mk (-1) (-1) none none) true (getN f nid).originalRoot)
        (default : Node)
      simp only [Array.size_push] at hkey
      exact hkey
    -- the size, classification and count of every old node are unchanged
    have hkeep : ∀ id, id < f.arena.size →
        (getN (setN { f with arena := splitArena f nid sp inputs sl } nid
          (splitParent f nid sp inputs)) id).inputs.length = (getN f id).inputs.length ∧
        (getN (setN { f with arena := splitArena f nid sp inputs sl } nid
          (splitParent f nid sp inputs)) id).classifyAsTrue = (getN f id).classifyAsTrue ∧
        (getN (setN { f with arena := splitArena f nid sp inputs sl } nid
          (splitParent f nid sp inputs)) id).misclassified = (getN f id).misclassified := by
      intro id hid
      by_cases hcn : id = nid
      · subst hcn
        rw [hget_nid]
        exact ⟨hlen, rfl, rfl⟩
      · rw [hget_lt id hid hcn]
        exact ⟨rfl, rfl, rfl⟩
    -- numeric facts about the recorded candidate
    obtain ⟨hreal, t, u, ht0, hu0, htu, hmm, hvar⟩ := hcand
    have hL1 : 1 ≤ (getN f nid).inputs.length := by
      obtain ⟨fr, hfr, _⟩ := hreal
      exact List.length_pos.mpr (List.ne_nil_of_mem hfr)
    have hlow0 : 0 ≤ sp.missesBelow := by
      rcases hvar with ⟨_, hv2, _⟩ | ⟨_, hv2, _⟩ <;> omega
    have hlowlt : sp.missesBelow < ((getN f nid).inputs.length : Int) := by
      rcases hvar with ⟨_, hv2, _⟩ | ⟨_, hv2, _⟩ <;> omega
    have hlenF : ((getN f nid).inputs.length : Int) ≤ f.trainFrameCount := (hn2 nid hnid).1
    have hmisF : (getN f nid).misclassified ≤ f.trainFrameCount := (hn2 nid hnid).2.1
    have hhighF : sp.missesAbove ≤ f.trainFrameCount := by
      by_cases hm : 0 ≤ (getN f nid).misclassified
      · have := goTrunc99_le hm
        omega
      · have := goTrunc99_nonpos (le_of_lt (by omega : (getN f nid).misclassified < 0))
        omega
    have htake : (inputs.take sl).length = sl := by
      simp [List.length_take]
      omega
    have hdrop : (inputs.drop sl).length = inputs.length - sl := by
      simp [List.length_drop]
    -- the strict count drop on a same-size lower child of a false-classified parent
    have hldec : sp.trueBelow = false → (getN f nid).classifyAsTrue = false →
        sp.missesBelow < (getN f nid).misclassified := by
      intro htb hcls
      rcases hvar with ⟨hv1, _, _⟩ | ⟨_, hv2, hv3⟩
      · rw [htb] at hv1
        cases hv1
      · rw [hcls] at hv3
        simp only [Bool.false_eq_true, if_false] at hv3
        by_cases hm : 1 ≤ (getN f nid).misclassified
        · have := goTrunc99_lt hm
          omega
        · have := goTrunc99_nonpos (by omega : (getN f nid).misclassified ≤ 0)
          omega
    refine ⟨?_, hkeep⟩
    intro id hid
    rw [hsz'] at hid
    by_cases hcn : id = nid
    · -- the split node: measure facts for its two fresh children
      subst hcn
      refine ⟨?_, ?_, ?_⟩
      · rw [hget_nid, hTF]
        simp only [splitParent]
        omega
      · rw [hget_nid, hTF]
        simp only [splitParent]
        exact hmisF
      · intro l h hl hh
        rw [hget_nid] at hl hh
        simp only [splitParent] at hl hh
        have hleq : l = f.arena.size := (Option.some.inj hl).symm
        have hheq : h = f.arena.size + 1 := (Option.some.inj hh).symm
        subst hleq
        subst hheq
        rw [hget_nid, hget_low, hget_high]
        simp only [splitParent]
        refine ⟨hlow0, ?_, ?_, ?_, ?_, ?_⟩
        · omega
        · rw [htake, hdrop]
          omega
        · intro hhl
          rw [hdrop] at hhl
          have hsl00 : sl = 0 := by omega
          rw [hsl0 hsl00]
          rfl
        · intro hll
          rw [htake] at hll
          rw [hslL hll]
        · intro htb hcls
          exact hldec htb hcls
    · by_cases hlow : id < f.arena.size
      · -- untouched old slot: transfer its measure facts
        obtain ⟨hb1, hb2, hb3⟩ := hn2 id hlow
        refine ⟨?_, ?_, ?_⟩
        · rw [hTF, (hkeep id hlow).1]
          exact hb1
        · rw [hTF, (hkeep id hlow).2.2]
          exact hb2
        · intro l h hl hh
          rw [hget_lt id hlow hcn] at hl hh
          rcases (hinv.nodesOk id hlow).2.2 with hnc | ⟨l0, h0, hl0, hh0, _, hls0, _, hhs0, _⟩
          · rw [hnc.1] at hl
            cases hl
          · have hleq : l = l0 := by
              rw [hl0] at hl
              exact (Option.some.inj hl).symm
            have hheq : h = h0 := by
              rw [hh0] at hh
              exact (Option.some.inj hh).symm
            subst hleq
            subst hheq
            obtain ⟨k1, k2, k3, k4, k5, k6⟩ := hb3 l h hl0 hh0
            rw [(hkeep id hlow).1, (hkeep id hlow).2.1, (hkeep id hlow).2.2,
              (hkeep l hls0).1, (hkeep l hls0).2.1, (hkeep l hls0).2.2,
              (hkeep h hhs0).1, (hkeep h hhs0).2.1]
            exact ⟨k1, k2, k3, k4, k5, k6⟩
      · -- one of the two fresh leaves: within bounds, no children yet
        by_cases hl2 : id = f.arena.size
        · subst hl2
          refine ⟨?_, ?_, ?_⟩
          · rw [hget_low, hTF]
            show ((inputs.take sl).length : Int) ≤ f.trainFrameCount
            rw [htake]
            omega
          · rw [hget_low, hTF]
            show sp.missesBelow ≤ f.trainFrameCount
            omega
          · intro l h hl hh
            rw [hget_low] at hl
            cases hl
        · have hh2 : id = f.arena.size + 1 := by omega
          subst hh2
          refine ⟨?_, ?_, ?_⟩
          · rw [hget_high, hTF]
            show ((inputs.drop sl).length : Int) ≤ f.trainFrameCount
            rw [hdrop]
            omega
          · rw [hget_high, hTF]
            show sp.missesAbove ≤ f.trainFrameCount
            exact hhighF
          · intro l h hl hh
            rw [hget_high] at hl
            cases hl

/-- NodeOk2 only reads the arena and the frame count. -/
theorem nodeOk2_arena {f g : Forest} {id : Nat}
    (ha : g.arena = f.arena) (hF : g.trainFrameCount = f.trainFrameCount)
    (h : NodeOk2 f id) : NodeOk2 g id := by
  have hget : ∀ c, getN g c = getN f c := by
    intro c
    show g.arena.getD c default = f.arena.getD c default
    rw [ha]
  obtain ⟨h1, h2, h3⟩ := h
  refine ⟨?_, ?_, ?_⟩
  · rw [hget id, hF]
    exact h1
  · rw [hget id, hF]
    exact h2
  · intro l hh hl hhh
    rw [hget id] at hl hhh
    obtain ⟨k1, k2, k3, k4, k5, k6⟩ := h3 l hh hl hhh
    rw [hget id, hget l, hget hh]
    exact ⟨k1, k2, k3, k4, k5, k6⟩

/-- The node measure only reads the size, classification, count and frame
count. -/
theorem eMeasure_congr {f g : Forest} {id : Nat}
    (hlen : (getN g id).inputs.length = (getN f id).inputs.length)
    (hcls : (getN g id).classifyAsTrue = (getN f id).classifyAsTrue)
    (hmis : (getN g id).misclassified = (getN f id).misclassified)
    (hF : g.trainFrameCount = f.trainFrameCount) :
    eMeasure g id = eMeasure f id := by
  unfold eMeasure
  rw [hlen, hcls, hmis, hF]

/-- The decisive arithmetic step of the termination measure: the flattened
lexicographic comparison. -/
theorem eStep_key (ll rl ml ln rn mn S : Nat)
    (hml : ml ≤ S) (hdisj : (2 * ll + rl + 1 ≤ 2 * ln + rn) ∨
      (ll = ln ∧ rl = rn ∧ ml < mn)) :
    (2 * ll + rl) * (S + 1) + ml < (2 * ln + rn) * (S + 1) + mn := by
  rcases hdisj with hA | ⟨hl, hr, hm⟩
  · calc (2 * ll + rl) * (S + 1) + ml
        < (2 * ll + rl) * (S + 1) + (S + 1) := by omega
      _ = (2 * ll + rl + 1) * (S + 1) := by ring
      _ ≤ (2 * ln + rn) * (S + 1) := Nat.mul_le_mul_right _ hA
      _ ≤ (2 * ln + rn) * (S + 1) + mn := Nat.le_add_right _ _
  · rw [hl, hr]
    exact Nat.add_lt_add_left hm _

/-- The heart of the termination argument: a child worth pushing (positive
stored count) measures strictly below its parent. -/
theorem eKid_lt {f : Forest} {nid l h k : Nat}
    (hFnn : 0 ≤ f.trainFrameCount)
    (hl : (getN f nid).branchData.lowerChild = some l)
    (hh : (getN f nid).branchData.highEqChild = some h)
    (hok2 : NodeOk2 f nid)
    (hmisF : (getN f k).misclassified ≤ f.trainFrameCount)
    (hsum : (getN f l).misclassified + (getN f h).misclassified
      < goTrunc99 (getN f nid).misclassified)
    (hk : k = l ∨ k = h) (hkmis : 0 < (getN f k).misclassified) :
    eMeasure f k < eMeasure f nid := by
  obtain ⟨hlenF, hmisNF, hkidC⟩ := hok2
  obtain ⟨k1, k2, k3, k4, k5, k6⟩ := hkidC l h hl hh
  have hclsFalse : ¬ (getN f nid).classifyAsTrue = true →
      (getN f nid).classifyAsTrue = false := by
    intro hne
    cases hb : (getN f nid).classifyAsTrue
    · rfl
    · exact absurd hb hne
  have hmisDrop : (getN f k).inputs.length = (getN f nid).inputs.length →
      (getN f nid).classifyAsTrue = false →
      (getN f k).misclassified < (getN f nid).misclassified := by
    intro hlen hclsn
    rcases hk with rfl | rfl
    · exact k6 (k5 hlen) hclsn
    · -- the high child: its count sits below the bar
      by_cases hm : 1 ≤ (getN f nid).misclassified
      · have := goTrunc99_lt hm
        omega
      · have := goTrunc99_nonpos (by omega : (getN f nid).misclassified ≤ 0)
        omega
  unfold eMeasure
  refine eStep_key _ _ _ _ _ _ _ (min_le_right _ _) ?_
  by_cases hlen : (getN f k).inputs.length = (getN f nid).inputs.length
  · have hclsk : (getN f k).classifyAsTrue = false := by
      rcases hk with rfl | rfl
      · exact k5 hlen
      · exact k4 hlen
    by_cases hclsn : (getN f nid).classifyAsTrue = true
    · refine Or.inl ?_
      rw [hlen, hclsk, hclsn]
      rw [show clsRank false = 0 from rfl, show clsRank true = 1 from rfl]
    · refine Or.inr ⟨by rw [hlen], by rw [hclsk, hclsFalse hclsn], ?_⟩
      have hdrop := hmisDrop hlen (hclsFalse hclsn)
      omega
  · -- strictly smaller input list
    refine Or.inl ?_
    have hkl : (getN f k).inputs.length < (getN f nid).inputs.length := by
      rcases hk with rfl | rfl <;> omega
    have hr1 : clsRank (getN f k).classifyAsTrue ≤ 1 := by
      unfold clsRank
      split <;> omega
    have hr0 : 0 ≤ clsRank (getN f nid).classifyAsTrue := Nat.zero_le _
    omega

theorem subMeasure_congr {f g : Forest} {s : Multiset Nat}
    (h : ∀ x ∈ s, eMeasure g x = eMeasure f x) : subMeasure g s = subMeasure f s := by
  unfold subMeasure
  have h2 : ∀ x ∈ s, 3 ^ eMeasure g x = 3 ^ eMeasure f x := fun x hx => by rw [h x hx]
  rw [Multiset.map_congr rfl h2]

theorem subMeasure_cons (f : Forest) (x : Nat) (s : Multiset Nat) :
    subMeasure f (x ::ₘ s) = 3 ^ eMeasure f x + subMeasure f s := by
  unfold subMeasure
  rw [Multiset.map_cons, Multiset.sum_cons]

theorem subMeasure_add (f : Forest) (s t : Multiset Nat) :
    subMeasure f (s + t) = subMeasure f s + subMeasure f t := by
  unfold subMeasure
  rw [Multiset.map_add, Multiset.sum_add]

theorem subMeasure_zero (f : Forest) : subMeasure f 0 = 0 := rfl

theorem pow3_one_lt {a e : Nat} (ha : a < e) : 3 ^ a < 3 ^ e :=
  Nat.pow_lt_pow_right (by norm_num) ha

theorem pow3_two_lt {a b e : Nat} (ha : a < e) (hb : b < e) : 3 ^ a + 3 ^ b < 3 ^ e := by
  have h1 : 3 ^ a ≤ 3 ^ (e - 1) := Nat.pow_le_pow_right (by norm_num) (by omega)
  have h2 : 3 ^ b ≤ 3 ^ (e - 1) := Nat.pow_le_pow_right (by norm_num) (by omega)
  have h3 : 3 ^ (e - 1) * 3 ≤ 3 ^ e := by
    rw [← pow_succ]
    exact Nat.pow_le_pow_right (by norm_num) (by omega)
  have h4 : 1 ≤ 3 ^ (e - 1) := Nat.one_le_pow _ _ (by norm_num)
  omega

theorem pow3_pos (e : Nat) : 0 < 3 ^ e := Nat.pos_pow_of_pos _ (by norm_num)

/-- The per-child step of convertToBranch with the termination payload: it
preserves the measure facts, leaves the size, classification and count of
every preexisting node unchanged, and either leaves the queue alone or
pushes the child, which then had a positive stored count. -/
theorem convertChild_dec {g g' : Forest} {c : Nat}
    (hinv : Inv g) (hFnn : 0 ≤ g.trainFrameCount)
    (hn2 : ∀ id, id < g.arena.size → NodeOk2 g id)
    (hc : c < g.arena.size)
    (hkq : ∀ id ∈ g.leafQueue.toList, HasKids g id)
    (h : (if (getN g c).misclassified > 0 then do
        let g2 ← precalcBestSplit g c
        if (getN g2 c).branchData.decideFeature ≠ -1 then heapPushF g2 c else pure g2
      else pure g) = .ok g') :
    Inv g' ∧ (∀ id ∈ g'.leafQueue.toList, HasKids g' id) ∧
    g'.trainFrameCount = g.trainFrameCount ∧
    g.arena.size ≤ g'.arena.size ∧
    (∀ id, id < g'.arena.size → NodeOk2 g' id) ∧
    (∀ id, id < g.arena.size →
      (getN g' id).inputs.length = (getN g id).inputs.length ∧
      (getN g' id).classifyAsTrue = (getN g id).classifyAsTrue ∧
      (getN g' id).misclassified = (getN g id).misclassified) ∧
    ((g'.leafQueue.toList : Multiset Nat) = (g.leafQueue.toList : Multiset Nat) ∨
     (0 < (getN g c).misclassified ∧
      (g'.leafQueue.toList : Multiset Nat) = c ::ₘ (g.leafQueue.toList : Multiset Nat))) := by
  split at h
  next hgt =>
      obtain ⟨g2, hpc, h2⟩ := exceptBind_ok_inv h
      obtain ⟨hinv2, hstat2, hmk2, hq2, hkm2⟩ := precalc_inv hinv hc (by omega) hpc
      obtain ⟨hn2b, hkeep2⟩ := precalc_inv2 hinv hFnn hn2 hc hpc
      have hc2 : c < g2.arena.size := by
        have := hmk2.1
        omega
      have hkq2 : ∀ id ∈ g2.leafQueue.toList, HasKids g2 id := by
        intro id hid
        rw [hq2] at hid
        exact hkm2 id (hkq id hid)
      have hTF2 : g2.trainFrameCount = g.trainFrameCount := hstat2.2.2.2.2.2.1
      split at h2
      next hdf =>
          obtain ⟨hqms, hqsz, hshape⟩ := heapPushF_pres h2
          have harena3 : g'.arena = g2.arena := by
            rw [hshape]
          have hget3 : ∀ id, getN g' id = getN g2 id := by
            intro id
            show g'.arena.getD id default = g2.arena.getD id default
            rw [harena3]
          have hTF3 : g'.trainFrameCount = g2.trainFrameCount := by
            rw [hshape]
          obtain ⟨hinv3, hstat3, hmk3, hkq3⟩ := pushCand_inv hinv2 hc2 hkq2 hdf h2
          refine ⟨hinv3, hkq3, by rw [hTF3, hTF2], ?_, ?_, ?_, ?_⟩
          · have := hmk2.1
            have h3 : g'.arena.size = g2.arena.size := by rw [harena3]
            omega
          · intro id hid
            have hid2 : id < g2.arena.size := by
              have h3 : g'.arena.size = g2.arena.size := by rw [harena3]
              omega
            exact nodeOk2_arena harena3 hTF3 (hn2b id hid2)
          · intro id hid
            obtain ⟨e1, e2, e3⟩ := hkeep2 id hid
            rw [hget3 id]
            exact ⟨e1, e2, e3⟩
          · refine Or.inr ⟨hgt, ?_⟩
            rw [hqms, hq2]
      next hdf =>
          cases h2
          refine ⟨hinv2, hkq2, hTF2, hmk2.1, hn2b, hkeep2, Or.inl ?_⟩
          rw [hq2]
  next hgt =>
      cases h
      exact ⟨hinv, hkq, rfl, le_refl _, hn2, fun id _ => ⟨rfl, rfl, rfl⟩, Or.inl rfl⟩

/-- NodeOk2 transfers along any step that keeps every node's size,
classification, count and child pointers. -/
theorem nodeOk2_of_keep {f g : Forest}
    (hF : g.trainFrameCount = f.trainFrameCount)
    (hkeep : ∀ c, (getN g c).inputs.length = (getN f c).inputs.length ∧
      (getN g c).classifyAsTrue = (getN f c).classifyAsTrue ∧
      (getN g c).misclassified = (getN f c).misclassified ∧
      (getN g c).branchData = (getN f c).branchData)
    {id : Nat} (h : NodeOk2 f id) : NodeOk2 g id := by
  obtain ⟨h1, h2, h3⟩ := h
  refine ⟨by rw [(hkeep id).1, hF]; exact h1, by rw [(hkeep id).2.2.1, hF]; exact h2, ?_⟩
  intro l2 h2b hl hhh
  rw [(hkeep id).2.2.2] at hl hhh
  obtain ⟨k1, k2, k3, k4, k5, k6⟩ := h3 l2 h2b hl hhh
  rw [(hkeep id).1, (hkeep id).2.1, (hkeep id).2.2.1, (hkeep l2).1, (hkeep l2).2.1,
    (hkeep l2).2.2.1, (hkeep h2b).1, (hkeep h2b).2.1]
  exact ⟨k1, k2, k3, k4, k5, k6⟩

/-- convertToBranch with the termination payload: the measure facts carry
over, the measure of every preexisting node is unchanged, and the queue
gains a (possibly empty) multiset of children, each measuring strictly
below the converted node; the sum it contributes to the queue measure is
strictly below the removed contribution of the converted node. -/
theorem convert_dec {f f' : Forest} {nid : Nat}
    (hinv : Inv f) (hFnn : 0 ≤ f.trainFrameCount)
    (hn2 : ∀ id, id < f.arena.size → NodeOk2 f id)
    (hnid : nid < f.arena.size)
    (hcand : (getN f nid).branchData.decideFeature ≠ -1)
    (hkq : ∀ id ∈ f.leafQueue.toList, HasKids f id)
    (h : convertToBranch f nid = .ok f') :
    Inv f' ∧ (∀ id ∈ f'.leafQueue.toList, HasKids f' id) ∧
    (∀ id, id < f'.arena.size → NodeOk2 f' id) ∧
    f'.trainFrameCount = f.trainFrameCount ∧
    (∀ id, id < f.arena.size → eMeasure f' id = eMeasure f id) ∧
    ∃ K : Multiset Nat,
      (f'.leafQueue.toList : Multiset Nat) = (f.leafQueue.toList : Multiset Nat) + K ∧
      subMeasure f' K < 3 ^ eMeasure f nid := by
  obtain ⟨hinv1, hstat1, hmk1, hkm1⟩ := setLeaf_inv hinv hnid hcand
  rcases (hinv.nodesOk nid hnid).2.2 with hnc |
    ⟨lc, uc, hl, hh, hil, hls, hih, hhs, hmis0, hsum, _⟩
  · exact absurd hnc.2.2.1 hcand
  · simp only [convertToBranch] at h
    rw [getN_setN_self hnid] at h
    simp only [] at h
    rw [hl, hh] at h
    simp only [childOrNil, exceptPure_bind] at h
    have hsz1 : (setN f nid { getN f nid with isLeaf := false }).arena.size = f.arena.size := by
      simp [setN, Array.size_setD]
    have hTF1 : (setN f nid { getN f nid with isLeaf := false }).trainFrameCount
        = f.trainFrameCount := rfl
    have hq1 : (setN f nid { getN f nid with isLeaf := false }).leafQueue = f.leafQueue := rfl
    have hkeep1 : ∀ c,
        (getN (setN f nid { getN f nid with isLeaf := false }) c).inputs.length
          = (getN f c).inputs.length ∧
        (getN (setN f nid { getN f nid with isLeaf := false }) c).classifyAsTrue
          = (getN f c).classifyAsTrue ∧
        (getN (setN f nid { getN f nid with isLeaf := false }) c).misclassified
          = (getN f c).misclassified ∧
        (getN (setN f nid { getN f nid with isLeaf := false }) c).branchData
          = (getN f c).branchData := by
      intro c
      by_cases hcn : c = nid
      · subst hcn
        rw [getN_setN_self hnid]
        exact ⟨rfl, rfl, rfl, rfl⟩
      · rw [getN_setN_ne hcn]
        exact ⟨rfl, rfl, rfl, rfl⟩
    have hn21 : ∀ id, id < (setN f nid { getN f nid with isLeaf := false }).arena.size →
        NodeOk2 (setN f nid { getN f nid with isLeaf := false }) id := by
      intro id hid
      rw [hsz1] at hid
      exact nodeOk2_of_keep hTF1 hkeep1 (hn2 id hid)
    have hkq1 : ∀ id ∈ (setN f nid { getN f nid with isLeaf := false }).leafQueue.toList,
        HasKids (setN f nid { getN f nid with isLeaf := false }) id := by
      intro id hid
      exact hkm1 id (hkq id hid)
    have hls1 : lc < (setN f nid { getN f nid with isLeaf := false }).arena.size := by
      omega
    have hchs1 : uc < (setN f nid { getN f nid with isLeaf := false }).arena.size := by
      omega
    -- the two candidate children measure strictly below the parent
    have helc : 0 < (getN f lc).misclassified → eMeasure f lc < eMeasure f nid :=
      fun hpos => eKid_lt hFnn hl hh (hn2 nid hnid) (hn2 lc hls).2.1 hsum (Or.inl rfl) hpos
    have heuc : 0 < (getN f uc).misclassified → eMeasure f uc < eMeasure f nid :=
      fun hpos => eKid_lt hFnn hl hh (hn2 nid hnid) (hn2 uc hhs).2.1 hsum (Or.inr rfl) hpos
    split at h
    next hgtl =>
        rw [getN_setN_ne (show lc ≠ nid from by omega)] at hgtl
        obtain ⟨g2, hpc, h2⟩ := exceptBind_ok_inv h
        obtain ⟨hinv2, hstat2, hmk2, hq2, hkm2⟩ := precalc_inv hinv1 hls1
          (by rw [getN_setN_ne (show lc ≠ nid from by omega)]; omega) hpc
        obtain ⟨hn22, hkeep2⟩ := precalc_inv2 hinv1 (by rw [hTF1]; exact hFnn) hn21 hls1 hpc
        have hsz2 : (setN f nid { getN f nid with isLeaf := false }).arena.size
            ≤ g2.arena.size := hmk2.1
        have hls2 : lc < g2.arena.size := by omega
        have hch2 : uc < g2.arena.size := by omega
        have hTF2 : g2.trainFrameCount = f.trainFrameCount := by
          rw [hstat2.2.2.2.2.2.1, hTF1]
        have hkq2 : ∀ id ∈ g2.leafQueue.toList, HasKids g2 id := by
          intro id hid
          rw [hq2] at hid
          exact hkm2 id (hkq1 id hid)
        have hkeepB : ∀ id, id < f.arena.size →
            (getN g2 id).inputs.length = (getN f id).inputs.length ∧
            (getN g2 id).classifyAsTrue = (getN f id).classifyAsTrue ∧
            (getN g2 id).misclassified = (getN f id).misclassified := by
          intro id hid
          obtain ⟨e1, e2, e3⟩ := hkeep2 id (by omega)
          obtain ⟨d1, d2, d3, _⟩ := hkeep1 id
          exact ⟨by rw [e1, d1], by rw [e2, d2], by rw [e3, d3]⟩
        split at h2
        next hdfl =>
            obtain ⟨g3, hpush, h3⟩ := exceptBind_ok_inv h2
            obtain ⟨hqms3, hqsz3, hshape3⟩ := heapPushF_pres hpush
            obtain ⟨hinv3, hstat3, hmk3, hkq3⟩ := pushCand_inv hinv2 hls2 hkq2 hdfl hpush
            have harena3 : g3.arena = g2.arena := by
              rw [hshape3]
            have hget3 : ∀ c, getN g3 c = getN g2 c := by
              intro c
              show g3.arena.getD c default = g2.arena.getD c default
              rw [harena3]
            have hsz3 : g3.arena.size = g2.arena.size := by
              rw [harena3]
            have hTF3 : g3.trainFrameCount = f.trainFrameCount := by
              rw [hshape3]
              exact hTF2
            have hn23 : ∀ id, id < g3.arena.size → NodeOk2 g3 id := by
              intro id hid
              exact nodeOk2_arena harena3 (by rw [hshape3]) (hn22 id (by omega))
            have hch3 : uc < g3.arena.size := by omega
            have hkeepC : ∀ id, id < f.arena.size →
                (getN g3 id).inputs.length = (getN f id).inputs.length ∧
                (getN g3 id).classifyAsTrue = (getN f id).classifyAsTrue ∧
                (getN g3 id).misclassified = (getN f id).misclassified := by
              intro id hid
              rw [hget3 id]
              exact hkeepB id hid
            obtain ⟨hinvF, hkqF, hTFF, hszF, hn2F, hkeepF, hmsF⟩ :=
              convertChild_dec hinv3 (by rw [hTF3]; exact hFnn) hn23 hch3 hkq3 h3
            have hkeepTot : ∀ id, id < f.arena.size →
                (getN f' id).inputs.length = (getN f id).inputs.length ∧
                (getN f' id).classifyAsTrue = (getN f id).classifyAsTrue ∧
                (getN f' id).misclassified = (getN f id).misclassified := by
              intro id hid
              obtain ⟨e1, e2, e3⟩ := hkeepF id (by omega)
              obtain ⟨d1, d2, d3⟩ := hkeepC id hid
              exact ⟨by rw [e1, d1], by rw [e2, d2], by rw [e3, d3]⟩
            have hTFtot : f'.trainFrameCount = f.trainFrameCount := by
              rw [hTFF, hTF3]
            have heTot : ∀ id, id < f.arena.size → eMeasure f' id = eMeasure f id := by
              intro id hid
              obtain ⟨e1, e2, e3⟩ := hkeepTot id hid
              exact eMeasure_congr e1 e2 e3 hTFtot
            refine ⟨hinvF, hkqF, hn2F, hTFtot, heTot, ?_⟩
            have hmsg3 : (g3.leafQueue.toList : Multiset Nat)
                = lc ::ₘ (f.leafQueue.toList : Multiset Nat) := by
              rw [hqms3, hq2, hq1]
            have hposlc : 0 < (getN f lc).misclassified := by
              have := (hkeep1 lc).2.2.1
              omega
            rcases hmsF with hmsF | ⟨hposuc, hmsF⟩
            · refine ⟨lc ::ₘ 0, ?_, ?_⟩
              · rw [hmsF, hmsg3, Multiset.add_cons, add_zero]
              · rw [subMeasure_cons, subMeasure_zero]
                have helc2 : eMeasure f' lc = eMeasure f lc := heTot lc hls
                rw [helc2]
                have := pow3_one_lt (helc hposlc)
                omega
            · have hposuc' : 0 < (getN f uc).misclassified := by
                obtain ⟨_, _, d3⟩ := hkeepC uc hhs
                omega
              refine ⟨uc ::ₘ lc ::ₘ 0, ?_, ?_⟩
              · rw [hmsF, hmsg3, Multiset.add_cons, Multiset.add_cons, add_zero]
              · rw [subMeasure_cons, subMeasure_cons, subMeasure_zero]
                rw [heTot uc hhs, heTot lc hls]
                have := pow3_two_lt (heuc hposuc') (helc hposlc)
                omega
        next hdfl =>
            obtain ⟨hinvF, hkqF, hTFF, hszF, hn2F, hkeepF, hmsF⟩ :=
              convertChild_dec hinv2 (by rw [hTF2]; exact hFnn) hn22 hch2 hkq2 h2
            have hkeepTot : ∀ id, id < f.arena.size →
                (getN f' id).inputs.length = (getN f id).inputs.length ∧
                (getN f' id).classifyAsTrue = (getN f id).classifyAsTrue ∧
                (getN f' id).misclassified = (getN f id).misclassified := by
              intro id hid
              obtain ⟨e1, e2, e3⟩ := hkeepF id (by omega)
              obtain ⟨d1, d2, d3⟩ := hkeepB id hid
              exact ⟨by rw [e1, d1], by rw [e2, d2], by rw [e3, d3]⟩
            have hTFtot : f'.trainFrameCount = f.trainFrameCount := by
              rw [hTFF, hTF2]
            have heTot : ∀ id, id < f.arena.size → eMeasure f' id = eMeasure f id := by
              intro id hid
              obtain ⟨e1, e2, e3⟩ := hkeepTot id hid
              exact eMeasure_congr e1 e2 e3 hTFtot
            refine ⟨hinvF, hkqF, hn2F, hTFtot, heTot, ?_⟩
            have hmsg2 : (g2.leafQueue.toList : Multiset Nat)
                = (f.leafQueue.toList : Multiset Nat) := by
              rw [hq2, hq1]
            rcases hmsF with hmsF | ⟨hposuc, hmsF⟩
            · refine ⟨0, ?_, ?_⟩
              · rw [hmsF, hmsg2, add_zero]
              · rw [subMeasure_zero]
                exact pow3_pos _
            · have hposuc' : 0 < (getN f uc).misclassified := by
                obtain ⟨_, _, d3⟩ := hkeepB uc hhs
                omega
              refine ⟨uc ::ₘ 0, ?_, ?_⟩
              · rw [hmsF, hmsg2, Multiset.add_cons, add_zero]
              · rw [subMeasure_cons, subMeasure_zero]
                rw [heTot uc hhs]
                have := pow3_one_lt (heuc hposuc')
                omega
    next hgtl =>
        obtain ⟨hinvF, hkqF, hTFF, hszF, hn2F, hkeepF, hmsF⟩ :=
          convertChild_dec hinv1 (by rw [hTF1]; exact hFnn) hn21 hchs1 hkq1 h
        have hkeepTot : ∀ id, id < f.arena.size →
            (getN f' id).inputs.length = (getN f id).inputs.length ∧
            (getN f' id).classifyAsTrue = (getN f id).classifyAsTrue ∧
            (getN f' id).misclassified = (getN f id).misclassified := by
          intro id hid
          obtain ⟨e1, e2, e3⟩ := hkeepF id (by omega)
          obtain ⟨d1, d2, d3, _⟩ := hkeep1 id
          exact ⟨by rw [e1, d1], by rw [e2, d2], by rw [e3, d3]⟩
        have hTFtot : f'.trainFrameCount = f.trainFrameCount := by
          rw [hTFF, hTF1]
        have heTot : ∀ id, id < f.arena.size → eMeasure f' id = eMeasure f id := by
          intro id hid
          obtain ⟨e1, e2, e3⟩ := hkeepTot id hid
          exact eMeasure_congr e1 e2 e3 hTFtot
        refine ⟨hinvF, hkqF, hn2F, hTFtot, heTot, ?_⟩
        rcases hmsF with hmsF | ⟨hposuc, hmsF⟩
        · refine ⟨0, ?_, ?_⟩
          · rw [hmsF, hq1, add_zero]
          · rw [subMeasure_zero]
            exact pow3_pos _
        · have hposuc' : 0 < (getN f uc).misclassified := by
            have := (hkeep1 uc).2.2.1
            omega
          refine ⟨uc ::ₘ 0, ?_, ?_⟩
          · rw [hmsF, hq1, Multiset.add_cons, add_zero]
          · rw [subMeasure_cons, subMeasure_zero]
            rw [heTot uc hhs]
            have := pow3_one_lt (heuc hposuc')
            omega

/-- The growth loop reaches a natural exit within one more iteration than
the queue measure: each conversion strictly decreases the measure. -/
theorem trainLoop_term :
    ∀ (W : Nat), ∀ {f : Forest}, Inv f → 0 ≤ f.trainFrameCount →
      (∀ id, id < f.arena.size → NodeOk2 f id) →
      queueMeasure f ≤ W →
      ∃ g, trainLoop f (W + 1) = .ok (.done g) := by
  intro W
  induction W using Nat.strong_induction_on with
  | _ W IH =>
  intro f hinv hFnn hn2 hQM
  by_cases hq : f.leafQueue.size > 0
  · cases hpop : heapPopF f with
    | error e =>
        exfalso
        refine heapPopF_ne hq ?_ hpop
        rcases hinv.queueKids with hall | hone
        · exact Or.inl hall
        · exact Or.inr (by omega)
    | ok p =>
        obtain ⟨nid, f1⟩ := p
        obtain ⟨hqms, hqsz, hshape⟩ := heapPopF_pres hq hpop
        have hmemsub : ∀ id ∈ f1.leafQueue.toList, id ∈ f.leafQueue.toList := by
          intro id hid
          have h2 : id ∈ (f1.leafQueue.toList : Multiset Nat) := by simpa using hid
          have h3 : id ∈ (f.leafQueue.toList : Multiset Nat) := by
            rw [hqms]
            exact Multiset.mem_cons_of_mem h2
          simpa using h3
        have hnidmem : nid ∈ f.leafQueue.toList := by
          have h3 : nid ∈ (f.leafQueue.toList : Multiset Nat) := by
            rw [hqms]
            exact Multiset.mem_cons_self nid _
          simpa using h3
        have hnid : nid < f.arena.size := hinv.queueIds nid hnidmem
        have harena1 : f1.arena = f.arena := by
          rw [hshape]
        have hTF1 : f1.trainFrameCount = f.trainFrameCount := by
          rw [hshape]
        have hgete : ∀ id, getN f1 id = getN f id := by
          intro id
          show f1.arena.getD id default = f.arena.getD id default
          rw [harena1]
        have hsz1 : f1.arena.size = f.arena.size := by
          rw [harena1]
        have he1 : ∀ id, eMeasure f1 id = eMeasure f id := by
          intro id
          exact eMeasure_congr (by rw [hgete id]) (by rw [hgete id]) (by rw [hgete id]) hTF1
        have hkq1 : ∀ id ∈ f1.leafQueue.toList, HasKids f1 id := by
          intro id hid
          rcases hinv.queueKids with hall | hone
          · have := hall id (hmemsub id hid)
            rw [HasKids, hgete id]
            exact this
          · exfalso
            have hsz0 : f1.leafQueue.size = 0 := by omega
            have : f1.leafQueue.toList.length = 0 := by
              have h4 : f1.leafQueue.toList.length = f1.leafQueue.size := by simp
              omega
            rw [List.length_eq_zero] at this
            rw [this] at hid
            cases hid
        have hinv1 : Inv f1 := by
          rw [hshape]
          refine inv_queue_set hinv ?_ ?_
          · intro id hid
            exact hinv.queueIds id (hmemsub id (by
              rw [hshape] at hid
              exact hid))
          · refine Or.inl ?_
            intro id hid
            have := hkq1 id (by rw [hshape] at hid; exact hid)
            rw [HasKids, hgete id] at this
            exact this
        have hn21 : ∀ id, id < f1.arena.size → NodeOk2 f1 id := by
          intro id hid
          rw [hsz1] at hid
          exact nodeOk2_arena harena1 hTF1 (hn2 id hid)
        have hnid1 : nid < f1.arena.size := by omega
        -- the queue measure splits off the popped node
        have hQMsplit : queueMeasure f = 3 ^ eMeasure f nid + queueMeasure f1 := by
          unfold queueMeasure
          rw [hqms, subMeasure_cons]
          have : subMeasure f (f1.leafQueue.toList : Multiset Nat)
              = subMeasure f1 (f1.leafQueue.toList : Multiset Nat) :=
            subMeasure_congr (fun x _ => (he1 x).symm)
          rw [this]
        rw [trainLoop_go hq hpop]
        by_cases hdf : ((getN f1 nid).branchData.decideFeature == -1) = true
        · rw [if_pos hdf]
          exact ⟨f1, rfl⟩
        · rw [if_neg hdf]
          by_cases hmin : (getN f1 nid).misclassified < f1.minMisclassified
          · rw [if_pos hmin]
            exact ⟨f1, rfl⟩
          · rw [if_neg hmin]
            have hcand : (getN f1 nid).branchData.decideFeature ≠ -1 := by
              simpa using hdf
            cases hcv : convertToBranch f1 nid with
            | error e => exact absurd hcv (convert_ne hinv1 hnid1 hcand hkq1)
            | ok f2 =>
                rw [exceptBind_ok]
                obtain ⟨hinv2, hkq2, hn22, hTF2, he2, K, hKms, hKlt⟩ :=
                  convert_dec hinv1 (by rw [hTF1]; exact hFnn) hn21 hnid1 hcand hkq1 hcv
                have hQM2 : queueMeasure f2 = queueMeasure f1 + subMeasure f2 K := by
                  unfold queueMeasure
                  rw [hKms, subMeasure_add]
                  have : subMeasure f2 (f1.leafQueue.toList : Multiset Nat)
                      = subMeasure f1 (f1.leafQueue.toList : Multiset Nat) := by
                    refine subMeasure_congr ?_
                    intro x hx
                    have hxl : x ∈ f1.leafQueue.toList := by simpa using hx
                    exact he2 x (by
                      have := hinv.queueIds x (hmemsub x hxl)
                      omega)
                  rw [this]
                have hlt2 : queueMeasure f2 < queueMeasure f := by
                  have hKe : subMeasure f2 K < 3 ^ eMeasure f nid := by
                    rw [← he1 nid]
                    exact hKlt
                  omega
                have hW1 : 1 ≤ W := by
                  have := pow3_pos (eMeasure f nid)
                  omega
                have hFnn2 : 0 ≤ f2.trainFrameCount := by
                  rw [hTF2, hTF1]
                  exact hFnn
                obtain ⟨g, hg⟩ := IH (W - 1) (by omega) hinv2 hFnn2 hn22 (by omega)
                rw [show W - 1 + 1 = W from by omega] at hg
                exact ⟨g, hg⟩
  · rw [trainLoop_stop hq]
    exact ⟨f, rfl⟩

/-- The fresh root satisfies the measure facts: its input list is exactly
the frame range and its stored count is within the frame count. -/
theorem nodeOk2_preRoot (fs minM : Int) (samples expected : List Int) (mT : Bool) (mis : Int)
    (hfslen : fs ≤ (samples.length : Int) + 1)
    (hmisF : mis ≤ (samples.length : Int) - fs + 1) :
    ∀ id, id < (preRootState fs minM samples expected mT mis).arena.size →
      NodeOk2 (preRootState fs minM samples expected mT mis) id := by
  intro id hid
  have hid0 : id = 0 := by
    have : (preRootState fs minM samples expected mT mis).arena.size = 1 := by
      simp [preRootState]
    omega
  subst hid0
  have hget : getN (preRootState fs minM samples expected mT mis) 0
      = mkRoot ((samples.length : Int) - fs + 1) mT mis 0 := by
    simp [preRootState, getN]
  refine ⟨?_, ?_, ?_⟩
  · rw [hget]
    show ((rootInputs ((samples.length : Int) - fs + 1)).length : Int)
        ≤ (preRootState fs minM samples expected mT mis).trainFrameCount
    have hlen : (rootInputs ((samples.length : Int) - fs + 1)).length
        = ((samples.length : Int) - fs + 1).toNat := by
      simp [rootInputs]
    rw [hlen]
    show (((((samples.length : Int) - fs + 1)).toNat : Nat) : Int)
        ≤ (samples.length : Int) - fs + 1
    omega
  · rw [hget]
    show mis ≤ (preRootState fs minM samples expected mT mis).trainFrameCount
    show mis ≤ (samples.length : Int) - fs + 1
    exact hmisF
  · intro l h hl hh
    rw [hget] at hl
    cases hl

/-- trainSetup on well-formed input also establishes the measure facts and
a nonnegative frame count. -/
theorem trainSetup_wf2 (fs minM : Int) (samples expected : List Int) {f0 : Forest}
    (hnew : NewForest fs 1 minM = .ok f0)
    (hfs1 : 1 ≤ fs) (hfslen : fs ≤ (samples.length : Int) + 1)
    (hlen : samples.length ≤ expected.length) :
    ∃ f1, trainSetup f0 samples expected = .ok f1 ∧ Inv f1 ∧
      f1.leafQueue = #[0] ∧ 0 ≤ f1.trainFrameCount ∧
      (∀ id, id < f1.arena.size → NodeOk2 f1 id) := by
  unfold NewForest at hnew
  rw [if_neg (by norm_num), if_neg (by simp), if_neg (by omega)] at hnew
  cases hsu : trainSetup f0 samples expected with
  | error e =>
      exfalso
      cases hnew
      simp only [trainSetup] at hsu
      rw [trueCount_eval _ (by simpa using hfs1) (by simpa using by omega :
          ((samples.length : Int) - fs + 1) + fs - 1 ≤ (expected.length : Int))] at hsu
      rw [exceptBind_ok] at hsu
      simp only at hsu
      rw [show (List.range (Int.toNat 1) : List Nat) = [0] from rfl, List.foldlM_cons] at hsu
      simp only at hsu
      rw [if_neg (by omega : ¬ ((samples.length : Int) - fs + 1 < 0))] at hsu
      simp only [List.foldlM_nil, bind_pure] at hsu
      rw [show (#[] : Array Node).size = 0 from rfl] at hsu
      exact precalc_ne (inv_preRoot fs minM samples expected _ _ hfs1 hfslen hlen)
        (by simp [preRootState]) hsu
  | ok f1 =>
      cases hnew
      simp only [trainSetup] at hsu
      rw [trueCount_eval _ (by simpa using hfs1) (by simpa using by omega :
          ((samples.length : Int) - fs + 1) + fs - 1 ≤ (expected.length : Int))] at hsu
      rw [exceptBind_ok] at hsu
      simp only at hsu
      rw [show (List.range (Int.toNat 1) : List Nat) = [0] from rfl, List.foldlM_cons] at hsu
      simp only at hsu
      rw [if_neg (by omega : ¬ ((samples.length : Int) - fs + 1 < 0))] at hsu
      simp only [List.foldlM_nil, bind_pure] at hsu
      rw [show (#[] : Array Node).size = 0 from rfl] at hsu
      have hb := endLabel_bounds expected fs ((samples.length : Int) - fs + 1)
      have hF0 : (0 : Int) ≤ (samples.length : Int) - fs + 1 := by omega
      have hmisB : 0 ≤ (if decide (endLabelTrueCount expected fs
            ((samples.length : Int) - fs + 1)
          > ((samples.length : Int) - fs + 1)
              - endLabelTrueCount expected fs ((samples.length : Int) - fs + 1)) = true
          then ((samples.length : Int) - fs + 1)
              - endLabelTrueCount expected fs ((samples.length : Int) - fs + 1)
          else endLabelTrueCount expected fs ((samples.length : Int) - fs + 1)) ∧
          (if decide (endLabelTrueCount expected fs ((samples.length : Int) - fs + 1)
            > ((samples.length : Int) - fs + 1)
              - endLabelTrueCount expected fs ((samples.length : Int) - fs + 1)) = true
          then ((samples.length : Int) - fs + 1)
              - endLabelTrueCount expected fs ((samples.length : Int) - fs + 1)
          else endLabelTrueCount expected fs ((samples.length : Int) - fs + 1))
            ≤ (samples.length : Int) - fs + 1 := by
        constructor
        · split
          · omega
          · omega
        · split
          · omega
          · omega
      obtain ⟨hinv1, hstat1, hmk1, hq1, _⟩ := precalc_inv
        (inv_preRoot fs minM samples expected _ _ hfs1 hfslen hlen) (by simp [preRootState])
        (by
          show 0 ≤ (if decide (endLabelTrueCount expected fs ((samples.length : Int) - fs + 1)
            > ((samples.length : Int) - fs + 1)
                - endLabelTrueCount expected fs ((samples.length : Int) - fs + 1)) = true
            then ((samples.length : Int) - fs + 1)
                - endLabelTrueCount expected fs ((samples.length : Int) - fs + 1)
            else endLabelTrueCount expected fs ((samples.length : Int) - fs + 1))
          exact hmisB.1) hsu
      obtain ⟨hn2f1, _⟩ := precalc_inv2
        (inv_preRoot fs minM samples expected _ _ hfs1 hfslen hlen)
        (by
          show (0 : Int) ≤ (samples.length : Int) - fs + 1
          omega)
        (nodeOk2_preRoot fs minM samples expected _ _ hfslen hmisB.2)
        (by simp [preRootState]) hsu
      have hTF1 : f1.trainFrameCount = (samples.length : Int) - fs + 1 := by
        rw [hstat1.2.2.2.2.2.1]
        rfl
      refine ⟨f1, rfl, hinv1, ?_, by omega, hn2f1⟩
      rw [hq1]
      rfl

/-- C9: on well-formed input (equal lengths, 1 ≤ frameSize ≤ len(samples),
treeCount = 1, minMisclassified ≥ 0) the whole training call terminates:
some finite iteration budget lets the growth loop reach one of its three
natural exits (done), rather than running forever.  The budget is the
queue measure of the state after setup, a sum over the queued leaves of an
exponential in a per-node lexicographic rank (input-list size, then
classification, then stored count) that every conversion strictly
decreases. -/
theorem claim_C9 (fs minM : Int) (samples expected : List Int)
    (hlen : samples.length = expected.length)
    (hfs1 : 1 ≤ fs) (hfs2 : fs ≤ (samples.length : Int))
    (hminM : 0 ≤ minM) :
    ∃ (fuel : Nat) (g : Forest),
      trainRun fs 1 minM samples expected fuel = .ok (.done g) := by
  cases hnf : NewForest fs 1 minM with
  | error e =>
      exfalso
      unfold NewForest at hnf
      rw [if_neg (by norm_num), if_neg (by simp), if_neg (by omega)] at hnf
      cases hnf
  | ok f0 =>
      obtain ⟨f1, hsu, hinv1, hq1, hFnn1, hn21⟩ :=
        trainSetup_wf2 fs minM samples expected hnf hfs1 (by omega) (by omega)
      obtain ⟨g, hloop⟩ := trainLoop_term (queueMeasure f1) hinv1 hFnn1 hn21 (le_refl _)
      refine ⟨queueMeasure f1 + 1, g, ?_⟩
      unfold trainRun Train
      rw [hnf, exceptBind_ok]
      show (do
        let f ← trainSetup f0 samples expected
        let f ← heapInitF f
        trainLoop f (queueMeasure f1 + 1) : Except String LoopRes) = _
      rw [hsu, exceptBind_ok]
      show (do
        let f ← heapInitF f1
        trainLoop f (queueMeasure f1 + 1) : Except String LoopRes) = _
      rw [heapInitF_single (show f1.leafQueue.size = 1 from by rw [hq1]; rfl),
        exceptBind_ok]
      exact hloop

theorem claim_C9_wit :
    ∃ (fuel : Nat) (g : Forest),
      trainRun 2 1 0 [10, 15, 11, 12, 8, 3, 7] [0, 1, 0, 1, 0, 0, 1] fuel
        = .ok (.done g) :=
  claim_C9 2 0 [10, 15, 11, 12, 8, 3, 7] [0, 1, 0, 1, 0, 0, 1]
    (by decide) (by decide) (by decide) (by decide)

end Eego
